import Mathlib

/-!
Verification of the FOMC "dot plot" scraper (files `src/scrape.py` and
`src/utils.py`) against its natural-language specification.

The Python code is shallowly embedded: strings are `List Char` / `String`,
pandas `DataFrame`s are a column list plus positional rows, exceptions are
`Except` values, and the numpy argsort used by `DataFrame.sort_values` is
embedded as an executable fuelled introsort.  All definitions are
executable so that concrete witnesses evaluate by `decide` / `rfl`.
-/

namespace FedScraper

/-- View of `Except` as a sum, used to derive decidable equality. -/
def exceptToSum : Except ε α → ε ⊕ α
  | .error e => .inl e
  | .ok a => .inr a

instance [DecidableEq ε] [DecidableEq α] : DecidableEq (Except ε α) := fun a b =>
  decidable_of_iff (exceptToSum a = exceptToSum b)
    (by cases a <;> cases b <;> simp [exceptToSum])

/-- Errors of the pipeline.  The Python code raises built-in exceptions
(`IndexError`, `AttributeError`, `ValueError`, pandas parse errors); each
distinct raise site is modelled by one constructor, named after the
spec's error taxonomy where the spec names the failure. -/
inductive ScrapeError where
  /-- `utils.parse_date` fails: either `re.split(...)[1]` raises
  `IndexError` (marker absent) or `pd.to_datetime` rejects the tail. -/
  | malformedUrl
  /-- `soup.find(["h4","h5"], ...)` returned `None` and
  `target_h4.find_next` raises `AttributeError`. -/
  | anchorNotFound
  /-- `target_h4.find_next("table")` returned `None` and
  `target_table.thead` raises `AttributeError`. -/
  | tableNotFound
  /-- `target_table.thead`, `.thead.tr` missing: `AttributeError`. -/
  | missingThead
  /-- `target_table.tbody` missing: `AttributeError`. -/
  | missingTbody
  /-- `headers[i]` raises `IndexError`: a body row has more cells than
  the header row. -/
  | headerIndexError
  /-- `df.url` on the empty frame built from zero links raises
  `AttributeError`. -/
  | noUrlColumn
  /-- `pd.concat([])` raises `ValueError` (no objects to concatenate). -/
  | concatEmpty
  /-- `big_df[col_order]` with a requested column absent: `KeyError`. -/
  | keyError
deriving DecidableEq, Repr

/-! ## String utilities

`re.split`, `str.replace` and Python slicing are embedded on `List Char`.
All recursions are structural (a fuel argument where the step size is not
one), so the kernel can evaluate them in witnesses. -/

/-- The marker substring `"fomcprojtabl"` of `utils.parse_date`. -/
def markerL : List Char := "fomcprojtabl".data

/-- The suffix `".htm"` stripped by `utils.parse_date`. -/
def htmL : List Char := ".htm".data

/-- `pat in s` for strings (Python substring containment): some suffix of
`s` starts with `pat`. -/
def containsSub (pat : List Char) : List Char → Bool
  | [] => pat.isEmpty
  | c :: cs => pat.isPrefixOf (c :: cs) || containsSub pat cs

/-- One step of `re.split("fomcprojtabl", url)`: scans left to right, and
at each non-overlapping occurrence of the marker emits the chunk read so
far.  `acc` holds the current chunk reversed; `fuel` dominates the length
of the remaining input (each step consumes at least one character). -/
def splitMarkerAux : Nat → List Char → List Char → List (List Char)
  | 0, s, acc => [acc.reverse ++ s]
  | fuel + 1, s, acc =>
    match s with
    | [] => [acc.reverse]
    | c :: cs =>
      if markerL.isPrefixOf (c :: cs) then
        acc.reverse :: splitMarkerAux fuel ((c :: cs).drop markerL.length) []
      else
        splitMarkerAux fuel cs (c :: acc)

/-- `re.split(r"fomcprojtabl", url)` (the pattern has no groups, so this
is literal non-overlapping splitting). -/
def splitMarker (s : List Char) : List (List Char) :=
  splitMarkerAux (s.length + 1) s []

/-- One step of Python `s.replace(".htm", "")`: remove every
non-overlapping occurrence of `".htm"`, scanning left to right. -/
def replaceHtmAux : Nat → List Char → List Char
  | 0, s => s
  | _fuel + 1, [] => []
  | fuel + 1, c :: cs =>
    if htmL.isPrefixOf (c :: cs) then
      replaceHtmAux fuel ((c :: cs).drop htmL.length)
    else
      c :: replaceHtmAux fuel cs

/-- Python `s.replace(".htm", "")`. -/
def replaceHtm (s : List Char) : List Char :=
  replaceHtmAux (s.length + 1) s

/-- Python `s[-8:]` (the whole string when it is shorter than 8). -/
def takeLast (n : Nat) (s : List Char) : List Char :=
  s.drop (s.length - n)

/-! ## Calendar dates and `pd.to_datetime`

`utils.parse_date` hands the 8-character tail to `pd.to_datetime`.  On
this URL family the format actually carried is `YYYYMMDD`, but
`pd.to_datetime` is lenient and also accepts other date spellings
(`2012-1-2`, `1/2/2012`, `2012`, ...); the embedding `pdToDatetime`
below models the all-digit and digit-with-separator forms.  Accepted
dates must be real calendar dates inside the `pd.Timestamp` range
(pandas rejects dates outside 1677-09-22 .. 2262-04-11 with
`OutOfBoundsDatetime`). -/

structure Date where
  year : Nat
  month : Nat
  day : Nat
deriving DecidableEq, Repr

instance : Inhabited Date := ⟨⟨1970, 1, 1⟩⟩

/-- Gregorian leap year. -/
def isLeap (y : Nat) : Bool := (y % 4 = 0 && y % 100 != 0) || y % 400 = 0

/-- Days in a month of the Gregorian calendar. -/
def daysInMonth (y m : Nat) : Nat :=
  if m = 2 then (if isLeap y then 29 else 28)
  else if m = 4 || m = 6 || m = 9 || m = 11 then 30
  else 31

/-- Numeric `YYYYMMDD` encoding of a date; monotone in chronological
order for calendar-valid dates. -/
def dateOrd (d : Date) : Nat := d.year * 10000 + d.month * 100 + d.day

/-- A calendar-valid date that `pd.to_datetime` accepts (within the
`pd.Timestamp` range). -/
def pdValid (y m d : Nat) : Bool :=
  1 ≤ m && m ≤ 12 && 1 ≤ d && d ≤ daysInMonth y m &&
    16770922 ≤ y * 10000 + m * 100 + d && y * 10000 + m * 100 + d ≤ 22620411

/-- Numeric value of a digit list (most significant first). -/
def digitsVal (l : List Char) : Nat :=
  l.foldl (fun a c => 10 * a + (c.toNat - 48)) 0

/-- The ISO-basic `YYYYMMDD` reading of a tail: an 8-digit string
denoting a `pd.Timestamp`-representable calendar date.  This is both
the spelling the source URLs actually carry and the spec's notion of
"the trailing 8 characters form a valid calendar date". -/
def parseYYYYMMDD (l : List Char) : Option Date :=
  if l.length = 8 && l.all Char.isDigit then
    let y := digitsVal (l.take 4)
    let m := digitsVal ((l.drop 4).take 2)
    let d := digitsVal (l.drop 6)
    if pdValid y m d then some ⟨y, m, d⟩ else none
  else none

/-- Split on a single separator character (every occurrence). -/
def splitChar (sep : Char) : List Char → List Char → List (List Char)
  | [], acc => [acc.reverse]
  | c :: cs, acc =>
    if c = sep then acc.reverse :: splitChar sep cs []
    else splitChar sep cs (c :: acc)

/-- Range-checked date constructor (`pd.to_datetime` validates month,
day and the `pd.Timestamp` bounds). -/
def mkPdDate (y m d : Nat) : Option Date :=
  if pdValid y m d then some ⟨y, m, d⟩ else none

/-- `pd.to_datetime` on the tail `parse_date` extracts.  pandas first
tries the ISO-8601 fast paths and otherwise falls back to `dateutil`,
which accepts many date spellings - not just `YYYYMMDD`.  Modelled
here: the ISO-basic all-digit forms `YYYYMMDD`, `YYYYMM` and `YYYY`,
and the separated all-digit forms with a uniform `-`, `/` or `.`
separator - four-digit-year-first `Y-M-D` and `Y-M`, and
four-digit-year-last `M/D/Y`, with `dateutil`'s month/day swap when
the month slot exceeds 12.  Spellings outside these forms (month
names, two-digit years, mixed separators) are modelled as rejected. -/
def pdToDatetime (l : List Char) : Option Date :=
  if l.length = 8 && l.all Char.isDigit then
    parseYYYYMMDD l
  else if l.length = 6 && l.all Char.isDigit then
    mkPdDate (digitsVal (l.take 4)) (digitsVal (l.drop 4)) 1
  else if l.length = 4 && l.all Char.isDigit then
    mkPdDate (digitsVal l) 1 1
  else
    match l.find? (fun c => !c.isDigit) with
    | some sep =>
      if sep = '-' || sep = '/' || sep = '.' then
        match splitChar sep l [] with
        | [a, b, c] =>
          if a.all Char.isDigit && b.all Char.isDigit && c.all Char.isDigit then
            if a.length = 4 && 1 ≤ b.length && b.length ≤ 2
                && 1 ≤ c.length && c.length ≤ 2 then
              if digitsVal b ≤ 12 then mkPdDate (digitsVal a) (digitsVal b) (digitsVal c)
              else mkPdDate (digitsVal a) (digitsVal c) (digitsVal b)
            else if c.length = 4 && 1 ≤ a.length && a.length ≤ 2
                && 1 ≤ b.length && b.length ≤ 2 then
              if digitsVal a ≤ 12 then mkPdDate (digitsVal c) (digitsVal a) (digitsVal b)
              else mkPdDate (digitsVal c) (digitsVal b) (digitsVal a)
            else none
          else none
        | [a, b] =>
          if a.all Char.isDigit && b.all Char.isDigit && a.length = 4
              && 1 ≤ b.length && b.length ≤ 2 then
            mkPdDate (digitsVal a) (digitsVal b) 1
          else none
        | _ => none
      else none
    | none => none

/-- `utils.parse_date`:

    s = re.split(r"fomcprojtabl", url)[1]
    s = s.replace(".htm", "")
    return pd.to_datetime(s[-8:])

`[1]` raises `IndexError` when the split yields a single part (marker
absent); `pd.to_datetime` raises when the tail is not a date.  Both raise
sites are the spec's `MalformedUrlError`. -/
def parse_date (url : String) : Except ScrapeError Date :=
  match (splitMarker url.data).get? 1 with
  | none => .error .malformedUrl
  | some s =>
    match pdToDatetime (takeLast 8 (replaceHtm s)) with
    | none => .error .malformedUrl
    | some d => .ok d

/-! ## `slugify(text, separator="_")`

Embedding of `python-slugify` (default options, `separator="_"`) for the
ASCII, entity-free header texts this scraper feeds it.  The library
pipeline is: replace apostrophe runs with `"-"`; transliterate/decode
(identity on ASCII text without HTML entities, omitted); lowercase;
delete remaining apostrophes; delete commas standing between two digits;
replace each run of characters outside `[-a-z0-9]` with `"-"`; collapse
runs of `"-"` and strip leading/trailing `"-"`; finally replace `"-"`
with the requested separator `"_"`. -/

/-- An apostrophe (`QUOTE_PATTERN`), written by code point. -/
def isQuote (c : Char) : Bool := c.toNat = 39

/-- Replace each maximal run of apostrophes with a single dash
(`QUOTE_PATTERN.sub("-", text)`).  The flag records whether the previous
character was part of a quote run. -/
def quoteSubAux : Bool → List Char → List Char
  | _, [] => []
  | inRun, c :: cs =>
    if isQuote c then
      if inRun then quoteSubAux true cs else '-' :: quoteSubAux true cs
    else c :: quoteSubAux false cs

/-- ASCII lowercasing (`text.lower()`; the header texts are ASCII). -/
def lowerL (s : List Char) : List Char := s.map Char.toLower

/-- Delete remaining apostrophes (`QUOTE_PATTERN.sub("", text)`). -/
def quoteRemove (s : List Char) : List Char := s.filter (fun c => !isQuote c)

/-- Delete each comma whose original neighbours are both digits
(`NUMBERS_PATTERN.sub("", text)`; the lookaround is on the original
string, hence the previous original character is threaded through). -/
def numbersCleanAux : Option Char → List Char → List Char
  | _, [] => []
  | prev, c :: cs =>
    if c = ',' && (match prev with | some p => p.isDigit | none => false)
        && (match cs with | d :: _ => d.isDigit | [] => false) then
      numbersCleanAux (some c) cs
    else c :: numbersCleanAux (some c) cs

/-- The characters `ALLOWED_CHARS_PATTERN` keeps: `[-a-z0-9]`, by code
point (45, 97-122, 48-57). -/
def isAllowedSlug (c : Char) : Bool :=
  c.toNat = 45 || (97 ≤ c.toNat && c.toNat ≤ 122) || (48 ≤ c.toNat && c.toNat ≤ 57)

/-- Replace each maximal run of disallowed characters with a single dash
(`re.sub(ALLOWED_CHARS_PATTERN, "-", text)`). -/
def allowedSubAux : Bool → List Char → List Char
  | _, [] => []
  | inRun, c :: cs =>
    if isAllowedSlug c then c :: allowedSubAux false cs
    else if inRun then allowedSubAux true cs
    else '-' :: allowedSubAux true cs

/-- Collapse runs of two or more dashes to one
(`DUPLICATE_DASH_PATTERN.sub("-", text)`). -/
def dedupeDashAux : Bool → List Char → List Char
  | _, [] => []
  | prevDash, c :: cs =>
    if c = '-' then
      if prevDash then dedupeDashAux true cs else '-' :: dedupeDashAux true cs
    else c :: dedupeDashAux false cs

/-- Python `text.strip("-")`. -/
def stripDash (s : List Char) : List Char :=
  ((s.dropWhile (fun c => c = '-')).reverse.dropWhile (fun c => c = '-')).reverse

/-- Final `text.replace("-", "_")` for `separator="_"`. -/
def sepSwap (s : List Char) : List Char :=
  s.map (fun c => if c = '-' then '_' else c)

/-- The character pipeline of `slugify(text, separator="_")`. -/
def slugifyChars (l : List Char) : List Char :=
  sepSwap (stripDash (dedupeDashAux false (allowedSubAux false
    (numbersCleanAux none (quoteRemove (lowerL (quoteSubAux false l)))))))

/-- `slugify(text, separator="_")` on ASCII entity-free text. -/
def slugify_ (s : String) : String := ⟨slugifyChars s.data⟩

/-! ## Cells, `safestr`, and the DataFrame model -/

/-- A pandas cell as this pipeline produces it: `NaN`/`None`, a string,
or a date (the `date` column). -/
inductive Cell where
  | null
  | str (v : String)
  | date (v : Date)
deriving DecidableEq, Repr

/-- Python `str.strip()`: drop leading and trailing whitespace. -/
def pyStrip (s : String) : String :=
  ⟨((s.data.dropWhile Char.isWhitespace).reverse.dropWhile Char.isWhitespace).reverse⟩

/-- `utils.safestr(ele)`: `ele.strip() or None` — the stripped string,
or null when stripping leaves the empty string. -/
def safestr (s : String) : Cell :=
  if pyStrip s = "" then .null else .str (pyStrip s)

/-- A pandas `DataFrame`: named columns and positional rows.  Every row
of a well-formed frame has exactly `cols.length` cells; the operations
below construct only such frames. -/
structure DataFrame where
  cols : List String
  rows : List (List Cell)
deriving DecidableEq, Repr

/-- The cell of row `r` (laid out by `cols`) at column `c`; `.null` when
the column is absent (pandas yields `NaN` when reindexing). -/
def cellOf (cols : List String) (r : List Cell) (c : String) : Cell :=
  match cols.findIdx? (fun k => k = c) with
  | some i => r.getD i .null
  | none => .null

/-- `df[cs]`: column selection in the requested order; `KeyError` when a
requested column is absent. -/
def selectCols (df : DataFrame) (cs : List String) : Except ScrapeError DataFrame :=
  if cs.all (fun c => df.cols.contains c) then
    .ok ⟨cs, df.rows.map (fun r => cs.map (fun c => cellOf df.cols r c))⟩
  else .error .keyError

/-- Columns of `pd.concat`: union of the frames' columns in order of
first appearance (`sort=False` default of modern pandas). -/
def unionCols (dfs : List DataFrame) : List String :=
  dfs.foldl (fun acc df => acc ++ df.cols.filter (fun c => !acc.contains c)) []

/-- `pd.concat(df_list)`: row-wise concatenation, every row reindexed to
the union of the column sets with `NaN` for missing cells; raises
`ValueError` on an empty list. -/
def concatDfs : List DataFrame → Except ScrapeError DataFrame
  | [] => .error .concatEmpty
  | df :: dfs =>
    let cols := unionCols (df :: dfs)
    .ok ⟨cols, ((df :: dfs).map (fun d =>
      d.rows.map (fun r => cols.map (fun c => cellOf d.cols r c)))).flatten⟩

/-- Python `sorted` on strings: ascending lexicographic order by code
point (a stable mergesort; column names are distinct here). -/
def sortStrings (l : List String) : List String :=
  l.mergeSort (fun a b => a ≤ b)

/-- Lines 44-50 of `scrape.py`:

    col_order = ["date", "midpoint"] + sorted(
        [col for col in big_df if col not in ["date", "midpoint"]]
    )
    return big_df[col_order]
-/
def reorderCols (df : DataFrame) : Except ScrapeError DataFrame :=
  selectCols df (["date", "midpoint"] ++
    sortStrings (df.cols.filter (fun c => !(c = "date" || c = "midpoint"))))

/-- `scrape()`'s aggregation tail: concatenate the per-page frames and
reorder the columns. -/
def aggregate (dfs : List DataFrame) : Except ScrapeError DataFrame := do
  reorderCols (← concatDfs dfs)

/-! ## Source pages and `_parse_source_url`

A parsed page is the flat list of its elements in document order.  A
heading element carries its tag name and its BeautifulSoup `.string`
(`none` when the element does not wrap a single string, matching the
`string=` filter of `soup.find`).  A table element carries the text of
the `th` cells of `thead.tr` and the cell texts of each `tbody` row
(`th` and `td` alike, as in `tr.find_all(["th", "td"])`); a missing
`thead`/`tbody` section is `none` and makes the code raise
`AttributeError`. -/

structure HtmlTable where
  thead : Option (List String)
  tbody : Option (List (List String))
deriving DecidableEq, Repr

inductive Node where
  | heading (tag : String) (text : Option String)
  | table (t : HtmlTable)
  | other
deriving DecidableEq, Repr

/-- The anchor phrase searched for in heading text. -/
def phraseL : List Char := "assessments of appropriate monetary policy".data

/-- The predicate of `soup.find(["h4", "h5"], string=lambda text: text
and "assessments of appropriate monetary policy" in text.lower())`:
a `h4`/`h5` whose `.string` is truthy and contains the phrase after
lowercasing. -/
def isAnchor : Node → Bool
  | .heading tag txt =>
    (tag = "h4" || tag = "h5") &&
      (match txt with
       | none => false
       | some t => !t.isEmpty && containsSub phraseL (lowerL t.data))
  | _ => false

/-- Is the node a `table` element? -/
def isTableNode : Node → Bool
  | .table _ => true
  | _ => false

/-- `target_h4.find_next("table")`: the first table element strictly
after position `i` in document order. -/
def firstTableAfter (doc : List Node) (i : Nat) : Option HtmlTable :=
  match (doc.drop (i + 1)).find? isTableNode with
  | some (.table t) => some t
  | _ => none

/-- Python `str(x)` on an `Optional[str]` (note `str(None) = "None"`,
which the code feeds to `slugify` for blank headers). -/
def pyStrOpt : Option String → String
  | none => "None"
  | some s => s

/-- Python `dict` insertion: overwriting an existing key keeps its
original position, a new key is appended. -/
def dictSet (d : List (String × Cell)) (k : String) (v : Cell) :
    List (String × Cell) :=
  if d.any (fun kv => kv.fst = k) then
    d.map (fun kv => if kv.fst = k then (k, v) else kv)
  else d ++ [(k, v)]

/-- The row loop of `_parse_source_url` (lines 119-133): cells are
matched to headers purely by ordinal position; `headers[i]` raises
`IndexError` when a row has more cells than the header row, while a row
with fewer cells silently uses only the first headers. -/
def parseRowAux (headers : List (Option String)) :
    List String → Nat → List (String × Cell) →
    Except ScrapeError (List (String × Cell))
  | [], _, acc => .ok acc
  | c :: cs, i, acc =>
    match headers.get? i with
    | none => .error .headerIndexError
    | some h => parseRowAux headers cs (i + 1)
        (dictSet acc (slugify_ (pyStrOpt h)) (safestr c))

/-- One body row turned into a Python dict keyed by slugified headers. -/
def parseRow (headers : List (Option String)) (cells : List String) :
    Except ScrapeError (List (String × Cell)) :=
  parseRowAux headers cells 0 []

/-- Left-to-right effectful map, stopping at the first error (the
Python loop raises at the first offending row). -/
def mapE (f : α → Except ε β) : List α → Except ε (List β)
  | [] => .ok []
  | a :: as =>
    match f a with
    | .error e => .error e
    | .ok b =>
      match mapE f as with
      | .error e => .error e
      | .ok bs => .ok (b :: bs)

/-- `pd.DataFrame(row_list)` for a list of dicts: columns are the keys
in order of first appearance; each row is reindexed, missing keys
becoming `NaN`. -/
def frameOfRecords (dicts : List (List (String × Cell))) : DataFrame :=
  let cols := dicts.foldl
    (fun acc d => acc ++ (d.map Prod.fst).filter (fun k => !acc.contains k)) []
  ⟨cols, dicts.map (fun d => cols.map (fun c => ((d.lookup c).getD .null)))⟩

/-- `df["date"] = date`: overwrite the column if present, else append it,
with the same scalar in every row. -/
def setCol (df : DataFrame) (c : String) (v : Cell) : DataFrame :=
  if df.cols.contains c then
    ⟨df.cols, df.rows.map (fun r => df.cols.map (fun k => if k = c then v else cellOf df.cols r k))⟩
  else
    ⟨df.cols ++ [c], df.rows.map (fun r => r ++ [v])⟩

/-- `df.rename(columns={df.columns[0]: "midpoint"})`.  After
`df["date"] = date` the frame always has at least one column, so the
empty case is unreachable; it is mapped to the unchanged frame. -/
def renameFirstToMidpoint (df : DataFrame) : DataFrame :=
  match df.cols with
  | [] => df
  | _ :: rest => ⟨"midpoint" :: rest, df.rows⟩

/-- `_parse_source_url` after the fetch: locate the anchor heading and
the next table, parse headers and body rows, build the frame, attach the
meeting date, rename the first column to `midpoint`. -/
def extractTable (doc : List Node) (date : Date) : Except ScrapeError DataFrame :=
  match doc.findIdx? isAnchor with
  | none => .error .anchorNotFound
  | some i =>
    match firstTableAfter doc i with
    | none => .error .tableNotFound
    | some tbl =>
      match tbl.thead with
      | none => .error .missingThead
      | some ths =>
        let headers := ths.map (fun th => match safestr th with
          | .null => none
          | .str s => some s
          | .date _ => none)
        match tbl.tbody with
        | none => .error .missingTbody
        | some trs =>
          match mapE (parseRow headers) trs with
          | .error e => .error e
          | .ok dicts =>
            let df := setCol (frameOfRecords dicts) "date" (.date date)
            .ok (renameFirstToMidpoint df)

/-! ## `DataFrame.sort_values("date")`

pandas sorts one column with `values.argsort(kind="quicksort")`, numpy's
introsort (`npysort/quicksort.c.src`, `aquicksort_`): a depth-limited
quicksort over the index array `tosort` with median-of-3 pivoting,
switching to an insertion sort for segments of at most
`SMALL_QUICKSORT = 15` pointer difference (so at most 16 elements) and
to a heapsort when the depth budget `2 * msb(num)` is exhausted.  The
loops below mirror that C routine on `List Nat`; the recursions that are
not structurally decreasing carry a fuel argument that dominates the
loop bound (exhaustion returns the current state and is unreachable for
the generous fuel used).  Keys are the `dateOrd` encodings of the date
column (monotone in chronological order for the calendar-valid dates the
pipeline builds). -/

/-- Key of the element at position `p` of the index array `t`. -/
def keyAt (keys t : List Nat) (p : Nat) : Nat := keys.getD (t.getD p 0) 0

/-- Swap the entries of `t` at positions `i` and `j` (`INTP_SWAP`). -/
def lswap (t : List Nat) (i j : Nat) : List Nat :=
  (t.set i (t.getD j 0)).set j (t.getD i 0)

/-- `do ++pi; while (v[*pi] < vp)`. -/
def scanUp (keys t : List Nat) (vp : Nat) : Nat → Nat → Nat
  | 0, pi => pi + 1
  | f + 1, pi =>
    let pi' := pi + 1
    if keyAt keys t pi' < vp then scanUp keys t vp f pi' else pi'

/-- `do --pj; while (vp < v[*pj])`. -/
def scanDown (keys t : List Nat) (vp : Nat) : Nat → Nat → Nat
  | 0, pj => pj - 1
  | f + 1, pj =>
    let pj' := pj - 1
    if vp < keyAt keys t pj' then scanDown keys t vp f pj' else pj'

/-- The Hoare scan-and-swap loop of the partition. -/
def partLoop (keys : List Nat) (vp : Nat) : Nat → List Nat → Nat → Nat → List Nat × Nat
  | 0, t, pi, _ => (t, pi)
  | f + 1, t, pi, pj =>
    let pi := scanUp keys t vp (t.length + 1) pi
    let pj := scanDown keys t vp (t.length + 1) pj
    if pi ≥ pj then (t, pi) else partLoop keys vp f (lswap t pi pj) pi pj

/-- One quicksort partition of `[pl..pr]`: median-of-3 pivot, pivot
parked at `pr - 1`, scan loop, pivot swapped back to `pi`. -/
def partitionStep (keys t : List Nat) (pl pr : Nat) : List Nat × Nat :=
  let pm := pl + (pr - pl) / 2
  let t := if keyAt keys t pm < keyAt keys t pl then lswap t pm pl else t
  let t := if keyAt keys t pr < keyAt keys t pm then lswap t pr pm else t
  let t := if keyAt keys t pm < keyAt keys t pl then lswap t pm pl else t
  let vp := keyAt keys t pm
  let t := lswap t pm (pr - 1)
  let (t, pi) := partLoop keys vp (t.length + 1) t pl (pr - 1)
  (lswap t pi (pr - 1), pi)

/-- Stable insertion of index `i` into the sorted index list built so
far.  The C loop scans the sorted prefix from the right, shifting
entries whose key strictly exceeds `keys[i]`; on the sorted prefix that
places `i` exactly before the first entry with a strictly greater key,
which is what this left-to-right rendering computes. -/
def insIdx (keys : List Nat) (i : Nat) : List Nat → List Nat
  | [] => [i]
  | j :: rest =>
    if keys.getD j 0 ≤ keys.getD i 0 then j :: insIdx keys i rest
    else i :: j :: rest

/-- The insertion sort of one segment's index list. -/
def insArg (keys : List Nat) (l : List Nat) : List Nat :=
  l.foldl (fun acc i => insIdx keys i acc) []

/-- Insertion sort of the segment `[pl..pr]` of `t`, in place. -/
def insSeg (keys t : List Nat) (pl pr : Nat) : List Nat :=
  t.take pl ++ insArg keys ((t.drop pl).take (pr + 1 - pl)) ++ t.drop (pr + 1)

/-- `a[k]` of `aheapsort_` run on the slice starting at `start`
(1-indexed: `a = tosort - 1`). -/
def aGet (t : List Nat) (start k : Nat) : Nat := t.getD (start + k - 1) 0

/-- Set `a[k]` on the slice starting at `start`. -/
def aSet (t : List Nat) (start k v : Nat) : List Nat := t.set (start + k - 1) v

/-- Key of a tosort entry. -/
def keyOf (keys : List Nat) (idx : Nat) : Nat := keys.getD idx 0

/-- The sift-down loop of `aheapsort_` (places `tmp` while walking the
larger child). -/
def hsSift (keys : List Nat) (start n tmp : Nat) : Nat → List Nat → Nat → Nat → List Nat
  | 0, t, i, _ => aSet t start i tmp
  | f + 1, t, i, j =>
    if j ≤ n then
      let j := if j < n && keyOf keys (aGet t start j) < keyOf keys (aGet t start (j + 1))
        then j + 1 else j
      if keyOf keys tmp < keyOf keys (aGet t start j) then
        hsSift keys start n tmp f (aSet t start i (aGet t start j)) j (j + j)
      else aSet t start i tmp
    else aSet t start i tmp

/-- Heap construction (`for (l = n >> 1; l > 0; --l)`). -/
def hsBuild (keys : List Nat) (start n : Nat) : Nat → List Nat → Nat → List Nat
  | 0, t, _ => t
  | f + 1, t, l =>
    if l = 0 then t
    else hsBuild keys start n f
      (hsSift keys start n (aGet t start l) (n + 2) t l (2 * l)) (l - 1)

/-- Heap extraction (`for (; n > 1;)`). -/
def hsExtract (keys : List Nat) (start : Nat) : Nat → List Nat → Nat → List Nat
  | 0, t, _ => t
  | f + 1, t, n =>
    if n ≤ 1 then t
    else
      let tmp := aGet t start n
      let t := aSet t start n (aGet t start 1)
      let n := n - 1
      hsExtract keys start f (hsSift keys start n tmp (n + 2) t 1 2) n

/-- `aheapsort_` on the `n`-element slice of `t` starting at `start`. -/
def aheapsortSeg (keys t : List Nat) (start n : Nat) : List Nat :=
  hsExtract keys start (n + 1) (hsBuild keys start n (n / 2 + 1) t (n / 2)) n

/-- The `while ((pr - pl) > SMALL_QUICKSORT)` partition phase: keeps
partitioning the current segment, pushing the larger half (with the
decremented depth) on the stack.  A fuel of `0` returns the state
unchanged, exactly like the guard failing. -/
def partPhase (keys : List Nat) : Nat → List Nat → Nat → Nat → Int →
    List (Nat × Nat × Int) → List Nat × Nat × Nat × List (Nat × Nat × Int) × Int
  | 0, t, pl, pr, cdepth, stk => (t, pl, pr, stk, cdepth)
  | f + 1, t, pl, pr, cdepth, stk =>
    if pr - pl > 15 then
      let (t, pi) := partitionStep keys t pl pr
      let cdepth := cdepth - 1
      if pi - pl < pr - pi then
        partPhase keys f t pl (pi - 1) cdepth ((pi + 1, pr, cdepth) :: stk)
      else
        partPhase keys f t (pi + 1) pr cdepth ((pl, pi - 1, cdepth) :: stk)
    else (t, pl, pr, stk, cdepth)

/-- The outer `for (;;)` of `aquicksort_`: heapsort the segment when the
depth budget is spent, otherwise partition until small and finish the
segment with the insertion sort; then pop the next segment. -/
def qsOuter (keys : List Nat) : Nat → List Nat → Nat → Nat → Int →
    List (Nat × Nat × Int) → List Nat
  | 0, t, _, _, _, _ => t
  | f + 1, t, pl, pr, cdepth, stk =>
    if cdepth < 0 then
      let t := aheapsortSeg keys t pl (pr + 1 - pl)
      match stk with
      | [] => t
      | (a, b, d) :: rest => qsOuter keys f t a b d rest
    else
      let (t, pl', pr', stk', _) := partPhase keys (f + 1) t pl pr cdepth stk
      let t := insSeg keys t pl' pr'
      match stk' with
      | [] => t
      | (a, b, d) :: rest => qsOuter keys f t a b d rest

/-- `npy_get_msb`: the index of the most significant set bit (floor of
the base-2 logarithm), written with structural fuel. -/
def npMsbAux : Nat → Nat → Nat
  | 0, _ => 0
  | f + 1, n => if 2 ≤ n then npMsbAux f (n / 2) + 1 else 0

/-- `npy_get_msb(num)`; `num` itself dominates the number of halvings. -/
def npGetMsb (n : Nat) : Nat := npMsbAux n n

/-- `np.argsort(keys, kind="quicksort")` as pandas'
`sort_values("date")` invokes it. -/
def npArgsort (keys : List Nat) : List Nat :=
  qsOuter keys (keys.length * keys.length + 64) (List.range keys.length)
    0 (keys.length - 1) (Int.ofNat (2 * npGetMsb keys.length)) []

/-- The slice of `t` covering positions `[a..b]`. -/
def segSlice (t : List Nat) (a b : Nat) : List Nat := (t.drop a).take (b + 1 - a)

/-- `t'` agrees with `t` outside positions `[a..b]`. -/
def SameOutside (t t' : List Nat) (a b : Nat) : Prop :=
  t'.length = t.length ∧ t'.take a = t.take a ∧ t'.drop (b + 1) = t.drop (b + 1)

/-- Positions `[a..b]` of the index array `t` carry ascending keys. -/
def SortedSeg (keys t : List Nat) (a b : Nat) : Prop :=
  ∀ p q, a ≤ p → p < q → q ≤ b → keyAt keys t p ≤ keyAt keys t q

/-- `q` lies in the binary-heap subtree rooted at `i` (1-indexed
positions, children of `k` at `2k` and `2k+1`). -/
def inSub (i q : Nat) : Prop := ∃ s, q / 2 ^ s = i

/-- Element count of a pending segment. -/
def segLen (s : Nat × Nat) : Nat := s.2 + 1 - s.1

/-- Total element count of a list of pending segments. -/
def segsLen (segs : List (Nat × Nat)) : Nat := (segs.map segLen).sum

/-- The position intervals of the introsort stack. -/
def stripD (stk : List (Nat × Nat × Int)) : List (Nat × Nat) :=
  stk.map (fun e => (e.1, e.2.1))

/-- Well-formed pending segments: nonempty, in bounds, pairwise
disjoint. -/
def PendOK (n : Nat) (segs : List (Nat × Nat)) : Prop :=
  (∀ s ∈ segs, s.1 ≤ s.2 ∧ s.2 < n)
  ∧ segs.Pairwise (fun s u => s.2 < u.1 ∨ u.2 < s.1)

/-- The quicksort global invariant: any two positions that do not lie
inside one common pending segment are already mutually ordered. -/
def InvOut (keys t : List Nat) (segs : List (Nat × Nat)) : Prop :=
  ∀ p q, p < q → q < t.length →
    (∀ s ∈ segs, ¬(s.1 ≤ p ∧ q ≤ s.2)) →
    keyAt keys t p ≤ keyAt keys t q

/-! ## `_get_source_urls` -/

/-- A discovered source page: the `url` and `date` columns of the frame
`_get_source_urls` returns. -/
structure SourceRef where
  url : String
  date : Date
deriving DecidableEq, Repr

instance : Inhabited SourceRef := ⟨⟨"", default⟩⟩

/-- `df.sort_values("date")`: permute the rows by the numpy argsort of
the date keys. -/
def sortValuesByDate (refs : List SourceRef) : List SourceRef :=
  (npArgsort (refs.map (fun r => dateOrd r.date))).map (fun i => refs.getD i default)

/-- The scheme+host prefixed to every discovered link (line 77 of
`scrape.py`). -/
def siteRoot : String := "https://www.federalreserve.gov"

/-- `f"https://www.federalreserve.gov{a['href']}"`: the prefix is
attached unconditionally. -/
def buildUrl (href : String) : String := siteRoot ++ href

/-- Does a link start with a scheme, i.e. is it already absolute? -/
def isAbsoluteUrl (href : String) : Bool :=
  "https://".data.isPrefixOf href.data || "http://".data.isPrefixOf href.data

/-- The filter of `soup.find_all("a", href=lambda href: href and
"fomcprojtabl" in href and ".htm" in href)`: an anchor with no `href`
(`none`) is falsy and dropped. -/
def linkMatches : Option String → Option String
  | none => none
  | some h =>
    if containsSub markerL h.data && containsSub htmL h.data then some h else none

/-- `_get_source_urls` after the fetch, taking the `href` attributes of
the page's anchors in document order: keep matching links, build absolute
URLs, parse dates (the `.apply` raises out of the whole function on the
first bad URL), sort by date.  With zero matching links the frame has no
columns and `df.url` raises `AttributeError`. -/
def getSourceUrls (links : List (Option String)) : Except ScrapeError (List SourceRef) :=
  let hrefs := links.filterMap linkMatches
  let urls := hrefs.map buildUrl
  if urls.isEmpty then .error .noUrlColumn
  else
    match mapE parse_date urls with
    | .error e => .error e
    | .ok dates => .ok (sortValuesByDate (urls.zipWith SourceRef.mk dates))

/-! ## URL shapes used to state round-trip properties -/

/-- The decimal digit character for `k % 10`. -/
def digitChar (k : Nat) : Char := Char.ofNat (48 + k % 10)

/-- Two-digit zero-padded decimal rendering. -/
def pad2 (n : Nat) : List Char := [digitChar (n / 10), digitChar n]

/-- Four-digit zero-padded decimal rendering. -/
def pad4 (n : Nat) : List Char :=
  [digitChar (n / 1000), digitChar (n / 100), digitChar (n / 10), digitChar n]

/-- The `YYYYMMDD` rendering of a date, as it appears in source URLs. -/
def fmt8 (y m d : Nat) : List Char := pad4 y ++ pad2 m ++ pad2 d

/-- Discovery-stable ordering on row indices: strictly smaller date
key, or equal date keys in discovery (index) order.  A sort of the index
list that is ascending for this relation is exactly a stable ascending
sort of the dates. -/
def idxLe (keys : List Nat) (i j : Nat) : Prop :=
  keys.getD i 0 < keys.getD j 0 ∨ (keys.getD i 0 = keys.getD j 0 ∧ i < j)

/-- Seventeen index-page links, in discovery order, that all carry the
same meeting date (distinct one-letter suffixes before the date). -/
def tieLinks17 : List (Option String) :=
  ["a", "b", "c", "d", "e", "f", "g", "h", "i", "j", "k", "l", "m", "n", "o", "p", "q"].map
    (fun s => some ("/monetarypolicy/fomcprojtabl" ++ s ++ "20200610.htm"))

/-- What `_get_source_urls` returns on `tieLinks17`: numpy's introsort
partitions the 17 equal keys and scrambles the discovery order. -/
def tieExpected17 : List SourceRef :=
  ["a", "o", "n", "m", "l", "k", "j", "p", "i", "g", "f", "e", "d", "c", "b", "h", "q"].map
    (fun s => ⟨"https://www.federalreserve.gov/monetarypolicy/fomcprojtabl" ++ s
      ++ "20200610.htm", ⟨2020, 6, 10⟩⟩)

/-- A character of a slug word: a lowercase ASCII letter (code points
97-122) or a digit (48-57). -/
def isWordChar (c : Char) : Bool :=
  (97 ≤ c.toNat && c.toNat ≤ 122) || (48 ≤ c.toNat && c.toNat ≤ 57)

/-- Words joined by single underscores (the already-slugified shape:
lowercase, `_`-separated, no leading or trailing `_`). -/
def joinUnd : List (List Char) → List Char
  | [] => []
  | [w] => w
  | w :: w₂ :: ws => w ++ '_' :: joinUnd (w₂ :: ws)

/-- Words joined by single dashes (the intermediate shape `slugify`
produces before swapping in the requested separator). -/
def joinDash : List (List Char) → List Char
  | [] => []
  | [w] => w
  | w :: w₂ :: ws => w ++ '-' :: joinDash (w₂ :: ws)

/-! # Theorems

## Sanity evaluations of the embedded operations -/

example : parse_date "https://www.federalreserve.gov/monetarypolicy/fomcprojtabl20120125.htm"
    = .ok ⟨2012, 1, 25⟩ := by decide
example : parse_date "https://www.federalreserve.gov/foo.htm" = .error .malformedUrl := by decide
example : parse_date "https://x/fomcprojtablzz.htm" = .error .malformedUrl := by decide

example : slugify_ "Midpoint of target range" = "midpoint_of_target_range" := by decide
example : slugify_ "rate_2012" = "rate_2012" := by decide
example : slugify_ "None" = "none" := by decide

example : safestr "  2.5 " = .str "2.5" := by decide
example : safestr "   " = .null := by decide

example :
    extractTable
      [.heading "h4" (some "Assessments of Appropriate Monetary Policy: blah"),
       .other,
       .table ⟨some ["Midpoint of target range", "2012"], some [["2.5", "3"], [" ", "4"]]⟩]
      ⟨2012, 1, 25⟩
    = .ok ⟨["midpoint", "2012", "date"],
           [[.str "2.5", .str "3", .date ⟨2012, 1, 25⟩],
            [.null, .str "4", .date ⟨2012, 1, 25⟩]]⟩ := by decide

/-! ## Helper lemmas about prefixes, splitting and replacement -/

theorem ipo_append_self (p t : List Char) : p.isPrefixOf (p ++ t) = true := by
  rw [List.isPrefixOf_iff_prefix]
  exact List.prefix_append p t

theorem ipo_length {p l : List Char} (h : p.isPrefixOf l = true) :
    p.length ≤ l.length :=
  (List.isPrefixOf_iff_prefix.mp h).length_le

theorem ipo_append_left {p a b : List Char} (h : p.isPrefixOf (a ++ b) = true)
    (hl : p.length ≤ a.length) : p.isPrefixOf a = true := by
  rw [List.isPrefixOf_iff_prefix] at h ⊢
  rw [List.prefix_iff_eq_take] at h ⊢
  have h0 : p.length - a.length = 0 := by omega
  have hstep : (a ++ b).take p.length = a.take p.length := by
    rw [List.take_append_eq_append_take, h0, List.take_zero, List.append_nil]
  exact h.trans hstep

theorem ipo_split {p a b : List Char} (h : p.isPrefixOf (a ++ b) = true)
    (hl : a.length ≤ p.length) :
    a = p.take a.length ∧ (p.drop a.length).isPrefixOf b = true := by
  rw [List.isPrefixOf_iff_prefix, List.prefix_iff_eq_take] at h
  rw [List.take_append_eq_append_take, List.take_of_length_le hl] at h
  constructor
  · rw [h, List.take_append_eq_append_take, List.take_of_length_le (le_refl a.length)]
    have h0 : a.length - a.length = 0 := by omega
    rw [h0, List.take_zero, List.append_nil]
  · rw [List.isPrefixOf_iff_prefix]
    rw [h, List.drop_left]
    exact List.take_prefix _ _

theorem ipo_extend {p a b : List Char} (h : p.isPrefixOf a = true) :
    p.isPrefixOf (a ++ b) = true := by
  rw [List.isPrefixOf_iff_prefix] at h ⊢
  exact h.trans (List.prefix_append a b)

theorem containsSub_cons (pat : List Char) (c : Char) (cs : List Char) :
    containsSub pat (c :: cs) = (pat.isPrefixOf (c :: cs) || containsSub pat cs) := rfl

theorem containsSub_head {pat s : List Char} (h : pat.isPrefixOf s = true)
    (hs : s ≠ []) : containsSub pat s = true := by
  match s with
  | c :: cs => rw [containsSub_cons, h, Bool.true_or]

/-- The marker has no non-trivial border: no proper suffix of it is also
a prefix of it.  This is what rules out marker occurrences straddling
the boundary between the URL's prefix part and the marker itself. -/
theorem marker_no_border : ∀ k, k < 12 → 1 ≤ k →
    markerL.drop k ≠ markerL.take (12 - k) := by decide

theorem marker_length : markerL.length = 12 := by decide

theorem marker_no_digit : ∀ c ∈ markerL, ¬(c.isDigit = true) := by decide

theorem htm_no_digit : ∀ c ∈ htmL, ¬(c.isDigit = true) := by decide

/-- A marker occurrence cannot start at the head of a list whose head is
a digit (the marker starts with a letter). -/
theorem ipo_marker_digit_head {c : Char} {l : List Char} (hc : c.isDigit = true) :
    markerL.isPrefixOf (c :: l) = false := by
  cases hp : markerL.isPrefixOf (c :: l) with
  | false => rfl
  | true =>
    exfalso
    have hm : markerL = 'f' :: markerL.tail := by decide
    rw [hm] at hp
    simp only [List.isPrefixOf, Bool.and_eq_true] at hp
    have : c = 'f' := (eq_of_beq hp.1).symm
    subst this
    simp [Char.isDigit] at hc

/-- Likewise for `".htm"` (it starts with a dot). -/
theorem ipo_htm_digit_head {c : Char} {l : List Char} (hc : c.isDigit = true) :
    htmL.isPrefixOf (c :: l) = false := by
  cases hp : htmL.isPrefixOf (c :: l) with
  | false => rfl
  | true =>
    exfalso
    have hm : htmL = '.' :: htmL.tail := by decide
    rw [hm] at hp
    simp only [List.isPrefixOf, Bool.and_eq_true] at hp
    have : c = '.' := (eq_of_beq hp.1).symm
    subst this
    simp [Char.isDigit] at hc

theorem splitMarkerAux_nil (f : Nat) (acc : List Char) :
    splitMarkerAux (f + 1) [] acc = [acc.reverse] := rfl

theorem splitMarkerAux_pos (f : Nat) {c : Char} {cs : List Char} (acc : List Char)
    (h : markerL.isPrefixOf (c :: cs) = true) :
    splitMarkerAux (f + 1) (c :: cs) acc =
      acc.reverse :: splitMarkerAux f ((c :: cs).drop markerL.length) [] := by
  simp [splitMarkerAux, h]

theorem splitMarkerAux_neg (f : Nat) {c : Char} {cs : List Char} (acc : List Char)
    (h : markerL.isPrefixOf (c :: cs) = false) :
    splitMarkerAux (f + 1) (c :: cs) acc = splitMarkerAux f cs (c :: acc) := by
  simp [splitMarkerAux, h]

/-- `splitMarkerAux` ignores the fuel as long as it dominates the input
length. -/
theorem splitMarkerAux_fuel : ∀ f g s acc, s.length < f → s.length < g →
    splitMarkerAux f s acc = splitMarkerAux g s acc := by
  intro f
  induction f with
  | zero => intro g s acc hf; omega
  | succ f ih =>
    intro g s acc hf hg
    match g with
    | 0 => omega
    | g + 1 =>
      match s with
      | [] => rfl
      | c :: cs =>
        have hm12 : markerL.length = 12 := marker_length
        by_cases hp : markerL.isPrefixOf (c :: cs) = true
        · rw [splitMarkerAux_pos f acc hp, splitMarkerAux_pos g acc hp]
          have hlen : ((c :: cs).drop markerL.length).length < f := by
            simp only [List.length_drop, List.length_cons] at *
            omega
          have hlen' : ((c :: cs).drop markerL.length).length < g := by
            simp only [List.length_drop, List.length_cons] at *
            omega
          rw [ih g _ [] hlen hlen']
        · rw [Bool.not_eq_true] at hp
          rw [splitMarkerAux_neg f acc hp, splitMarkerAux_neg g acc hp]
          apply ih
          · simp only [List.length_cons] at hf; omega
          · simp only [List.length_cons] at hg; omega

/-- On marker-free input the split returns a single chunk. -/
theorem splitMarkerAux_no_marker : ∀ f s acc, s.length < f →
    containsSub markerL s = false →
    splitMarkerAux f s acc = [acc.reverse ++ s] := by
  intro f
  induction f with
  | zero => intro s acc h; omega
  | succ f ih =>
    intro s acc hf hc
    match s with
    | [] => simp [splitMarkerAux]
    | c :: cs =>
      rw [containsSub_cons, Bool.or_eq_false_iff] at hc
      rw [splitMarkerAux_neg f acc hc.1]
      rw [ih cs (c :: acc) (by simp only [List.length_cons] at hf; omega) hc.2]
      simp

/-- Splitting a string of the shape `pre ++ marker ++ t` with a
marker-free `pre`: the first chunk is exactly `pre`. -/
theorem splitMarkerAux_structure : ∀ f pre t acc,
    (pre ++ markerL ++ t).length < f → containsSub markerL pre = false →
    splitMarkerAux f (pre ++ markerL ++ t) acc =
      (acc.reverse ++ pre) :: splitMarkerAux (t.length + 1) t [] := by
  intro f
  induction f with
  | zero => intro pre t acc h; omega
  | succ f ih =>
    intro pre t acc hf hc
    match pre with
    | [] =>
      have hcons : markerL ++ t = 'f' :: (markerL.tail ++ t) := by
        have hm : markerL = 'f' :: markerL.tail := by decide
        rw [hm]
        rfl
      have hp : markerL.isPrefixOf ('f' :: (markerL.tail ++ t)) = true := by
        rw [← hcons]
        exact ipo_append_self markerL t
      have hdrop : ('f' :: (markerL.tail ++ t)).drop markerL.length = t := by
        rw [← hcons, List.drop_left]
      have hlt : t.length < f := by
        simp only [List.nil_append, List.length_append, marker_length] at hf
        omega
      simp only [List.nil_append]
      rw [hcons, splitMarkerAux_pos f acc hp, hdrop]
      rw [splitMarkerAux_fuel f (t.length + 1) t [] hlt (by omega)]
      simp
    | c :: pre' =>
      rw [containsSub_cons, Bool.or_eq_false_iff] at hc
      have hp : markerL.isPrefixOf (c :: (pre' ++ markerL ++ t)) = false := by
        cases hp : markerL.isPrefixOf (c :: (pre' ++ markerL ++ t)) with
        | false => rfl
        | true =>
          exfalso
          have hp' : markerL.isPrefixOf ((c :: pre') ++ (markerL ++ t)) = true := by
            simpa using hp
          by_cases hl : markerL.length ≤ (c :: pre').length
          · have := ipo_append_left hp' hl
            rw [hc.1] at this
            simp at this
          · push_neg at hl
            have hsplit := ipo_split (p := markerL) (a := c :: pre')
              (b := markerL ++ t) hp' (by omega)
            have hborder := ipo_append_left (p := markerL.drop (c :: pre').length)
              (a := markerL) (b := t) hsplit.2
              (by rw [List.length_drop]; omega)
            rw [List.isPrefixOf_iff_prefix, List.prefix_iff_eq_take] at hborder
            rw [List.length_drop, marker_length] at hborder
            have hk1 : 1 ≤ (c :: pre').length := by simp
            have hk2 : (c :: pre').length < 12 := by
              rw [marker_length] at hl; omega
            exact marker_no_border (c :: pre').length hk2 hk1 hborder
      have hstep : ((c :: pre') ++ markerL ++ t) = c :: (pre' ++ markerL ++ t) := by
        simp
      rw [hstep, splitMarkerAux_neg f acc hp]
      rw [ih pre' t (c :: acc)
        (by rw [hstep] at hf; simp only [List.length_cons] at hf ⊢; omega) hc.2]
      simp

/-- `re.split` in `parse_date` as the code composes it. -/
theorem splitMarker_structure {pre t : List Char}
    (hc : containsSub markerL pre = false) (hct : containsSub markerL t = false) :
    splitMarker (pre ++ markerL ++ t) = [pre, t] := by
  unfold splitMarker
  rw [splitMarkerAux_structure _ pre t [] (by omega) hc]
  rw [splitMarkerAux_no_marker (t.length + 1) t [] (by omega) hct]
  simp

/-! ## C2: `parse_date` failure behaviour -/

/-- C2 counterexample: the claim that `parse_date` fails whenever the
trailing 8 characters do not form a valid calendar date is refuted by a
URL whose tail after the marker is `1/2/2012`: that tail is not a valid
`YYYYMMDD` calendar date, yet `pd.to_datetime` accepts it (US-style
`M/D/YYYY`), so `parse_date` returns 2012-01-02 instead of failing. -/
theorem parse_date_lenient_counterexample :
    (splitMarker ("https://www.federalreserve.gov/monetarypolicy/fomcprojtabl1/2/2012.htm").data).get? 1
      = some "1/2/2012.htm".data
    ∧ takeLast 8 (replaceHtm "1/2/2012.htm".data) = "1/2/2012".data
    ∧ parseYYYYMMDD "1/2/2012".data = none
    ∧ parse_date "https://www.federalreserve.gov/monetarypolicy/fomcprojtabl1/2/2012.htm"
        = .ok ⟨2012, 1, 2⟩ :=
  ⟨by decide, by decide, by decide, by decide⟩

/-- C2 (amended): `parse_date` fails with `MalformedUrlError` (the
modelled error of its two raise sites) whenever the URL does not contain
the marker substring `fomcprojtabl`; for marker-containing URLs, failure
is not characterized by the trailing 8 characters failing to be a valid
`YYYYMMDD` date (`pd.to_datetime` also accepts other spellings, e.g.
`1/2/2012`): `parse_date` fails when `pd.to_datetime` rejects the
trailing 8 characters that remain after splitting on the marker and
deleting `".htm"`. -/
theorem parse_date_malformed (url : String) :
    (containsSub markerL url.data = false → parse_date url = .error .malformedUrl)
    ∧ (∀ s, (splitMarker url.data).get? 1 = some s →
        pdToDatetime (takeLast 8 (replaceHtm s)) = none →
        parse_date url = .error .malformedUrl) := by
  constructor
  · intro hc
    unfold parse_date splitMarker
    rw [splitMarkerAux_no_marker (url.data.length + 1) url.data [] (by omega) hc]
    rfl
  · intro s hs hp
    unfold parse_date
    rw [hs]
    show (match pdToDatetime (takeLast 8 (replaceHtm s)) with
      | none => Except.error ScrapeError.malformedUrl
      | some d => Except.ok d) = Except.error ScrapeError.malformedUrl
    rw [hp]

/-- Witness: a URL without the marker and a URL whose tail is not a date
both yield the error. -/
theorem parse_date_malformed_witness :
    parse_date "https://www.federalreserve.gov/monetarypolicy/files/foo.htm"
      = .error .malformedUrl
    ∧ parse_date "https://x/fomcprojtablzz.htm" = .error .malformedUrl :=
  ⟨(parse_date_malformed _).1 (by decide),
   (parse_date_malformed _).2 "zz.htm".data (by decide) (by decide)⟩

/-! ## C6: `parse_date` round-trip on well-formed URLs -/

theorem htm_length : htmL.length = 4 := by decide

theorem replaceHtmAux_nil : ∀ f, replaceHtmAux f [] = [] := by
  intro f
  cases f <;> rfl

theorem replaceHtmAux_pos (f : Nat) {c : Char} {cs : List Char}
    (h : htmL.isPrefixOf (c :: cs) = true) :
    replaceHtmAux (f + 1) (c :: cs) = replaceHtmAux f ((c :: cs).drop htmL.length) := by
  simp [replaceHtmAux, h]

theorem replaceHtmAux_neg (f : Nat) {c : Char} {cs : List Char}
    (h : htmL.isPrefixOf (c :: cs) = false) :
    replaceHtmAux (f + 1) (c :: cs) = c :: replaceHtmAux f cs := by
  simp [replaceHtmAux, h]

theorem replaceHtmAux_fuel : ∀ f g s, s.length < f → s.length < g →
    replaceHtmAux f s = replaceHtmAux g s := by
  intro f
  induction f with
  | zero => intro g s hf; omega
  | succ f ih =>
    intro g s hf hg
    match g with
    | 0 => omega
    | g + 1 =>
      match s with
      | [] => rw [replaceHtmAux_nil, replaceHtmAux_nil]
      | c :: cs =>
        have h4 : htmL.length = 4 := htm_length
        by_cases hp : htmL.isPrefixOf (c :: cs) = true
        · rw [replaceHtmAux_pos f hp, replaceHtmAux_pos g hp]
          apply ih
          · simp only [List.length_drop, List.length_cons] at *; omega
          · simp only [List.length_drop, List.length_cons] at *; omega
        · rw [Bool.not_eq_true] at hp
          rw [replaceHtmAux_neg f hp, replaceHtmAux_neg g hp]
          rw [ih g cs (by simp only [List.length_cons] at hf; omega)
            (by simp only [List.length_cons] at hg; omega)]

/-- Deleting `".htm"` from `digits ++ ".htm"` leaves the digits: no
occurrence can start at a digit. -/
theorem replaceHtmAux_digits_htm : ∀ d8 : List Char, (∀ c ∈ d8, c.isDigit = true) →
    ∀ f, (d8 ++ htmL).length < f → replaceHtmAux f (d8 ++ htmL) = d8 := by
  intro d8
  induction d8 with
  | nil =>
    intro _ f hf
    simp only [List.nil_append, List.length_append] at hf ⊢
    rw [htm_length] at hf
    match f with
    | f + 1 =>
      have hcons : htmL = '.' :: htmL.tail := by decide
      rw [hcons, replaceHtmAux_pos f (by decide), ← hcons]
      have : htmL.drop htmL.length = [] := by decide
      rw [this, replaceHtmAux_nil]
  | cons c rest ih =>
    intro hd f hf
    have hc : c.isDigit = true := hd c (by simp)
    match f with
    | 0 => simp only [List.length_append, List.length_cons] at hf; omega
    | f + 1 =>
      have hshape : (c :: rest) ++ htmL = c :: (rest ++ htmL) := by simp
      rw [hshape, replaceHtmAux_neg f (ipo_htm_digit_head hc)]
      rw [ih (fun x hx => hd x (by simp [hx])) f
        (by simp only [List.length_append, List.length_cons] at hf ⊢; omega)]

/-- No marker occurrence inside `digits ++ ".htm"`. -/
theorem no_marker_digits_htm : ∀ d8 : List Char, (∀ c ∈ d8, c.isDigit = true) →
    containsSub markerL (d8 ++ htmL) = false := by
  intro d8
  induction d8 with
  | nil => decide
  | cons c rest ih =>
    intro hd
    have hshape : (c :: rest) ++ htmL = c :: (rest ++ htmL) := by simp
    rw [hshape, containsSub_cons, ipo_marker_digit_head (hd c (by simp)),
      ih (fun x hx => hd x (by simp [hx]))]
    rfl

/-- No marker occurrence in `sfx ++ digits ++ ".htm"` when `sfx` itself
is marker-free: an occurrence straddling into the digits would have to
put a marker letter on a digit, and the marker does not fit inside
`".htm"`. -/
theorem no_marker_tail : ∀ sfx d8 : List Char, containsSub markerL sfx = false →
    d8 ≠ [] → (∀ c ∈ d8, c.isDigit = true) →
    containsSub markerL (sfx ++ (d8 ++ htmL)) = false := by
  intro sfx
  induction sfx with
  | nil =>
    intro d8 _ _ hd
    simpa using no_marker_digits_htm d8 hd
  | cons c sfx' ih =>
    intro d8 hc hne hd
    rw [containsSub_cons, Bool.or_eq_false_iff] at hc
    have hshape : (c :: sfx') ++ (d8 ++ htmL) = c :: (sfx' ++ (d8 ++ htmL)) := by simp
    rw [hshape, containsSub_cons]
    rw [ih d8 hc.2 hne hd]
    have hp : markerL.isPrefixOf (c :: (sfx' ++ (d8 ++ htmL))) = false := by
      cases hp : markerL.isPrefixOf (c :: (sfx' ++ (d8 ++ htmL))) with
      | false => rfl
      | true =>
        exfalso
        have hp' : markerL.isPrefixOf ((c :: sfx') ++ (d8 ++ htmL)) = true := by
          simpa using hp
        by_cases hl : markerL.length ≤ (c :: sfx').length
        · have := ipo_append_left hp' hl
          rw [hc.1] at this
          exact absurd this (by decide)
        · push_neg at hl
          have hsplit := ipo_split hp' (by omega)
          have hlen : 0 < (markerL.drop (c :: sfx').length).length := by
            rw [List.length_drop, marker_length]
            rw [marker_length] at hl
            omega
          obtain ⟨m0, m', hm⟩ := List.exists_cons_of_ne_nil (List.ne_nil_of_length_pos hlen)
          obtain ⟨d0, d', hd8⟩ := List.exists_cons_of_ne_nil hne
          have hpre2 := hsplit.2
          rw [hm, hd8] at hpre2
          have hshape2 : (d0 :: d') ++ htmL = d0 :: (d' ++ htmL) := by simp
          rw [hshape2] at hpre2
          simp only [List.isPrefixOf, Bool.and_eq_true] at hpre2
          have heq : m0 = d0 := eq_of_beq hpre2.1
          have hm0 : m0 ∈ markerL := by
            have : m0 ∈ markerL.drop (c :: sfx').length := by rw [hm]; simp
            exact List.drop_subset _ _ this
          have : d0.isDigit = true := hd d0 (by rw [hd8]; simp)
          rw [← heq] at this
          exact marker_no_digit m0 hm0 this
    rw [hp]
    rfl

/-- Fuelled core of the `".htm"`-deletion behaviour on
`sfx ++ digits ++ ".htm"`: the final `".htm"` disappears, the digits
survive, and `sfx` is cleaned on its own (an occurrence cannot straddle
into the digit block). -/
theorem replaceHtmAux_append_digits : ∀ (n : Nat), ∀ sfx d8 : List Char,
    sfx.length ≤ n → d8 ≠ [] → (∀ c ∈ d8, c.isDigit = true) →
    ∀ f g, (sfx ++ (d8 ++ htmL)).length < f → sfx.length < g →
    replaceHtmAux f (sfx ++ (d8 ++ htmL)) = replaceHtmAux g sfx ++ d8 := by
  intro n
  induction n with
  | zero =>
    intro sfx d8 hn _ hd f g hf _
    have hsfx : sfx = [] := List.eq_nil_of_length_eq_zero (by omega)
    subst hsfx
    rw [replaceHtmAux_nil]
    simp only [List.nil_append] at hf ⊢
    rw [replaceHtmAux_digits_htm d8 hd f hf]
  | succ n ih =>
    intro sfx d8 hn hne hd f g hf hg
    match sfx with
    | [] =>
      rw [replaceHtmAux_nil]
      simp only [List.nil_append] at hf ⊢
      rw [replaceHtmAux_digits_htm d8 hd f hf]
    | c :: sfx' =>
      match f, g with
      | 0, _ => simp at hf
      | _, 0 => omega
      | f + 1, g + 1 =>
        show replaceHtmAux (f + 1) (c :: (sfx' ++ (d8 ++ htmL))) =
          replaceHtmAux (g + 1) (c :: sfx') ++ d8
        by_cases hp : htmL.isPrefixOf (c :: (sfx' ++ (d8 ++ htmL))) = true
        · by_cases hl : htmL.length ≤ (c :: sfx').length
          · have hp' : htmL.isPrefixOf ((c :: sfx') ++ (d8 ++ htmL)) = true := hp
            have hpin : htmL.isPrefixOf (c :: sfx') = true := ipo_append_left hp' hl
            rw [replaceHtmAux_pos f hp, replaceHtmAux_pos g hpin]
            have hdrop : (c :: (sfx' ++ (d8 ++ htmL))).drop htmL.length =
                ((c :: sfx').drop htmL.length) ++ (d8 ++ htmL) :=
              @List.drop_append_of_le_length Char (c :: sfx') (d8 ++ htmL) htmL.length hl
            rw [hdrop]
            have hlsfx : ((c :: sfx').drop htmL.length).length ≤ n := by
              simp only [List.length_drop, List.length_cons, htm_length]
              simp only [List.length_cons] at hn
              rw [htm_length] at hl
              simp only [List.length_cons] at hl
              omega
            have hf2 : (((c :: sfx').drop htmL.length) ++ (d8 ++ htmL)).length < f := by
              simp only [List.length_append, List.length_drop, List.length_cons,
                htm_length] at hf ⊢
              omega
            have hg2 : ((c :: sfx').drop htmL.length).length <
                ((c :: sfx').drop htmL.length).length + 1 := by omega
            rw [ih ((c :: sfx').drop htmL.length) d8 hlsfx hne hd f
              (((c :: sfx').drop htmL.length).length + 1) hf2 hg2]
            congr 1
            apply replaceHtmAux_fuel
            · omega
            · simp only [List.length_drop, List.length_cons, htm_length] at *
              omega
          · exfalso
            push_neg at hl
            have hp' : htmL.isPrefixOf ((c :: sfx') ++ (d8 ++ htmL)) = true := hp
            have hsplit := ipo_split hp' (by omega)
            have hlen : 0 < (htmL.drop (c :: sfx').length).length := by
              rw [List.length_drop, htm_length]
              rw [htm_length] at hl
              omega
            obtain ⟨m0, m', hm⟩ :=
              List.exists_cons_of_ne_nil (List.ne_nil_of_length_pos hlen)
            obtain ⟨d0, d', hd8⟩ := List.exists_cons_of_ne_nil hne
            have hpre2 := hsplit.2
            rw [hm, hd8] at hpre2
            have hshape2 : (d0 :: d') ++ htmL = d0 :: (d' ++ htmL) := by simp
            rw [hshape2] at hpre2
            simp only [List.isPrefixOf, Bool.and_eq_true] at hpre2
            have heq : m0 = d0 := eq_of_beq hpre2.1
            have hm0 : m0 ∈ htmL := by
              have : m0 ∈ htmL.drop (c :: sfx').length := by rw [hm]; simp
              exact List.drop_subset _ _ this
            have hdig : d0.isDigit = true := hd d0 (by rw [hd8]; simp)
            rw [← heq] at hdig
            exact htm_no_digit m0 hm0 hdig
        · rw [Bool.not_eq_true] at hp
          have hpin : htmL.isPrefixOf (c :: sfx') = false := by
            cases hq : htmL.isPrefixOf (c :: sfx') with
            | false => rfl
            | true =>
              exfalso
              have hext : htmL.isPrefixOf ((c :: sfx') ++ (d8 ++ htmL)) = true :=
                ipo_extend hq
              have hext' : htmL.isPrefixOf (c :: (sfx' ++ (d8 ++ htmL))) = true := hext
              rw [hp] at hext'
              exact absurd hext' (by simp)
          rw [replaceHtmAux_neg f hp, replaceHtmAux_neg g hpin]
          rw [ih sfx' d8 (by simp only [List.length_cons] at hn; omega) hne hd f g
            (by simp only [List.length_append, List.length_cons] at hf ⊢; omega)
            (by simp only [List.length_cons] at hg; omega)]
          simp

/-- `.replace(".htm", "")` on `sfx ++ digits ++ ".htm"`. -/
theorem replaceHtm_append_digits (sfx d8 : List Char)
    (hne : d8 ≠ []) (hd : ∀ c ∈ d8, c.isDigit = true) :
    replaceHtm (sfx ++ (d8 ++ htmL)) = replaceHtm sfx ++ d8 := by
  unfold replaceHtm
  exact replaceHtmAux_append_digits sfx.length sfx d8 (le_refl _) hne hd _ _
    (by omega) (by omega)

theorem takeLast_append {a b : List Char} (h : b.length = 8) :
    takeLast 8 (a ++ b) = b := by
  unfold takeLast
  have hl : (a ++ b).length - 8 = a.length := by simp [List.length_append]; omega
  rw [hl, List.drop_left]

theorem digitChar_toNat (k : Nat) : (digitChar k).toNat = 48 + k % 10 := by
  have h : k % 10 < 10 := Nat.mod_lt _ (by omega)
  unfold digitChar
  set r := k % 10 with hr
  interval_cases r <;> decide

theorem digitChar_isDigit (k : Nat) : (digitChar k).isDigit = true := by
  have h : k % 10 < 10 := Nat.mod_lt _ (by omega)
  unfold digitChar
  set r := k % 10 with hr
  interval_cases r <;> decide

theorem fmt8_length (y m d : Nat) : (fmt8 y m d).length = 8 := rfl

theorem fmt8_ne_nil (y m d : Nat) : fmt8 y m d ≠ [] := by
  simp [fmt8, pad4]

theorem daysInMonth_le (y m : Nat) : daysInMonth y m ≤ 31 := by
  unfold daysInMonth
  split_ifs <;> omega

theorem fmt8_all_digits (y m d : Nat) : (fmt8 y m d).all Char.isDigit = true := by
  simp [fmt8, pad4, pad2, digitChar_isDigit]

theorem fmt8_digits (y m d : Nat) : ∀ c ∈ fmt8 y m d, c.isDigit = true :=
  List.all_eq_true.mp (fmt8_all_digits y m d)

theorem digitsVal_pad4 {y : Nat} (h : y < 10000) : digitsVal (pad4 y) = y := by
  simp only [digitsVal, pad4, List.foldl_cons, List.foldl_nil, digitChar_toNat]
  omega

theorem digitsVal_pad2 {m : Nat} (h : m < 100) : digitsVal (pad2 m) = m := by
  simp only [digitsVal, pad2, List.foldl_cons, List.foldl_nil, digitChar_toNat]
  omega

theorem parseYYYYMMDD_fmt8 {y m d : Nat} (h : pdValid y m d = true) :
    parseYYYYMMDD (fmt8 y m d) = some ⟨y, m, d⟩ := by
  have hb : 1 ≤ m ∧ m ≤ 12 ∧ 1 ≤ d ∧ d ≤ daysInMonth y m ∧
      16770922 ≤ y * 10000 + m * 100 + d ∧ y * 10000 + m * 100 + d ≤ 22620411 := by
    simpa [pdValid, Bool.and_eq_true, decide_eq_true_eq, and_assoc] using h
  have h31 := daysInMonth_le y m
  have hy : y < 10000 := by omega
  have hm : m < 100 := by omega
  have hd : d < 100 := by omega
  have htake4 : (fmt8 y m d).take 4 = pad4 y := by
    have h4 : (pad4 y).length = 4 := rfl
    rw [fmt8, List.append_assoc, ← h4, List.take_left]
  have hdrop4 : (fmt8 y m d).drop 4 = pad2 m ++ pad2 d := by
    have h4 : (pad4 y).length = 4 := rfl
    rw [fmt8, List.append_assoc, ← h4, List.drop_left]
  have htake2 : ((fmt8 y m d).drop 4).take 2 = pad2 m := by
    rw [hdrop4]
    have h2 : (pad2 m).length = 2 := rfl
    rw [← h2, List.take_left]
  have hdrop6 : (fmt8 y m d).drop 6 = pad2 d := by
    have hdd : (fmt8 y m d).drop 6 = ((fmt8 y m d).drop 4).drop 2 := by
      rw [List.drop_drop]
    rw [hdd, hdrop4]
    have h2 : (pad2 m).length = 2 := rfl
    rw [← h2, List.drop_left]
  have hcond : (decide ((fmt8 y m d).length = 8) && (fmt8 y m d).all Char.isDigit) = true := by
    rw [fmt8_length, fmt8_all_digits]
    simp
  unfold parseYYYYMMDD
  rw [hcond]
  simp only [if_true, htake4, htake2, hdrop6, digitsVal_pad4 hy, digitsVal_pad2 hm,
    digitsVal_pad2 hd, h]

/-- An 8-digit tail takes `pd.to_datetime`'s ISO-basic `YYYYMMDD` path. -/
theorem pdToDatetime_fmt8 {y m d : Nat} (h : pdValid y m d = true) :
    pdToDatetime (fmt8 y m d) = some ⟨y, m, d⟩ := by
  have hcond : (decide ((fmt8 y m d).length = 8) && (fmt8 y m d).all Char.isDigit) = true := by
    rw [fmt8_length, fmt8_all_digits]
    simp
  unfold pdToDatetime
  rw [hcond]
  simp only [if_true]
  exact parseYYYYMMDD_fmt8 h

/-- C6: on a URL of the form `pre ++ "fomcprojtabl" ++ sfx ++ YYYYMMDD
++ ".htm"` where neither `pre` nor `sfx` contains the marker and the
8 digits denote a calendar date `pd.to_datetime` accepts, `parse_date`
returns exactly that date. -/
theorem parse_date_roundtrip (pre sfx : List Char) (y m d : Nat)
    (hpre : containsSub markerL pre = false)
    (hsfx : containsSub markerL sfx = false)
    (hv : pdValid y m d = true) :
    parse_date ⟨pre ++ markerL ++ (sfx ++ (fmt8 y m d ++ htmL))⟩ = .ok ⟨y, m, d⟩ := by
  have hct : containsSub markerL (sfx ++ (fmt8 y m d ++ htmL)) = false :=
    no_marker_tail sfx (fmt8 y m d) hsfx (fmt8_ne_nil y m d) (fmt8_digits y m d)
  unfold parse_date
  have hdata : (⟨pre ++ markerL ++ (sfx ++ (fmt8 y m d ++ htmL))⟩ : String).data =
      pre ++ markerL ++ (sfx ++ (fmt8 y m d ++ htmL)) := rfl
  rw [hdata, splitMarker_structure hpre hct]
  show (match pdToDatetime (takeLast 8 (replaceHtm (sfx ++ (fmt8 y m d ++ htmL)))) with
    | none => Except.error ScrapeError.malformedUrl
    | some d => Except.ok d) = Except.ok ⟨y, m, d⟩
  rw [replaceHtm_append_digits sfx (fmt8 y m d) (fmt8_ne_nil y m d) (fmt8_digits y m d)]
  rw [takeLast_append (fmt8_length y m d), pdToDatetime_fmt8 hv]

/-- Witness for C6 at the January 2012 projections URL. -/
theorem parse_date_roundtrip_witness :
    containsSub markerL "https://www.federalreserve.gov/monetarypolicy/".data = false
    ∧ pdValid 2012 1 25 = true
    ∧ parse_date ⟨"https://www.federalreserve.gov/monetarypolicy/".data ++ markerL ++
        ([] ++ (fmt8 2012 1 25 ++ htmL))⟩ = .ok ⟨2012, 1, 25⟩ :=
  ⟨by decide, by decide,
   parse_date_roundtrip _ [] 2012 1 25 (by decide) (by decide) (by decide)⟩

/-! ## C5: link resolution prefixes unconditionally -/

/-- C5 counterexample: an `href` that is already an absolute URL (and
matches the marker-and-suffix filter, so it is processed) is *not*
returned unchanged — the scheme+host is glued in front of it anyway,
producing a nonsense URL. -/
theorem buildUrl_absolute_counterexample :
    isAbsoluteUrl "https://example.org/fomcprojtabl20200610.htm" = true
    ∧ linkMatches (some "https://example.org/fomcprojtabl20200610.htm")
        = some "https://example.org/fomcprojtabl20200610.htm"
    ∧ buildUrl "https://example.org/fomcprojtabl20200610.htm"
        = "https://www.federalreserve.govhttps://example.org/fomcprojtabl20200610.htm"
    ∧ buildUrl "https://example.org/fomcprojtabl20200610.htm"
        ≠ "https://example.org/fomcprojtabl20200610.htm" :=
  ⟨by decide, by decide, rfl, by decide⟩

/-- C5 amended: the resolver prefixes the site's scheme+host to every
matching link target unconditionally; in particular no target — absolute
or not — is ever returned unchanged. -/
theorem buildUrl_unconditional (href : String) :
    buildUrl href = siteRoot ++ href ∧ buildUrl href ≠ href := by
  refine ⟨rfl, ?_⟩
  intro h
  have hlen := congrArg String.length h
  rw [buildUrl, String.length_append] at hlen
  have hz : siteRoot.length = 0 := by omega
  exact absurd hz (by decide)

/-! ## C9: slugification is the identity on already-slugified text -/

theorem wc_bounds {c : Char} (h : isWordChar c = true) :
    (97 ≤ c.toNat ∧ c.toNat ≤ 122) ∨ (48 ≤ c.toNat ∧ c.toNat ≤ 57) := by
  simp only [isWordChar, Bool.or_eq_true, Bool.and_eq_true, decide_eq_true_eq] at h
  exact h

theorem wc_not_quote {c : Char} (h : isWordChar c = true) : isQuote c = false := by
  have hb := wc_bounds h
  simp only [isQuote, decide_eq_false_iff_not]
  omega

theorem wc_toLower {c : Char} (h : isWordChar c = true) : c.toLower = c := by
  have hb := wc_bounds h
  unfold Char.toLower
  rw [if_neg]
  omega

theorem wc_ne_comma {c : Char} (h : isWordChar c = true) : ¬(c = ',') := by
  intro he
  subst he
  exact absurd h (by decide)

theorem wc_ne_dash {c : Char} (h : isWordChar c = true) : ¬(c = '-') := by
  intro he
  subst he
  exact absurd h (by decide)

theorem wc_allowed {c : Char} (h : isWordChar c = true) : isAllowedSlug c = true := by
  have hb := wc_bounds h
  simp only [isAllowedSlug, Bool.or_eq_true, Bool.and_eq_true, decide_eq_true_eq]
  omega

theorem mem_joinUnd : ∀ (ws : List (List Char)) (c : Char), c ∈ joinUnd ws →
    (∃ w ∈ ws, c ∈ w) ∨ c = '_' := by
  intro ws
  induction ws with
  | nil => intro c hc; simp [joinUnd] at hc
  | cons w ws ih =>
    intro c hc
    cases ws with
    | nil =>
      exact Or.inl ⟨w, by simp, hc⟩
    | cons w₂ ws' =>
      rw [show joinUnd (w :: w₂ :: ws') = w ++ '_' :: joinUnd (w₂ :: ws') from rfl,
        List.mem_append] at hc
      rcases hc with hc | hc
      · exact Or.inl ⟨w, by simp, hc⟩
      · rcases List.mem_cons.mp hc with hc | hc
        · exact Or.inr hc
        · rcases ih c hc with ⟨w', hw', hcw'⟩ | hc
          · exact Or.inl ⟨w', by simp [hw'], hcw'⟩
          · exact Or.inr hc

theorem quoteSubAux_id : ∀ (l : List Char) (b : Bool),
    (∀ c ∈ l, isQuote c = false) → quoteSubAux b l = l := by
  intro l
  induction l with
  | nil => intro b _; rfl
  | cons c cs ih =>
    intro b h
    have hc := h c (by simp)
    simp only [quoteSubAux, hc]
    simp only [Bool.false_eq_true, if_false]
    rw [ih false (fun x hx => h x (by simp [hx]))]

theorem map_id_of : ∀ (l : List Char) (f : Char → Char), (∀ c ∈ l, f c = c) →
    l.map f = l := by
  intro l f
  induction l with
  | nil => intro _; rfl
  | cons c cs ih =>
    intro h
    simp only [List.map_cons, h c (by simp), ih (fun x hx => h x (by simp [hx]))]

theorem numbersCleanAux_id : ∀ (l : List Char) (prev : Option Char),
    (∀ c ∈ l, ¬(c = ',')) → numbersCleanAux prev l = l := by
  intro l
  induction l with
  | nil => intro _ _; rfl
  | cons c cs ih =>
    intro prev h
    have hc := h c (by simp)
    simp only [numbersCleanAux]
    rw [if_neg (by simp [hc])]
    rw [ih (some c) (fun x hx => h x (by simp [hx]))]

theorem allowed_word : ∀ (w t : List Char) (b : Bool), w ≠ [] →
    (∀ c ∈ w, isWordChar c = true) →
    allowedSubAux b (w ++ t) = w ++ allowedSubAux false t := by
  intro w
  induction w with
  | nil => intro t b h; exact absurd rfl h
  | cons c w' ih =>
    intro t b _ h
    have hc : isAllowedSlug c = true := wc_allowed (h c (by simp))
    show allowedSubAux b (c :: (w' ++ t)) = (c :: w') ++ allowedSubAux false t
    simp only [allowedSubAux, hc, if_true]
    cases w' with
    | nil => simp
    | cons c₂ w'' =>
      rw [ih t false (by simp) (fun x hx => h x (by simp [hx]))]
      simp

theorem allowed_join : ∀ (ws : List (List Char)) (b : Bool),
    (∀ w ∈ ws, w ≠ [] ∧ ∀ c ∈ w, isWordChar c = true) →
    allowedSubAux b (joinUnd ws) = joinDash ws := by
  intro ws
  induction ws with
  | nil => intro b _; rfl
  | cons w ws ih =>
    intro b h
    have hw := h w (by simp)
    cases ws with
    | nil =>
      show allowedSubAux b w = joinDash [w]
      have := allowed_word w [] b hw.1 hw.2
      rw [List.append_nil] at this
      rw [this, show allowedSubAux false [] = [] from rfl, List.append_nil]
      rfl
    | cons w₂ ws' =>
      show allowedSubAux b (w ++ '_' :: joinUnd (w₂ :: ws')) = w ++ '-' :: joinDash (w₂ :: ws')
      rw [allowed_word w _ b hw.1 hw.2]
      congr 1
      show (if isAllowedSlug '_' = true then '_' :: allowedSubAux false (joinUnd (w₂ :: ws'))
        else if false = true then allowedSubAux true (joinUnd (w₂ :: ws'))
        else '-' :: allowedSubAux true (joinUnd (w₂ :: ws'))) = '-' :: joinDash (w₂ :: ws')
      rw [if_neg (by decide), if_neg (by decide)]
      rw [ih true (fun x hx => h x (by simp [hx]))]

theorem dedupe_word : ∀ (w t : List Char) (b : Bool), w ≠ [] →
    (∀ c ∈ w, isWordChar c = true) →
    dedupeDashAux b (w ++ t) = w ++ dedupeDashAux false t := by
  intro w
  induction w with
  | nil => intro t b h; exact absurd rfl h
  | cons c w' ih =>
    intro t b _ h
    have hc : ¬(c = '-') := wc_ne_dash (h c (by simp))
    show dedupeDashAux b (c :: (w' ++ t)) = (c :: w') ++ dedupeDashAux false t
    simp only [dedupeDashAux]
    rw [if_neg (by simp [hc])]
    cases w' with
    | nil => simp
    | cons c₂ w'' =>
      rw [ih t false (by simp) (fun x hx => h x (by simp [hx]))]
      simp

theorem dedupe_join : ∀ (ws : List (List Char)) (b : Bool),
    (∀ w ∈ ws, w ≠ [] ∧ ∀ c ∈ w, isWordChar c = true) →
    dedupeDashAux b (joinDash ws) = joinDash ws := by
  intro ws
  induction ws with
  | nil => intro b _; rfl
  | cons w ws ih =>
    intro b h
    have hw := h w (by simp)
    cases ws with
    | nil =>
      show dedupeDashAux b w = joinDash [w]
      have := dedupe_word w [] b hw.1 hw.2
      rw [List.append_nil] at this
      rw [this, show dedupeDashAux false [] = [] from rfl, List.append_nil]
      rfl
    | cons w₂ ws' =>
      show dedupeDashAux b (w ++ '-' :: joinDash (w₂ :: ws')) = w ++ '-' :: joinDash (w₂ :: ws')
      rw [dedupe_word w _ b hw.1 hw.2]
      congr 1
      show (if ('-' : Char) = '-' then
          (if false = true then dedupeDashAux true (joinDash (w₂ :: ws'))
            else '-' :: dedupeDashAux true (joinDash (w₂ :: ws')))
        else '-' :: dedupeDashAux false (joinDash (w₂ :: ws'))) = '-' :: joinDash (w₂ :: ws')
      rw [if_pos rfl, if_neg (by decide)]
      rw [ih true (fun x hx => h x (by simp [hx]))]

theorem joinDash_ne_nil : ∀ (w : List Char) (ws : List (List Char)), w ≠ [] →
    joinDash (w :: ws) ≠ [] := by
  intro w ws hw
  cases ws with
  | nil => exact hw
  | cons w₂ ws' =>
    show w ++ '-' :: joinDash (w₂ :: ws') ≠ []
    simp

theorem joinDash_getLast_wc : ∀ (ws : List (List Char)),
    (∀ w ∈ ws, w ≠ [] ∧ ∀ c ∈ w, isWordChar c = true) →
    ∀ c, (joinDash ws).getLast? = some c → isWordChar c = true := by
  intro ws
  induction ws with
  | nil => intro _ c hc; simp [joinDash] at hc
  | cons w ws ih =>
    intro h c hc
    have hw := h w (by simp)
    cases ws with
    | nil =>
      exact hw.2 c (List.mem_of_mem_getLast? hc)
    | cons w₂ ws' =>
      rw [show joinDash (w :: w₂ :: ws') = w ++ '-' :: joinDash (w₂ :: ws') from rfl,
        List.getLast?_append] at hc
      have hne : joinDash (w₂ :: ws') ≠ [] := joinDash_ne_nil w₂ ws' (h w₂ (by simp)).1
      have hcons : ('-' :: joinDash (w₂ :: ws')).getLast? = (joinDash (w₂ :: ws')).getLast? := by
        cases hj : joinDash (w₂ :: ws') with
        | nil => exact absurd hj hne
        | cons d l => rfl
      rw [hcons] at hc
      obtain ⟨d, hd⟩ : ∃ d, (joinDash (w₂ :: ws')).getLast? = some d := by
        cases hj : joinDash (w₂ :: ws') with
        | nil => exact absurd hj hne
        | cons d l => exact ⟨(d :: l).getLast (by simp), List.getLast?_eq_getLast _ _⟩
      rw [hd] at hc
      simp only [Option.or_some, Option.some.injEq] at hc
      subst hc
      exact ih (fun x hx => h x (by simp [hx])) d hd

theorem stripDash_id : ∀ l : List Char,
    (∀ c, l.head? = some c → ¬(c = '-')) →
    (∀ c, l.getLast? = some c → ¬(c = '-')) →
    stripDash l = l := by
  intro l hh hl
  unfold stripDash
  cases l with
  | nil => rfl
  | cons c cs =>
    have hc := hh c rfl
    rw [List.dropWhile_cons, if_neg (by simp [hc])]
    obtain ⟨d, r', hr⟩ : ∃ d r', (c :: cs).reverse = d :: r' := by
      cases hrev : (c :: cs).reverse with
      | nil =>
        have hlen := congrArg List.length hrev
        rw [List.length_reverse] at hlen
        simp at hlen
      | cons d r' => exact ⟨d, r', rfl⟩
    have hd : ¬(d = '-') := by
      apply hl
      rw [← List.head?_reverse, hr]
      rfl
    rw [hr, List.dropWhile_cons, if_neg (by simp [hd]), ← hr, List.reverse_reverse]

theorem sepSwap_word {w : List Char} (h : ∀ c ∈ w, isWordChar c = true) :
    sepSwap w = w := by
  unfold sepSwap
  apply map_id_of
  intro c hc
  rw [if_neg (wc_ne_dash (h c hc))]

theorem sepSwap_join : ∀ (ws : List (List Char)),
    (∀ w ∈ ws, w ≠ [] ∧ ∀ c ∈ w, isWordChar c = true) →
    sepSwap (joinDash ws) = joinUnd ws := by
  intro ws
  induction ws with
  | nil => intro _; rfl
  | cons w ws ih =>
    intro h
    have hw := h w (by simp)
    cases ws with
    | nil => exact sepSwap_word hw.2
    | cons w₂ ws' =>
      show sepSwap (w ++ '-' :: joinDash (w₂ :: ws')) = w ++ '_' :: joinUnd (w₂ :: ws')
      unfold sepSwap
      rw [List.map_append, List.map_cons]
      unfold sepSwap at ih
      rw [ih (fun x hx => h x (by simp [hx]))]
      rw [map_id_of w _ (fun c hc => by rw [if_neg (wc_ne_dash (hw.2 c hc))])]
      rfl

/-- C9: `slugify(..., separator="_")` returns an already-slugified
string unchanged: nonempty words of lowercase letters and digits joined
by single underscores, with no leading or trailing underscore. -/
theorem slugify_idempotent (ws : List (List Char))
    (hw : ∀ w ∈ ws, w ≠ [] ∧ ∀ c ∈ w, isWordChar c = true) :
    slugify_ ⟨joinUnd ws⟩ = ⟨joinUnd ws⟩ := by
  have hmem : ∀ c ∈ joinUnd ws, isWordChar c = true ∨ c = '_' := by
    intro c hc
    rcases mem_joinUnd ws c hc with ⟨w, hwmem, hcw⟩ | h
    · exact Or.inl ((hw w hwmem).2 c hcw)
    · exact Or.inr h
  have h1 : quoteSubAux false (joinUnd ws) = joinUnd ws := by
    apply quoteSubAux_id
    intro c hc
    rcases hmem c hc with h | h
    · exact wc_not_quote h
    · subst h; decide
  have h2 : lowerL (joinUnd ws) = joinUnd ws := by
    apply map_id_of
    intro c hc
    rcases hmem c hc with h | h
    · exact wc_toLower h
    · subst h; decide
  have h3 : quoteRemove (joinUnd ws) = joinUnd ws := by
    apply List.filter_eq_self.mpr
    intro c hc
    rcases hmem c hc with h | h
    · rw [wc_not_quote h]; rfl
    · subst h; decide
  have h4 : numbersCleanAux none (joinUnd ws) = joinUnd ws := by
    apply numbersCleanAux_id
    intro c hc
    rcases hmem c hc with h | h
    · exact wc_ne_comma h
    · subst h; decide
  have h5 : allowedSubAux false (joinUnd ws) = joinDash ws := allowed_join ws false hw
  have h6 : dedupeDashAux false (joinDash ws) = joinDash ws := dedupe_join ws false hw
  have h7 : stripDash (joinDash ws) = joinDash ws := by
    apply stripDash_id
    · intro c hc
      cases ws with
      | nil => simp [joinDash] at hc
      | cons w ws' =>
        have hw1 := hw w (by simp)
        obtain ⟨c₀, w', hwshape⟩ := List.exists_cons_of_ne_nil hw1.1
        have hhead : (joinDash (w :: ws')).head? = some c₀ := by
          cases ws' with
          | nil => rw [show joinDash [w] = w from rfl, hwshape]; rfl
          | cons w₂ ws'' =>
            rw [show joinDash (w :: w₂ :: ws'') = w ++ '-' :: joinDash (w₂ :: ws'') from rfl,
              hwshape]
            rfl
        rw [hhead] at hc
        have hcc : c₀ = c := by injection hc
        subst hcc
        exact wc_ne_dash (hw1.2 c₀ (by rw [hwshape]; simp))
    · intro c hc
      exact wc_ne_dash (joinDash_getLast_wc ws hw c hc)
  have h8 : sepSwap (joinDash ws) = joinUnd ws := sepSwap_join ws hw
  show String.mk (slugifyChars (String.mk (joinUnd ws)).data) = String.mk (joinUnd ws)
  have hdata : (String.mk (joinUnd ws)).data = joinUnd ws := rfl
  rw [hdata]
  unfold slugifyChars
  rw [h1, h2, h3, h4, h5, h6, h7, h8]

/-- Witness for C9 on the slug `one_two_3`. -/
theorem slugify_idempotent_witness :
    (∀ w ∈ [['o','n','e'], ['t','w','o'], ['3']], w ≠ [] ∧ ∀ c ∈ w, isWordChar c = true)
    ∧ slugify_ ⟨joinUnd [['o','n','e'], ['t','w','o'], ['3']]⟩
        = ⟨joinUnd [['o','n','e'], ['t','w','o'], ['3']]⟩ :=
  ⟨by decide, slugify_idempotent _ (by decide)⟩

/-! ## C7: canonical column ordering of the unified frame -/

theorem sortStrings_sorted (l : List String) :
    (sortStrings l).Pairwise (fun a b => a ≤ b) := by
  have h := @List.sorted_mergeSort String (fun a b => decide (a ≤ b))
    (fun a b c hab hbc => by
      simp only [decide_eq_true_eq] at *
      exact le_trans hab hbc)
    (fun a b => by
      simp only [Bool.or_eq_true, decide_eq_true_eq]
      exact le_total a b) l
  exact h.imp (fun hab => by simpa using hab)

theorem sortStrings_perm (l : List String) : (sortStrings l).Perm l :=
  List.mergeSort_perm l _

/-- C7: when the concatenated frame has `date` and `midpoint` columns
(as every frame built by the extractor does), the final reindexing
succeeds and produces `date`, then `midpoint`, then the remaining
columns in ascending lexicographic (alphabetical) order. -/
theorem reorder_canonical (df : DataFrame)
    (hd : "date" ∈ df.cols) (hm : "midpoint" ∈ df.cols) :
    ∃ out, reorderCols df = .ok out
      ∧ out.cols.take 2 = ["date", "midpoint"]
      ∧ (out.cols.drop 2).Pairwise (fun a b => a ≤ b)
      ∧ (out.cols.drop 2).Perm
          (df.cols.filter (fun c => !(c = "date" || c = "midpoint"))) := by
  have hall : (["date", "midpoint"] ++
      sortStrings (df.cols.filter (fun c => !(c = "date" || c = "midpoint")))).all
        (fun c => df.cols.contains c) = true := by
    rw [List.all_eq_true]
    intro c hc
    rw [List.mem_append] at hc
    rcases hc with hc | hc
    · rcases List.mem_cons.mp hc with hc | hc
      · subst hc; exact List.elem_iff.mpr hd
      · rcases List.mem_cons.mp hc with hc | hc
        · subst hc; exact List.elem_iff.mpr hm
        · simp at hc
    · have := (sortStrings_perm _).mem_iff.mp hc
      exact List.elem_iff.mpr (List.mem_of_mem_filter this)
  have heq : reorderCols df = .ok ⟨["date", "midpoint"] ++
      sortStrings (df.cols.filter (fun c => !(c = "date" || c = "midpoint"))),
      df.rows.map (fun r => (["date", "midpoint"] ++
        sortStrings (df.cols.filter (fun c => !(c = "date" || c = "midpoint")))).map
          (fun c => cellOf df.cols r c))⟩ := by
    unfold reorderCols selectCols
    rw [if_pos hall]
  exact ⟨_, heq, rfl, sortStrings_sorted _, sortStrings_perm _⟩

/-- Witness for C7 on a two-row frame whose columns arrive shuffled. -/
theorem reorder_canonical_witness :
    "date" ∈ (DataFrame.mk ["b", "midpoint", "date", "a"] [[.str "1", .str "2", .null, .str "3"]]).cols
    ∧ ∃ out, reorderCols
        (DataFrame.mk ["b", "midpoint", "date", "a"] [[.str "1", .str "2", .null, .str "3"]])
        = .ok out
      ∧ out.cols.take 2 = ["date", "midpoint"]
      ∧ (out.cols.drop 2).Pairwise (fun a b => a ≤ b)
      ∧ (out.cols.drop 2).Perm
          ((DataFrame.mk ["b", "midpoint", "date", "a"]
            [[.str "1", .str "2", .null, .str "3"]]).cols.filter
              (fun c => !(c = "date" || c = "midpoint"))) :=
  ⟨by decide,
   reorder_canonical (DataFrame.mk ["b", "midpoint", "date", "a"]
     [[.str "1", .str "2", .null, .str "3"]]) (by decide) (by decide)⟩

/-! ## C8: concatenation unifies the column sets and fills nulls -/

theorem mem_unionCols_aux : ∀ (dfs : List DataFrame) (acc : List String) (c : String),
    c ∈ dfs.foldl (fun acc df => acc ++ df.cols.filter (fun k => !acc.contains k)) acc ↔
      c ∈ acc ∨ ∃ df ∈ dfs, c ∈ df.cols := by
  intro dfs
  induction dfs with
  | nil => intro acc c; simp
  | cons df dfs ih =>
    intro acc c
    rw [List.foldl_cons, ih]
    constructor
    · intro h
      rcases h with h | ⟨d, hd, hc⟩
      · rw [List.mem_append] at h
        rcases h with h | h
        · exact Or.inl h
        · exact Or.inr ⟨df, by simp, List.mem_of_mem_filter h⟩
      · exact Or.inr ⟨d, by simp [hd], hc⟩
    · intro h
      rcases h with h | ⟨d, hd, hc⟩
      · exact Or.inl (by rw [List.mem_append]; exact Or.inl h)
      · rcases List.mem_cons.mp hd with hd | hd
        · subst hd
          by_cases hacc : c ∈ acc
          · exact Or.inl (by rw [List.mem_append]; exact Or.inl hacc)
          · refine Or.inl (by
              rw [List.mem_append]
              refine Or.inr (List.mem_filter.mpr ⟨hc, ?_⟩)
              cases helem : List.contains acc c with
              | false => rfl
              | true => exact absurd (List.elem_iff.mp helem) hacc)
        · exact Or.inr ⟨d, hd, hc⟩

theorem mem_unionCols (dfs : List DataFrame) (c : String) :
    c ∈ unionCols dfs ↔ ∃ df ∈ dfs, c ∈ df.cols := by
  unfold unionCols
  rw [mem_unionCols_aux]
  simp

/-- C8: on a nonempty list of page frames, concatenation succeeds, the
unified column set is exactly the union of the per-frame column sets,
and every unified row carries one cell (possibly null) per unified
column. -/
theorem concat_union (dfs : List DataFrame) (h : dfs ≠ []) :
    ∃ out, concatDfs dfs = .ok out
      ∧ (∀ c, c ∈ out.cols ↔ ∃ df ∈ dfs, c ∈ df.cols)
      ∧ (∀ r ∈ out.rows, r.length = out.cols.length) := by
  match dfs with
  | df :: dfs' =>
    refine ⟨_, rfl, ?_, ?_⟩
    · intro c
      exact mem_unionCols (df :: dfs') c
    · intro r hr
      simp only [List.mem_flatten, List.mem_map] at hr
      obtain ⟨inner, ⟨d, _, hinner⟩, hrin⟩ := hr
      subst hinner
      simp only [List.mem_map] at hrin
      obtain ⟨orig, _, horig⟩ := hrin
      subst horig
      exact List.length_map _ _

/-- Witness for C8 at the spec's example: column sets
`{date, midpoint, a, b}` and `{date, midpoint, b, c}` unify to
`{date, midpoint, a, b, c}` with null-filled gaps. -/
theorem concat_union_witness :
    ([DataFrame.mk ["date", "midpoint", "a", "b"] [[.str "d1", .str "1", .str "2", .str "3"]],
      DataFrame.mk ["date", "midpoint", "b", "c"] [[.str "d2", .str "4", .str "5", .str "6"]]]
      : List DataFrame) ≠ []
    ∧ ∃ out, concatDfs
        [DataFrame.mk ["date", "midpoint", "a", "b"] [[.str "d1", .str "1", .str "2", .str "3"]],
         DataFrame.mk ["date", "midpoint", "b", "c"] [[.str "d2", .str "4", .str "5", .str "6"]]]
        = .ok out
      ∧ (∀ c, c ∈ out.cols ↔ ∃ df ∈
          [DataFrame.mk ["date", "midpoint", "a", "b"] [[.str "d1", .str "1", .str "2", .str "3"]],
           DataFrame.mk ["date", "midpoint", "b", "c"] [[.str "d2", .str "4", .str "5", .str "6"]]],
            c ∈ df.cols)
      ∧ (∀ r ∈ out.rows, r.length = out.cols.length) :=
  ⟨by decide,
   concat_union
     [DataFrame.mk ["date", "midpoint", "a", "b"] [[.str "d1", .str "1", .str "2", .str "3"]],
      DataFrame.mk ["date", "midpoint", "b", "c"] [[.str "d2", .str "4", .str "5", .str "6"]]]
     (by decide)⟩

/-- The spec example evaluated: the unified columns and null-filled rows. -/
theorem concat_union_example :
    concatDfs
      [DataFrame.mk ["date", "midpoint", "a", "b"] [[.str "d1", .str "1", .str "2", .str "3"]],
       DataFrame.mk ["date", "midpoint", "b", "c"] [[.str "d2", .str "4", .str "5", .str "6"]]]
    = .ok (DataFrame.mk ["date", "midpoint", "a", "b", "c"]
        [[.str "d1", .str "1", .str "2", .str "3", .null],
         [.str "d2", .str "4", .null, .str "5", .str "6"]]) := by decide

/-! ## C10: an empty discovery result is an error, not an empty dataset -/

/-- C10: with zero marker-matching links the source-URL step fails (the
empty frame has no `url` column, so `df.url` raises `AttributeError`),
and independently `pd.concat` of an empty frame list raises
`ValueError` — the run never returns an empty unified dataset. -/
theorem empty_discovery_errors (links : List (Option String))
    (h : links.filterMap linkMatches = []) :
    getSourceUrls links = .error .noUrlColumn
    ∧ concatDfs ([] : List DataFrame) = .error .concatEmpty := by
  constructor
  · unfold getSourceUrls
    rw [h]
    rfl
  · rfl

/-- Witness for C10: an index page whose anchors all fail the filter
(no `href`, no marker, or no `.htm`). -/
theorem empty_discovery_errors_witness :
    ([none, some "/monetarypolicy/files/fomcminutes20200610.pdf",
      some "/fomcprojtabl20200610.pdf"] : List (Option String)).filterMap linkMatches = []
    ∧ getSourceUrls [none, some "/monetarypolicy/files/fomcminutes20200610.pdf",
        some "/fomcprojtabl20200610.pdf"] = .error .noUrlColumn
    ∧ concatDfs ([] : List DataFrame) = .error .concatEmpty :=
  ⟨by decide,
   (empty_discovery_errors [none, some "/monetarypolicy/files/fomcminutes20200610.pdf",
     some "/fomcprojtabl20200610.pdf"] (by decide)).1,
   (empty_discovery_errors [none, some "/monetarypolicy/files/fomcminutes20200610.pdf",
     some "/fomcprojtabl20200610.pdf"] (by decide)).2⟩

/-! ## C3: anchor and table lookup failures -/

theorem findIdx?_eq_none_of_all : ∀ (l : List Node) (i : Nat),
    (∀ n ∈ l, isAnchor n = false) → l.findIdx? isAnchor i = none := by
  intro l
  induction l with
  | nil => intro i _; rfl
  | cons n l ih =>
    intro i h
    rw [List.findIdx?_cons, h n (by simp)]
    simp only [Bool.false_eq_true, if_false]
    exact ih (i + 1) (fun x hx => h x (by simp [hx]))

theorem extractTable_eq_anchor_none (doc : List Node) (date : Date)
    (h : doc.findIdx? isAnchor = none) :
    extractTable doc date = .error .anchorNotFound := by
  unfold extractTable
  rw [h]

theorem extractTable_eq_table_none (doc : List Node) (date : Date) (i : Nat)
    (hi : doc.findIdx? isAnchor = some i) (ht : firstTableAfter doc i = none) :
    extractTable doc date = .error .tableNotFound := by
  unfold extractTable
  rw [hi]
  show (match firstTableAfter doc i with
    | none => Except.error ScrapeError.tableNotFound
    | some tbl =>
      match tbl.thead with
      | none => Except.error ScrapeError.missingThead
      | some ths =>
        let headers := ths.map (fun th => match safestr th with
          | .null => none
          | .str s => some s
          | .date _ => none)
        match tbl.tbody with
        | none => Except.error ScrapeError.missingTbody
        | some trs =>
          match mapE (parseRow headers) trs with
          | .error e => Except.error e
          | .ok dicts =>
            let df := setCol (frameOfRecords dicts) "date" (.date date)
            Except.ok (renameFirstToMidpoint df)) = Except.error ScrapeError.tableNotFound
  rw [ht]

/-- C3: extraction fails with `AnchorNotFoundError` when no `h4`/`h5`
heading case-insensitively contains the anchor phrase, and with
`TableNotFoundError` when no table element occurs after the anchor
heading in document order. -/
theorem extract_table_errors (doc : List Node) (date : Date) :
    ((∀ n ∈ doc, isAnchor n = false) → extractTable doc date = .error .anchorNotFound)
    ∧ (∀ i, doc.findIdx? isAnchor = some i →
        (∀ n ∈ doc.drop (i + 1), isTableNode n = false) →
        extractTable doc date = .error .tableNotFound) := by
  constructor
  · intro h
    exact extractTable_eq_anchor_none doc date (findIdx?_eq_none_of_all doc 0 h)
  · intro i hi h
    apply extractTable_eq_table_none doc date i hi
    unfold firstTableAfter
    have hfind : (doc.drop (i + 1)).find? isTableNode = none := by
      rw [List.find?_eq_none]
      intro x hx
      rw [h x hx]
      simp
    rw [hfind]

/-- Witness for C3: a page whose only heading is an `h2` (anchor miss),
and a page with a good `h4` anchor but no table after it. -/
theorem extract_table_errors_witness :
    (∀ n ∈ ([.heading "h2" (some "Assessments of appropriate monetary policy"), .other]
      : List Node), isAnchor n = false)
    ∧ extractTable [.heading "h2" (some "Assessments of appropriate monetary policy"), .other]
        ⟨2012, 1, 25⟩ = .error .anchorNotFound
    ∧ ([.heading "h4" (some "Assessments of Appropriate Monetary Policy"), .other]
        : List Node).findIdx? isAnchor = some 0
    ∧ extractTable [.heading "h4" (some "Assessments of Appropriate Monetary Policy"), .other]
        ⟨2012, 1, 25⟩ = .error .tableNotFound :=
  ⟨by decide,
   (extract_table_errors [.heading "h2" (some "Assessments of appropriate monetary policy"),
      .other] ⟨2012, 1, 25⟩).1 (by decide),
   by decide,
   (extract_table_errors [.heading "h4" (some "Assessments of Appropriate Monetary Policy"),
      .other] ⟨2012, 1, 25⟩).2 0 (by decide) (by decide)⟩

/-! ## C1: short body rows do not raise — they are silently truncated -/

/-- C1 counterexample: a table whose header row has two cells and whose
single body row has one cell.  Extraction succeeds (nothing like
`RowColumnMismatchError` is raised) and the produced frame has no column
at all for the unmatched trailing header `2012` — the row is silently
truncated. -/
theorem short_row_counterexample :
    extractTable
      [.heading "h4" (some "Assessments of appropriate monetary policy"),
       .table ⟨some ["Midpoint of target range", "2012"], some [["2.5"]]⟩]
      ⟨2012, 1, 25⟩
    = .ok ⟨["midpoint", "date"], [[.str "2.5", .date ⟨2012, 1, 25⟩]]⟩ := by decide

theorem parseRowAux_short : ∀ (cells : List String) (i : Nat)
    (acc : List (String × Cell)) (headers : List (Option String)),
    i + cells.length ≤ headers.length →
    parseRowAux headers cells i acc =
      .ok ((List.zip ((headers.drop i).take cells.length) cells).foldl
        (fun acc p => dictSet acc (slugify_ (pyStrOpt p.1)) (safestr p.2)) acc) := by
  intro cells
  induction cells with
  | nil => intro i acc headers _; rfl
  | cons c cs ih =>
    intro i acc headers h
    have hi : i < headers.length := by simp only [List.length_cons] at h; omega
    have hget : headers.get? i = some headers[i] := by
      rw [List.get?_eq_getElem?, List.getElem?_eq_getElem hi]
    show (match headers.get? i with
      | none => Except.error ScrapeError.headerIndexError
      | some hdr => parseRowAux headers cs (i + 1)
          (dictSet acc (slugify_ (pyStrOpt hdr)) (safestr c))) = _
    rw [hget]
    show parseRowAux headers cs (i + 1)
        (dictSet acc (slugify_ (pyStrOpt headers[i])) (safestr c)) =
      Except.ok ((List.zip ((headers.drop i).take (c :: cs).length) (c :: cs)).foldl
        (fun acc p => dictSet acc (slugify_ (pyStrOpt p.1)) (safestr p.2)) acc)
    rw [ih (i + 1) _ headers (by simp only [List.length_cons] at h; omega)]
    congr 1
    rw [List.drop_eq_getElem_cons hi]
    rfl

/-- C1 amended: a body row with at most as many cells as the header row
is accepted — each cell is matched to the header at its ordinal
position, and the unmatched trailing headers are silently omitted from
the row's dict (only a row with *more* cells than headers fails, with
an index error). -/
theorem parseRow_short (headers : List (Option String)) (cells : List String)
    (h : cells.length ≤ headers.length) :
    parseRow headers cells =
      .ok ((List.zip (headers.take cells.length) cells).foldl
        (fun acc p => dictSet acc (slugify_ (pyStrOpt p.1)) (safestr p.2)) []) := by
  unfold parseRow
  rw [parseRowAux_short cells 0 [] headers (by omega)]
  rfl

/-- Witness for C1 amended: one cell against two headers parses to a
one-entry dict keyed by the first header only. -/
theorem parseRow_short_witness :
    (["2.5"] : List String).length ≤
      ([some "Midpoint of target range", some "2012"] : List (Option String)).length
    ∧ parseRow [some "Midpoint of target range", some "2012"] ["2.5"] =
        .ok ((List.zip (([some "Midpoint of target range", some "2012"]
            : List (Option String)).take 1) ["2.5"]).foldl
          (fun acc p => dictSet acc (slugify_ (pyStrOpt p.1)) (safestr p.2)) []) :=
  ⟨by decide, parseRow_short [some "Midpoint of target range", some "2012"] ["2.5"] (by decide)⟩

/-! ## C4: `sort_values("date")` — ascending, but only small inputs sort stably -/

/-- C4 counterexample: seventeen links discovered in order `a..q`, all
with meeting date 2020-06-10.  `_get_source_urls` succeeds, every
returned reference carries the same date (an all-ties input), yet the
returned URL order differs from the discovery order: numpy's default
quicksort partitions any segment of more than 16 elements and swaps
equal-key entries. -/
theorem sort_ties_counterexample :
    getSourceUrls tieLinks17 = .ok tieExpected17
    ∧ tieExpected17.all (fun r => r.date = ⟨2020, 6, 10⟩) = true
    ∧ tieExpected17.map SourceRef.url ≠ (tieLinks17.filterMap linkMatches).map buildUrl := by
  refine ⟨by decide, by decide, by decide⟩

theorem partPhase_small (keys : List Nat) (f : Nat) (t : List Nat) (pl pr : Nat)
    (cdepth : Int) (stk : List (Nat × Nat × Int)) (h : ¬(pr - pl > 15)) :
    partPhase keys f t pl pr cdepth stk = (t, pl, pr, stk, cdepth) := by
  match f with
  | 0 => rfl
  | f + 1 =>
    unfold partPhase
    rw [if_neg h]

/-- For at most 16 rows the quicksort never partitions: the whole index
range goes through the insertion sort in one pass. -/
theorem npArgsort_small (keys : List Nat) (h : keys.length ≤ 16) :
    npArgsort keys = insArg keys (List.range keys.length) := by
  unfold npArgsort
  have hfuel : keys.length * keys.length + 64 = keys.length * keys.length + 63 + 1 := by
    omega
  rw [hfuel]
  unfold qsOuter
  have hnn : ¬(Int.ofNat (2 * npGetMsb keys.length) < 0) := by
    rw [Int.ofNat_eq_coe]
    omega
  rw [if_neg hnn]
  have hng : ¬(keys.length - 1 - 0 > 15) := by omega
  rw [partPhase_small keys _ _ _ _ _ _ hng]
  show insSeg keys (List.range keys.length) 0 (keys.length - 1)
    = insArg keys (List.range keys.length)
  unfold insSeg
  have h1 : (List.range keys.length).take 0 = [] := List.take_zero _
  have h2 : ((List.range keys.length).drop 0).take (keys.length - 1 + 1 - 0)
      = List.range keys.length := by
    rw [List.drop_zero]
    apply List.take_of_length_le
    rw [List.length_range]
    omega
  have h3 : (List.range keys.length).drop (keys.length - 1 + 1) = [] := by
    apply List.drop_eq_nil_of_le
    rw [List.length_range]
    omega
  rw [h1, h2, h3]
  simp

theorem mem_insIdx (keys : List Nat) (i x : Nat) : ∀ l,
    x ∈ insIdx keys i l ↔ x = i ∨ x ∈ l := by
  intro l
  induction l with
  | nil => simp [insIdx]
  | cons j rest ih =>
    unfold insIdx
    by_cases hc : keys.getD j 0 ≤ keys.getD i 0
    · rw [if_pos hc]
      simp only [List.mem_cons, ih]
      tauto
    · rw [if_neg hc]
      simp only [List.mem_cons]

theorem insIdx_perm (keys : List Nat) (i : Nat) : ∀ l,
    (insIdx keys i l).Perm (i :: l) := by
  intro l
  induction l with
  | nil => exact List.Perm.refl _
  | cons j rest ih =>
    unfold insIdx
    by_cases hc : keys.getD j 0 ≤ keys.getD i 0
    · rw [if_pos hc]
      exact (ih.cons j).trans (List.Perm.swap i j rest)
    · rw [if_neg hc]

theorem insIdx_pairwise (keys : List Nat) (i : Nat) : ∀ l,
    l.Pairwise (idxLe keys) → (∀ j ∈ l, j < i) →
    (insIdx keys i l).Pairwise (idxLe keys) := by
  intro l
  induction l with
  | nil => intro _ _; simp [insIdx]
  | cons j rest ih =>
    intro hp hlt
    rw [List.pairwise_cons] at hp
    unfold insIdx
    by_cases hc : keys.getD j 0 ≤ keys.getD i 0
    · rw [if_pos hc]
      rw [List.pairwise_cons]
      constructor
      · intro x hx
        rcases (mem_insIdx keys i x rest).mp hx with hx | hx
        · subst hx
          rcases lt_or_eq_of_le hc with hlt' | heq
          · exact Or.inl hlt'
          · exact Or.inr ⟨heq, hlt j (by simp)⟩
        · exact hp.1 x hx
      · exact ih hp.2 (fun x hx => hlt x (by simp [hx]))
    · rw [if_neg hc]
      push_neg at hc
      rw [List.pairwise_cons]
      constructor
      · intro x hx
        rcases List.mem_cons.mp hx with hx | hx
        · subst hx
          exact Or.inl hc
        · rcases hp.1 x hx with h' | h'
          · exact Or.inl (lt_trans hc h')
          · exact Or.inl (lt_of_lt_of_le hc (le_of_eq h'.1))
      · rw [List.pairwise_cons]
        exact hp

theorem insArg_range (keys : List Nat) : ∀ n,
    ((insArg keys (List.range n)).Pairwise (idxLe keys))
    ∧ ((insArg keys (List.range n)).Perm (List.range n)) := by
  intro n
  induction n with
  | zero => exact ⟨by simp [insArg], List.Perm.refl _⟩
  | succ n ih =>
    have hstep : insArg keys (List.range (n + 1))
        = insIdx keys n (insArg keys (List.range n)) := by
      unfold insArg
      rw [List.range_succ, List.foldl_append]
      rfl
    have hmem : ∀ j ∈ insArg keys (List.range n), j < n := by
      intro j hj
      have := ih.2.mem_iff.mp hj
      simpa using this
    constructor
    · rw [hstep]
      exact insIdx_pairwise keys n _ ih.1 hmem
    · rw [hstep, List.range_succ]
      exact (insIdx_perm keys n _).trans
        ((ih.2.cons n).trans (List.perm_append_singleton n (List.range n)).symm)

/-! ### Swap and slice infrastructure -/

theorem getD_set_ne (t : List Nat) (i p v : Nat) (h : i ≠ p) :
    (t.set i v).getD p 0 = t.getD p 0 := by
  rcases Nat.lt_or_ge p t.length with hp | hp
  · rw [List.getD_eq_getElem _ _ (by rw [List.length_set]; exact hp),
      List.getD_eq_getElem _ _ hp]
    exact List.getElem_set_ne h _
  · rw [List.getD_eq_getElem?_getD, List.getD_eq_getElem?_getD,
      List.getElem?_eq_none (by rw [List.length_set]; exact hp),
      List.getElem?_eq_none hp]

theorem getD_set_self (t : List Nat) (i v : Nat) (h : i < t.length) :
    (t.set i v).getD i 0 = v := by
  rw [List.getD_eq_getElem _ _ (by rw [List.length_set]; exact h)]
  exact List.getElem_set_self _

theorem set_getD_self (t : List Nat) (p : Nat) : t.set p (t.getD p 0) = t := by
  rcases Nat.lt_or_ge p t.length with hp | hp
  · apply List.ext_getElem (by rw [List.length_set])
    intro n h1 h2
    rw [List.getElem_set]
    split
    · next heq => subst heq; rw [List.getD_eq_getElem _ _ hp]
    · rfl
  · exact List.set_eq_of_length_le hp

theorem lswap_length (t : List Nat) (i j : Nat) : (lswap t i j).length = t.length := by
  rw [lswap, List.length_set, List.length_set]

theorem lswap_self (t : List Nat) (i : Nat) : lswap t i i = t := by
  rw [lswap, List.set_set, set_getD_self]

theorem lswap_getD_fst (t : List Nat) {i j : Nat} (hi : i < t.length)
    (hij : i ≠ j) : (lswap t i j).getD i 0 = t.getD j 0 := by
  rw [lswap, getD_set_ne _ _ _ _ (Ne.symm hij), getD_set_self _ _ _ hi]

theorem lswap_getD_snd (t : List Nat) {i j : Nat} (hj : j < t.length) :
    (lswap t i j).getD j 0 = t.getD i 0 := by
  rw [lswap, getD_set_self _ _ _ (by rw [List.length_set]; exact hj)]

theorem lswap_getD_other (t : List Nat) {i j p : Nat} (hpi : p ≠ i)
    (hpj : p ≠ j) : (lswap t i j).getD p 0 = t.getD p 0 := by
  rw [lswap, getD_set_ne _ _ _ _ (Ne.symm hpj), getD_set_ne _ _ _ _ (Ne.symm hpi)]

theorem head_swap_perm (x : Nat) : ∀ (t : List Nat) (j : Nat), j < t.length →
    (t.getD j 0 :: t.set j x).Perm (x :: t) := by
  intro t
  induction t with
  | nil => intro j hj; simp at hj
  | cons y t ih =>
    intro j hj
    match j with
    | 0 => exact List.Perm.swap x y t
    | j + 1 =>
      show (t.getD j 0 :: y :: t.set j x).Perm (x :: y :: t)
      exact (List.Perm.swap y (t.getD j 0) (t.set j x)).trans
        (((ih j (by simpa using hj)).cons y).trans (List.Perm.swap x y t))

theorem lswap_comm (t : List Nat) (i j : Nat) : lswap t i j = lswap t j i := by
  rcases eq_or_ne i j with h | h
  · rw [h]
  · rw [lswap, lswap, List.set_comm _ _ _ h]

theorem lswap_perm_aux : ∀ (i : Nat) (t : List Nat) (j : Nat), i < t.length →
    j < t.length → i ≤ j → (lswap t i j).Perm t := by
  intro i
  induction i with
  | zero =>
    intro t j h0 hj _
    match t with
    | x :: t =>
      match j with
      | 0 => rw [lswap_self]
      | j + 1 =>
        show ((( x :: t).set 0 (t.getD j 0)).set (j + 1) x).Perm (x :: t)
        show (t.getD j 0 :: t.set j x).Perm (x :: t)
        exact head_swap_perm x t j (by simpa using hj)
  | succ i ih =>
    intro t j hi hj hij
    match t, j with
    | x :: t, j + 1 =>
      show (x :: lswap t i j).Perm (x :: t)
      exact (ih t j (by simpa using hi) (by simpa using hj) (by omega)).cons x

theorem lswap_perm (t : List Nat) {i j : Nat} (hi : i < t.length)
    (hj : j < t.length) : (lswap t i j).Perm t := by
  rcases Nat.le_total i j with h | h
  · exact lswap_perm_aux i t j hi hj h
  · rw [lswap_comm]
    exact lswap_perm_aux j t i hj hi h

theorem getD_take_of_lt (t : List Nat) {a p : Nat} (h : p < a) :
    (t.take a).getD p 0 = t.getD p 0 := by
  rw [List.getD_eq_getElem?_getD, List.getD_eq_getElem?_getD,
    List.getElem?_take, if_pos h]

theorem getD_drop (t : List Nat) (k m : Nat) :
    (t.drop k).getD m 0 = t.getD (k + m) 0 := by
  rw [List.getD_eq_getElem?_getD, List.getD_eq_getElem?_getD, List.getElem?_drop]

theorem sameOutside_rfl (t : List Nat) (a b : Nat) : SameOutside t t a b :=
  ⟨rfl, rfl, rfl⟩

theorem sameOutside_trans {t u v : List Nat} {a b : Nat}
    (h1 : SameOutside t u a b) (h2 : SameOutside u v a b) : SameOutside t v a b :=
  ⟨h2.1.trans h1.1, h2.2.1.trans h1.2.1, h2.2.2.trans h1.2.2⟩

theorem sameOutside_set (t : List Nat) {i : Nat} (v : Nat) {a b : Nat}
    (ha : a ≤ i) (hb : i ≤ b) : SameOutside t (t.set i v) a b := by
  refine ⟨List.length_set t i v, ?_, ?_⟩
  · apply List.ext_getElem (by rw [List.length_take, List.length_take, List.length_set])
    intro n h1 h2
    have hn : n < a := by
      rw [List.length_take] at h1
      exact lt_of_lt_of_le h1 (min_le_left _ _)
    rw [List.getElem_take, List.getElem_take]
    exact List.getElem_set_ne (by omega) _
  · apply List.ext_getElem (by rw [List.length_drop, List.length_drop, List.length_set])
    intro n h1 h2
    rw [List.getElem_drop, List.getElem_drop]
    exact List.getElem_set_ne (by omega) _

theorem sameOutside_lswap (t : List Nat) {i j a b : Nat} (h1 : a ≤ i)
    (h2 : i ≤ b) (h3 : a ≤ j) (h4 : j ≤ b) : SameOutside t (lswap t i j) a b :=
  sameOutside_trans (sameOutside_set t _ h1 h2) (sameOutside_set _ _ h3 h4)

theorem sameOutside_mono {t t' : List Nat} {a b a' b' : Nat}
    (h : SameOutside t t' a b) (ha : a' ≤ a) (hb : b ≤ b') :
    SameOutside t t' a' b' := by
  refine ⟨h.1, ?_, ?_⟩
  · calc t'.take a' = (t'.take a).take a' := by rw [List.take_take, min_eq_left ha]
      _ = (t.take a).take a' := by rw [h.2.1]
      _ = t.take a' := by rw [List.take_take, min_eq_left ha]
  · have e1 : t'.drop (b' + 1) = (t'.drop (b + 1)).drop (b' - b) := by
      rw [List.drop_drop]
      congr 1
      omega
    have e2 : t.drop (b' + 1) = (t.drop (b + 1)).drop (b' - b) := by
      rw [List.drop_drop]
      congr 1
      omega
    rw [e1, e2, h.2.2]

theorem getD_eq_of_outside {t t' : List Nat} {a b : Nat}
    (h : SameOutside t t' a b) {p : Nat} (hp : p < a ∨ b < p) :
    t'.getD p 0 = t.getD p 0 := by
  rcases hp with hp | hp
  · rw [← getD_take_of_lt t' hp, ← getD_take_of_lt t hp, h.2.1]
  · have e : b + 1 + (p - (b + 1)) = p := by omega
    rw [← e, ← getD_drop t', ← getD_drop t, h.2.2]

theorem segSlice_decomp {t : List Nat} {a b : Nat} (hab : a ≤ b) :
    t = t.take a ++ (segSlice t a b ++ t.drop (b + 1)) := by
  have e1 : segSlice t a b ++ t.drop (b + 1)
      = (t.drop a).take (b + 1 - a) ++ (t.drop a).drop (b + 1 - a) := by
    rw [segSlice, List.drop_drop]
    congr 2
    omega
  rw [e1, List.take_append_drop, List.take_append_drop]

theorem segSlice_perm {t t' : List Nat} {a b : Nat} (h : SameOutside t t' a b)
    (hp : t'.Perm t) (hab : a ≤ b) :
    (segSlice t' a b).Perm (segSlice t a b) := by
  have e1 := segSlice_decomp (t := t) hab
  have e2 := segSlice_decomp (t := t') hab
  rw [e2, e1, h.2.1, h.2.2] at hp
  exact ((List.perm_append_right_iff _).mp
    ((List.perm_append_left_iff _).mp hp))

theorem segSlice_len {t : List Nat} {a b : Nat} (hab : a ≤ b)
    (hb : b < t.length) : (segSlice t a b).length = b + 1 - a := by
  rw [segSlice, List.length_take, List.length_drop]
  omega

theorem mem_segSlice {t : List Nat} {a b : Nat} (x : Nat) (hab : a ≤ b)
    (hb : b < t.length) :
    x ∈ segSlice t a b ↔ ∃ p, a ≤ p ∧ p ≤ b ∧ t.getD p 0 = x := by
  rw [List.mem_iff_getElem]
  constructor
  · rintro ⟨o, ho, he⟩
    rw [segSlice_len hab hb] at ho
    refine ⟨a + o, by omega, by omega, ?_⟩
    rw [List.getD_eq_getElem _ _ (by omega), ← he]
    simp only [segSlice]
    rw [List.getElem_take, List.getElem_drop]
  · rintro ⟨p, hp1, hp2, he⟩
    refine ⟨p - a, by rw [segSlice_len hab hb]; omega, ?_⟩
    rw [← he, List.getD_eq_getElem _ _ (by omega)]
    simp only [segSlice]
    rw [List.getElem_take, List.getElem_drop]
    congr 1
    omega

theorem getD_mem_segSlice {t : List Nat} {a b p : Nat} (h1 : a ≤ p)
    (h2 : p ≤ b) (hb : b < t.length) : t.getD p 0 ∈ segSlice t a b :=
  (mem_segSlice _ (by omega) hb).mpr ⟨p, h1, h2, rfl⟩

/-- A value inside the reworked window comes from some old position of
the same window. -/
theorem exists_src {t t' : List Nat} {a b : Nat} (h : SameOutside t t' a b)
    (hp : t'.Perm t) (hb : b < t.length) {p : Nat} (h1 : a ≤ p) (h2 : p ≤ b) :
    ∃ q, a ≤ q ∧ q ≤ b ∧ t'.getD p 0 = t.getD q 0 := by
  have hb' : b < t'.length := by rw [h.1]; exact hb
  have hmem : t'.getD p 0 ∈ segSlice t' a b := getD_mem_segSlice h1 h2 hb'
  have hmem2 : t'.getD p 0 ∈ segSlice t a b :=
    (segSlice_perm h hp (by omega)).mem_iff.mp hmem
  rcases (mem_segSlice _ (by omega) hb).mp hmem2 with ⟨q, hq1, hq2, hqe⟩
  exact ⟨q, hq1, hq2, hqe.symm⟩

/-! ### The Hoare scans -/

theorem keyAt_eq_of_getD {keys t t' : List Nat} {p q : Nat}
    (h : t'.getD p 0 = t.getD q 0) : keyAt keys t' p = keyAt keys t q := by
  simp only [keyAt, h]

theorem scanUp_ex (keys t : List Nat) (vp : Nat) : ∀ (fuel pi m : Nat),
    pi < m → ¬(keyAt keys t m < vp) → m - pi ≤ fuel →
    ∃ r, scanUp keys t vp fuel pi = r ∧ pi < r ∧ r ≤ m ∧
      ¬(keyAt keys t r < vp) ∧ (∀ p, pi < p → p < r → keyAt keys t p < vp) := by
  intro fuel
  induction fuel with
  | zero => intro pi m h1 _ h3; omega
  | succ f ih =>
    intro pi m h1 h2 h3
    by_cases hc : keyAt keys t (pi + 1) < vp
    · have hne : pi + 1 ≠ m := fun he => h2 (he ▸ hc)
      rcases ih (pi + 1) m (by omega) h2 (by omega) with ⟨r, he, hr1, hr2, hr3, hr4⟩
      refine ⟨r, ?_, by omega, hr2, hr3, ?_⟩
      · show (if keyAt keys t (pi + 1) < vp then scanUp keys t vp f (pi + 1)
          else pi + 1) = r
        rw [if_pos hc, he]
      · intro p hp1 hp2
        rcases Nat.eq_or_lt_of_le hp1 with hpe | hpl
        · exact hpe ▸ hc
        · exact hr4 p hpl hp2
    · refine ⟨pi + 1, ?_, by omega, by omega, hc, by omega⟩
      show (if keyAt keys t (pi + 1) < vp then scanUp keys t vp f (pi + 1)
        else pi + 1) = pi + 1
      rw [if_neg hc]

theorem scanDown_ex (keys t : List Nat) (vp : Nat) : ∀ (fuel pj m : Nat),
    m < pj → ¬(vp < keyAt keys t m) → pj - m ≤ fuel →
    ∃ r, scanDown keys t vp fuel pj = r ∧ m ≤ r ∧ r < pj ∧
      ¬(vp < keyAt keys t r) ∧ (∀ q, r < q → q < pj → vp < keyAt keys t q) := by
  intro fuel
  induction fuel with
  | zero => intro pj m h1 _ h3; omega
  | succ f ih =>
    intro pj m h1 h2 h3
    by_cases hc : vp < keyAt keys t (pj - 1)
    · have hne : pj - 1 ≠ m := fun he => h2 (he ▸ hc)
      rcases ih (pj - 1) m (by omega) h2 (by omega) with ⟨r, he, hr1, hr2, hr3, hr4⟩
      refine ⟨r, ?_, hr1, by omega, hr3, ?_⟩
      · show (if vp < keyAt keys t (pj - 1) then scanDown keys t vp f (pj - 1)
          else pj - 1) = r
        rw [if_pos hc, he]
      · intro q hq1 hq2
        rcases Nat.lt_or_ge q (pj - 1) with hql | hqg
        · exact hr4 q hq1 hql
        · have : q = pj - 1 := by omega
          rw [this]
          exact hc
    · refine ⟨pj - 1, ?_, by omega, by omega, hc, by omega⟩
      show (if vp < keyAt keys t (pj - 1) then scanDown keys t vp f (pj - 1)
        else pj - 1) = pj - 1
      rw [if_neg hc]

theorem partLoop_succ (keys : List Nat) (vp f : Nat) (t : List Nat) (pi pj : Nat) :
    partLoop keys vp (f + 1) t pi pj =
      if scanUp keys t vp (t.length + 1) pi ≥ scanDown keys t vp (t.length + 1) pj then
        (t, scanUp keys t vp (t.length + 1) pi)
      else partLoop keys vp f
        (lswap t (scanUp keys t vp (t.length + 1) pi) (scanDown keys t vp (t.length + 1) pj))
        (scanUp keys t vp (t.length + 1) pi) (scanDown keys t vp (t.length + 1) pj) := rfl

/-- Loop invariant and postcondition of the Hoare scan-and-swap loop. -/
theorem partLoop_spec (keys : List Nat) (vp pl pr : Nat) : ∀ (fuel : Nat)
    (t : List Nat) (pi pj : Nat),
    pr < t.length → pl ≤ pi → pj ≤ pr - 1 → pi < pj →
    (∀ p, pl ≤ p → p ≤ pi → keyAt keys t p ≤ vp) →
    (∀ q, pj ≤ q → q ≤ pr → vp ≤ keyAt keys t q) →
    keyAt keys t (pr - 1) = vp →
    pj - pi ≤ fuel →
    SameOutside t (partLoop keys vp fuel t pi pj).1 pl pr
    ∧ (partLoop keys vp fuel t pi pj).1.Perm t
    ∧ pl + 1 ≤ (partLoop keys vp fuel t pi pj).2
    ∧ (partLoop keys vp fuel t pi pj).2 ≤ pr - 1
    ∧ (∀ p, pl ≤ p → p < (partLoop keys vp fuel t pi pj).2 →
        keyAt keys (partLoop keys vp fuel t pi pj).1 p ≤ vp)
    ∧ (∀ q, (partLoop keys vp fuel t pi pj).2 ≤ q → q ≤ pr →
        vp ≤ keyAt keys (partLoop keys vp fuel t pi pj).1 q)
    ∧ keyAt keys (partLoop keys vp fuel t pi pj).1 (pr - 1) = vp := by
  intro fuel
  induction fuel with
  | zero => intro t pi pj _ _ _ hij _ _ _ hfuel; omega
  | succ f ih =>
    intro t pi pj hlen hpi hpj hij hL hR hpiv hfuel
    rcases scanUp_ex keys t vp (t.length + 1) pi pj hij
        (by exact fun hlt => absurd (hR pj le_rfl (by omega)) (by omega))
        (by omega) with ⟨rU, heU, hU1, hU2, hU3, hU4⟩
    rcases scanDown_ex keys t vp (t.length + 1) pj pi hij
        (by exact fun hlt => absurd (hL pi hpi le_rfl) (by omega))
        (by omega) with ⟨rD, heD, hD1, hD2, hD3, hD4⟩
    rw [partLoop_succ, heU, heD]
    by_cases hge : rU ≥ rD
    · rw [if_pos hge]
      have e1 : ((t, rU) : List Nat × Nat).1 = t := rfl
      have e2 : ((t, rU) : List Nat × Nat).2 = rU := rfl
      rw [e1, e2]
      refine ⟨sameOutside_rfl t pl pr, List.Perm.refl t, by omega, by omega, ?_, ?_, hpiv⟩
      · intro p hp1 hp2
        rcases Nat.lt_or_ge pi p with hpl | hpg
        · exact le_of_lt (hU4 p hpl hp2)
        · exact hL p hp1 hpg
      · intro q hq1 hq2
        rcases Nat.eq_or_lt_of_le hq1 with hqe | hql
        · rw [← hqe]
          omega
        · rcases Nat.lt_or_ge q pj with hqlt | hqge
          · exact le_of_lt (hD4 q (by omega) hqlt)
          · exact hR q hqge hq2
    · rw [if_neg hge]
      have hUD : rU < rD := by omega
      have hrUlen : rU < t.length := by omega
      have hrDlen : rD < t.length := by omega
      have hswap := sameOutside_lswap t (i := rU) (j := rD) (a := pl) (b := pr)
        (by omega) (by omega) (by omega) (by omega)
      have hswlen : (lswap t rU rD).length = t.length := lswap_length t rU rD
      have hrec := ih (lswap t rU rD) rU rD (by omega) (by omega) (by omega) hUD
        ?_ ?_ ?_ (by omega)
      · refine ⟨sameOutside_trans hswap hrec.1,
          hrec.2.1.trans (lswap_perm t hrUlen hrDlen),
          hrec.2.2.1, hrec.2.2.2.1, hrec.2.2.2.2.1, hrec.2.2.2.2.2.1,
          hrec.2.2.2.2.2.2⟩
      · intro p hp1 hp2
        rcases Nat.eq_or_lt_of_le hp2 with hpe | hpl
        · rw [hpe]
          rw [keyAt_eq_of_getD (@lswap_getD_fst t rU rD hrUlen (by omega))]
          omega
        · rw [keyAt_eq_of_getD (@lswap_getD_other t rU rD p (by omega) (by omega))]
          rcases Nat.lt_or_ge pi p with hgl | hgg
          · exact le_of_lt (hU4 p hgl (by omega))
          · exact hL p hp1 hgg
      · intro q hq1 hq2
        rcases Nat.eq_or_lt_of_le hq1 with hqe | hql
        · rw [← hqe]
          rw [keyAt_eq_of_getD (@lswap_getD_snd t rU rD hrDlen)]
          omega
        · rw [keyAt_eq_of_getD (@lswap_getD_other t rU rD q (by omega) (by omega))]
          rcases Nat.lt_or_ge q pj with hqlt | hqge
          · exact le_of_lt (hD4 q (by omega) hqlt)
          · exact hR q hqge hq2
      · rw [keyAt_eq_of_getD (@lswap_getD_other t rU rD (pr - 1) (by omega) (by omega))]
        exact hpiv

theorem lswap_getD_fst_all (t : List Nat) {i j : Nat} (hi : i < t.length) :
    (lswap t i j).getD i 0 = t.getD j 0 := by
  rcases eq_or_ne i j with he | hne
  · rw [he, lswap_self]
  · exact lswap_getD_fst t hi hne

theorem lswap_getD_snd_all (t : List Nat) {i j : Nat} (hj : j < t.length) :
    (lswap t i j).getD j 0 = t.getD i 0 := by
  rcases eq_or_ne i j with he | hne
  · rw [he, lswap_self]
  · exact lswap_getD_snd t hj

/-- One conditional swap of the median-of-3 network. -/
theorem medianStage (keys u : List Nat) (i j : Nat) (hi : i < u.length)
    (hj : j < u.length) (u' : List Nat)
    (he : u' = if keyAt keys u i < keyAt keys u j then lswap u i j else u) :
    u'.Perm u ∧ u'.length = u.length
    ∧ SameOutside u u' (min i j) (max i j)
    ∧ (∀ p, p ≠ i → p ≠ j → u'.getD p 0 = u.getD p 0)
    ∧ keyAt keys u' j ≤ keyAt keys u' i
    ∧ ((keyAt keys u' i = keyAt keys u i ∧ keyAt keys u' j = keyAt keys u j)
      ∨ (keyAt keys u' i = keyAt keys u j ∧ keyAt keys u' j = keyAt keys u i)) := by
  subst he
  by_cases hc : keyAt keys u i < keyAt keys u j
  · rw [if_pos hc]
    have hij : i ≠ j := by
      intro he'
      rw [he'] at hc
      exact lt_irrefl _ hc
    have e1 : keyAt keys (lswap u i j) i = keyAt keys u j :=
      keyAt_eq_of_getD (lswap_getD_fst_all u hi)
    have e2 : keyAt keys (lswap u i j) j = keyAt keys u i :=
      keyAt_eq_of_getD (lswap_getD_snd_all u hj)
    refine ⟨lswap_perm u hi hj, lswap_length u i j,
      sameOutside_lswap u (min_le_left i j) (le_max_left i j)
        (min_le_right i j) (le_max_right i j),
      ?_, ?_, Or.inr ⟨e1, e2⟩⟩
    · intro p h1 h2
      exact @lswap_getD_other u i j p h1 h2
    · rw [e1, e2]
      exact le_of_lt hc
  · rw [if_neg hc]
    exact ⟨List.Perm.refl u, rfl, sameOutside_rfl u _ _, fun p _ _ => rfl,
      le_of_not_lt hc, Or.inl ⟨rfl, rfl⟩⟩

/-- The median-of-3 preamble of `partitionStep`: some array `t3`, a
permutation of `t` touched only inside `[pl..pr]`, carries the sorted
3-sample, and `partitionStep` continues from it. -/
theorem median3_ex (keys t : List Nat) (pl pr : Nat) (hgap : 15 < pr - pl)
    (hpr : pr < t.length) :
    ∃ t3, SameOutside t t3 pl pr ∧ t3.Perm t ∧ t3.length = t.length
      ∧ keyAt keys t3 pl ≤ keyAt keys t3 (pl + (pr - pl) / 2)
      ∧ keyAt keys t3 (pl + (pr - pl) / 2) ≤ keyAt keys t3 pr
      ∧ partitionStep keys t pl pr
        = (lswap (partLoop keys (keyAt keys t3 (pl + (pr - pl) / 2))
              ((lswap t3 (pl + (pr - pl) / 2) (pr - 1)).length + 1)
              (lswap t3 (pl + (pr - pl) / 2) (pr - 1)) pl (pr - 1)).1
            (partLoop keys (keyAt keys t3 (pl + (pr - pl) / 2))
              ((lswap t3 (pl + (pr - pl) / 2) (pr - 1)).length + 1)
              (lswap t3 (pl + (pr - pl) / 2) (pr - 1)) pl (pr - 1)).2 (pr - 1),
           (partLoop keys (keyAt keys t3 (pl + (pr - pl) / 2))
              ((lswap t3 (pl + (pr - pl) / 2) (pr - 1)).length + 1)
              (lswap t3 (pl + (pr - pl) / 2) (pr - 1)) pl (pr - 1)).2) := by
  have hpm1 : pl + 8 ≤ pl + (pr - pl) / 2 := by omega
  have hpm2 : pl + (pr - pl) / 2 + 8 ≤ pr := by omega
  obtain ⟨P1, L1, O1, D1, K1, V1⟩ := medianStage keys t (pl + (pr - pl) / 2) pl
    (by omega) (by omega) _ rfl
  obtain ⟨P2, L2, O2, D2, K2, V2⟩ := medianStage keys
    (if keyAt keys t (pl + (pr - pl) / 2) < keyAt keys t pl
      then lswap t (pl + (pr - pl) / 2) pl else t) pr (pl + (pr - pl) / 2)
    (by rw [L1]; omega) (by rw [L1]; omega) _ rfl
  obtain ⟨P3, L3, O3, D3, K3, V3⟩ := medianStage keys
    (if keyAt keys
        (if keyAt keys t (pl + (pr - pl) / 2) < keyAt keys t pl
          then lswap t (pl + (pr - pl) / 2) pl else t) pr
        < keyAt keys
        (if keyAt keys t (pl + (pr - pl) / 2) < keyAt keys t pl
          then lswap t (pl + (pr - pl) / 2) pl else t) (pl + (pr - pl) / 2)
      then lswap
        (if keyAt keys t (pl + (pr - pl) / 2) < keyAt keys t pl
          then lswap t (pl + (pr - pl) / 2) pl else t) pr (pl + (pr - pl) / 2)
      else
        (if keyAt keys t (pl + (pr - pl) / 2) < keyAt keys t pl
          then lswap t (pl + (pr - pl) / 2) pl else t))
    (pl + (pr - pl) / 2) pl
    (by rw [L2, L1]; omega) (by rw [L2, L1]; omega) _ rfl
  refine ⟨_, ?_, (P3.trans P2).trans P1, by rw [L3, L2, L1], K3, ?_, rfl⟩
  · exact sameOutside_trans
      (sameOutside_trans
        (sameOutside_mono O1 (by omega) (by omega))
        (sameOutside_mono O2 (by omega) (by omega)))
      (sameOutside_mono O3 (by omega) (by omega))
  · have hpl2 : keyAt keys
        (if keyAt keys
            (if keyAt keys t (pl + (pr - pl) / 2) < keyAt keys t pl
              then lswap t (pl + (pr - pl) / 2) pl else t) pr
            < keyAt keys
            (if keyAt keys t (pl + (pr - pl) / 2) < keyAt keys t pl
              then lswap t (pl + (pr - pl) / 2) pl else t) (pl + (pr - pl) / 2)
          then lswap
            (if keyAt keys t (pl + (pr - pl) / 2) < keyAt keys t pl
              then lswap t (pl + (pr - pl) / 2) pl else t) pr (pl + (pr - pl) / 2)
          else
            (if keyAt keys t (pl + (pr - pl) / 2) < keyAt keys t pl
              then lswap t (pl + (pr - pl) / 2) pl else t)) pl
        = keyAt keys
        (if keyAt keys t (pl + (pr - pl) / 2) < keyAt keys t pl
          then lswap t (pl + (pr - pl) / 2) pl else t) pl :=
      keyAt_eq_of_getD (D2 pl (by omega) (by omega))
    have hplpr : keyAt keys
        (if keyAt keys
            (if keyAt keys t (pl + (pr - pl) / 2) < keyAt keys t pl
              then lswap t (pl + (pr - pl) / 2) pl else t) pr
            < keyAt keys
            (if keyAt keys t (pl + (pr - pl) / 2) < keyAt keys t pl
              then lswap t (pl + (pr - pl) / 2) pl else t) (pl + (pr - pl) / 2)
          then lswap
            (if keyAt keys t (pl + (pr - pl) / 2) < keyAt keys t pl
              then lswap t (pl + (pr - pl) / 2) pl else t) pr (pl + (pr - pl) / 2)
          else
            (if keyAt keys t (pl + (pr - pl) / 2) < keyAt keys t pl
              then lswap t (pl + (pr - pl) / 2) pl else t)) pl
        ≤ keyAt keys
        (if keyAt keys
            (if keyAt keys t (pl + (pr - pl) / 2) < keyAt keys t pl
              then lswap t (pl + (pr - pl) / 2) pl else t) pr
            < keyAt keys
            (if keyAt keys t (pl + (pr - pl) / 2) < keyAt keys t pl
              then lswap t (pl + (pr - pl) / 2) pl else t) (pl + (pr - pl) / 2)
          then lswap
            (if keyAt keys t (pl + (pr - pl) / 2) < keyAt keys t pl
              then lswap t (pl + (pr - pl) / 2) pl else t) pr (pl + (pr - pl) / 2)
          else
            (if keyAt keys t (pl + (pr - pl) / 2) < keyAt keys t pl
              then lswap t (pl + (pr - pl) / 2) pl else t)) pr := by
      rcases V2 with ⟨e1, e2⟩ | ⟨e1, e2⟩
      · exact (hpl2.trans_le (K1.trans_eq e2.symm)).trans K2
      · exact hpl2.trans_le (K1.trans_eq e1.symm)
    rcases V3 with ⟨e1, e2⟩ | ⟨e1, e2⟩
    · rw [e1, keyAt_eq_of_getD (D3 pr (by omega) (by omega))]
      exact K2
    · rw [e1, keyAt_eq_of_getD (D3 pr (by omega) (by omega))]
      exact hplpr

/-- Full contract of one quicksort partition: the array is permuted
only inside `[pl..pr]`, the pivot lands strictly inside, everything
left of it is `≤` it and everything right of it is `≥` it. -/
theorem partitionStep_spec (keys t : List Nat) (pl pr : Nat) {u : List Nat}
    {pi : Nat} (hgap : 15 < pr - pl) (hpr : pr < t.length)
    (heq : partitionStep keys t pl pr = (u, pi)) :
    SameOutside t u pl pr ∧ u.Perm t ∧ pl + 1 ≤ pi ∧ pi + 1 ≤ pr
    ∧ (∀ p, pl ≤ p → p < pi → keyAt keys u p ≤ keyAt keys u pi)
    ∧ (∀ q, pi ≤ q → q ≤ pr → keyAt keys u pi ≤ keyAt keys u q) := by
  obtain ⟨t3, hS3, hP3, hL3, hA, hB, heq3⟩ := median3_ex keys t pl pr hgap hpr
  rw [heq3] at heq
  have he1 : lswap (partLoop keys (keyAt keys t3 (pl + (pr - pl) / 2))
      ((lswap t3 (pl + (pr - pl) / 2) (pr - 1)).length + 1)
      (lswap t3 (pl + (pr - pl) / 2) (pr - 1)) pl (pr - 1)).1
      (partLoop keys (keyAt keys t3 (pl + (pr - pl) / 2))
      ((lswap t3 (pl + (pr - pl) / 2) (pr - 1)).length + 1)
      (lswap t3 (pl + (pr - pl) / 2) (pr - 1)) pl (pr - 1)).2 (pr - 1) = u :=
    congrArg Prod.fst heq
  have he2 : (partLoop keys (keyAt keys t3 (pl + (pr - pl) / 2))
      ((lswap t3 (pl + (pr - pl) / 2) (pr - 1)).length + 1)
      (lswap t3 (pl + (pr - pl) / 2) (pr - 1)) pl (pr - 1)).2 = pi :=
    congrArg Prod.snd heq
  subst he2
  subst he1
  have hpm1 : pl + 8 ≤ pl + (pr - pl) / 2 := by omega
  have hpm2 : pl + (pr - pl) / 2 + 8 ≤ pr := by omega
  have hl3 : t3.length = t.length := hL3
  have hT4len : (lswap t3 (pl + (pr - pl) / 2) (pr - 1)).length = t.length := by
    rw [lswap_length, hl3]
  have hT4pl : keyAt keys (lswap t3 (pl + (pr - pl) / 2) (pr - 1)) pl
      = keyAt keys t3 pl :=
    keyAt_eq_of_getD (@lswap_getD_other t3 (pl + (pr - pl) / 2) (pr - 1) pl
      (by omega) (by omega))
  have hT4pr : keyAt keys (lswap t3 (pl + (pr - pl) / 2) (pr - 1)) pr
      = keyAt keys t3 pr :=
    keyAt_eq_of_getD (@lswap_getD_other t3 (pl + (pr - pl) / 2) (pr - 1) pr
      (by omega) (by omega))
  have hT4piv : keyAt keys (lswap t3 (pl + (pr - pl) / 2) (pr - 1)) (pr - 1)
      = keyAt keys t3 (pl + (pr - pl) / 2) :=
    keyAt_eq_of_getD (lswap_getD_snd_all t3 (by omega))
  obtain ⟨hPLsame, hPLperm, hpil, hpir, hLf, hRf, hpivf⟩ :=
    partLoop_spec keys (keyAt keys t3 (pl + (pr - pl) / 2)) pl pr
      ((lswap t3 (pl + (pr - pl) / 2) (pr - 1)).length + 1)
      (lswap t3 (pl + (pr - pl) / 2) (pr - 1)) pl (pr - 1)
      (by rw [hT4len]; exact hpr) le_rfl le_rfl (by omega)
      (by
        intro p hp1 hp2
        have hpe : p = pl := by omega
        rw [hpe, hT4pl]
        exact hA)
      (by
        intro q hq1 hq2
        have : q = pr - 1 ∨ q = pr := by omega
        rcases this with hqe | hqe
        · rw [hqe, hT4piv]
        · rw [hqe, hT4pr]
          exact hB)
      hT4piv
      (by rw [hT4len]; omega)
  have hPLlen : (partLoop keys (keyAt keys t3 (pl + (pr - pl) / 2))
      ((lswap t3 (pl + (pr - pl) / 2) (pr - 1)).length + 1)
      (lswap t3 (pl + (pr - pl) / 2) (pr - 1)) pl (pr - 1)).1.length
      = t.length := by
    rw [hPLsame.1, hT4len]
  refine ⟨?_, ?_, hpil, by omega, ?_, ?_⟩
  · exact sameOutside_trans
      (sameOutside_trans hS3 (sameOutside_lswap t3 (by omega) (by omega)
        (by omega) (by omega)))
      (sameOutside_trans hPLsame (sameOutside_lswap _ (by omega) (by omega)
        (by omega) (by omega)))
  · exact ((lswap_perm _ (by rw [hPLlen]; omega) (by rw [hPLlen]; omega)).trans
      hPLperm).trans ((lswap_perm t3 (by omega) (by omega)).trans hP3)
  · intro p hp1 hp2
    rw [keyAt_eq_of_getD (@lswap_getD_other
        (partLoop keys (keyAt keys t3 (pl + (pr - pl) / 2))
          ((lswap t3 (pl + (pr - pl) / 2) (pr - 1)).length + 1)
          (lswap t3 (pl + (pr - pl) / 2) (pr - 1)) pl (pr - 1)).1
        _ (pr - 1) p (by omega) (by omega)),
      keyAt_eq_of_getD (lswap_getD_fst_all _ (by rw [hPLlen]; omega)), hpivf]
    exact hLf p hp1 hp2
  · intro q hq1 hq2
    rw [keyAt_eq_of_getD (lswap_getD_fst_all _ (by rw [hPLlen]; omega)), hpivf]
    rcases Nat.eq_or_lt_of_le hq1 with hqe | hql
    · rw [← hqe,
        keyAt_eq_of_getD (lswap_getD_fst_all _ (by rw [hPLlen]; omega)), hpivf]
    · by_cases hqp : q = pr - 1
      · rw [hqp, keyAt_eq_of_getD (lswap_getD_snd_all _ (by rw [hPLlen]; omega))]
        exact hRf _ le_rfl (by omega)
      · rw [keyAt_eq_of_getD (@lswap_getD_other
          (partLoop keys (keyAt keys t3 (pl + (pr - pl) / 2))
            ((lswap t3 (pl + (pr - pl) / 2) (pr - 1)).length + 1)
            (lswap t3 (pl + (pr - pl) / 2) (pr - 1)) pl (pr - 1)).1
          _ (pr - 1) q (by omega) hqp)]
        exact hRf q (by omega) hq2

/-! ### The insertion sort on a general segment -/

theorem insIdx_sorted (keys : List Nat) (i : Nat) : ∀ l,
    l.Pairwise (fun a b => keys.getD a 0 ≤ keys.getD b 0) →
    (insIdx keys i l).Pairwise (fun a b => keys.getD a 0 ≤ keys.getD b 0) := by
  intro l
  induction l with
  | nil => intro _; simp [insIdx]
  | cons j rest ih =>
    intro hp
    rw [List.pairwise_cons] at hp
    unfold insIdx
    by_cases hc : keys.getD j 0 ≤ keys.getD i 0
    · rw [if_pos hc]
      rw [List.pairwise_cons]
      refine ⟨?_, ih hp.2⟩
      intro x hx
      rcases (mem_insIdx keys i x rest).mp hx with hx | hx
      · rw [hx]
        exact hc
      · exact hp.1 x hx
    · rw [if_neg hc]
      rw [List.pairwise_cons]
      refine ⟨?_, List.pairwise_cons.mpr hp⟩
      intro x hx
      rcases List.mem_cons.mp hx with hx | hx
      · rw [hx]
        exact le_of_not_le hc
      · exact le_trans (le_of_not_le hc) (hp.1 x hx)

theorem insArg_perm_aux (keys : List Nat) : ∀ (l acc : List Nat),
    (l.foldl (fun acc i => insIdx keys i acc) acc).Perm (acc ++ l) := by
  intro l
  induction l with
  | nil => intro acc; simp
  | cons x l ih =>
    intro acc
    show (l.foldl (fun acc i => insIdx keys i acc) (insIdx keys x acc)).Perm _
    refine (ih (insIdx keys x acc)).trans ?_
    refine (List.Perm.append_right l (insIdx_perm keys x acc)).trans ?_
    exact List.perm_middle.symm

theorem insArg_perm (keys l : List Nat) : (insArg keys l).Perm l := by
  have h := insArg_perm_aux keys l []
  simpa [insArg] using h

theorem insArg_sorted_aux (keys : List Nat) : ∀ (l acc : List Nat),
    acc.Pairwise (fun a b => keys.getD a 0 ≤ keys.getD b 0) →
    (l.foldl (fun acc i => insIdx keys i acc) acc).Pairwise
      (fun a b => keys.getD a 0 ≤ keys.getD b 0) := by
  intro l
  induction l with
  | nil => intro acc h; exact h
  | cons x l ih =>
    intro acc h
    exact ih (insIdx keys x acc) (insIdx_sorted keys x acc h)

theorem insArg_sorted (keys l : List Nat) :
    (insArg keys l).Pairwise (fun a b => keys.getD a 0 ≤ keys.getD b 0) :=
  insArg_sorted_aux keys l [] (List.Pairwise.nil)

/-- Contract of the insertion sort pass over `[pl..pr]`. -/
theorem insSeg_spec (keys t : List Nat) (pl pr : Nat) (hab : pl ≤ pr)
    (hpr : pr < t.length) :
    SameOutside t (insSeg keys t pl pr) pl pr
    ∧ (insSeg keys t pl pr).Perm t
    ∧ SortedSeg keys (insSeg keys t pl pr) pl pr := by
  have hslice : (t.drop pl).take (pr + 1 - pl) = segSlice t pl pr := rfl
  have hslen : (segSlice t pl pr).length = pr + 1 - pl := segSlice_len hab hpr
  have hilen : (insArg keys (segSlice t pl pr)).length = pr + 1 - pl := by
    rw [(insArg_perm keys _).length_eq, hslen]
  have htake : (t.take pl).length = pl := by
    rw [List.length_take]
    omega
  have hdlen : (t.drop (pr + 1)).length = t.length - (pr + 1) := List.length_drop _ _
  have heq : insSeg keys t pl pr
      = t.take pl ++ (insArg keys (segSlice t pl pr) ++ t.drop (pr + 1)) := by
    rw [insSeg, hslice, List.append_assoc]
  have hlen : (insSeg keys t pl pr).length = t.length := by
    rw [heq, List.length_append, List.length_append, htake, hilen, hdlen]
    omega
  have htakegen : ∀ (X R : List Nat), X.length = pl → (X ++ R).take pl = X := by
    intro X R hX
    rw [← hX, List.take_left]
  have hdropgen : ∀ (A D : List Nat), A.length = pr + 1 → (A ++ D).drop (pr + 1) = D := by
    intro A D hA
    rw [← hA, List.drop_left]
  have hperm : (insSeg keys t pl pr).Perm t := by
    rw [heq]
    conv_rhs => rw [segSlice_decomp (t := t) hab]
    exact List.Perm.append_left _ (List.Perm.append_right _ (insArg_perm keys _))
  have hgetmid : ∀ p, pl ≤ p → p ≤ pr →
      (insSeg keys t pl pr).getD p 0
        = (insArg keys (segSlice t pl pr)).getD (p - pl) 0 := by
    intro p h1 h2
    rw [heq, List.getD_eq_getElem?_getD, List.getElem?_append_right (by omega),
      htake, List.getElem?_append_left (by omega), ← List.getD_eq_getElem?_getD]
  refine ⟨⟨hlen, ?_, ?_⟩, hperm, ?_⟩
  · rw [heq]
    exact htakegen (t.take pl) _ htake
  · have hpp : (t.take pl ++ insArg keys (segSlice t pl pr)).length = pr + 1 := by
      rw [List.length_append, htake, hilen]
      omega
    rw [heq, ← List.append_assoc]
    exact hdropgen _ _ hpp
  · intro p q h1 h2 h3
    rw [keyAt, keyAt, hgetmid p h1 (by omega), hgetmid q (by omega) h3]
    have hio : p - pl < (insArg keys (segSlice t pl pr)).length := by omega
    have hjo : q - pl < (insArg keys (segSlice t pl pr)).length := by omega
    rw [List.getD_eq_getElem _ _ hio, List.getD_eq_getElem _ _ hjo]
    exact (List.pairwise_iff_getElem.mp (insArg_sorted keys _)) _ _ hio hjo (by omega)

/-! ### Heap-index arithmetic -/

theorem inSub_rfl (i : Nat) : inSub i i := ⟨0, by simp⟩

theorem inSub_parent {i q : Nat} (h : inSub i q) (hne : q ≠ i) : inSub i (q / 2) := by
  rcases h with ⟨s, hs⟩
  match s with
  | 0 => exact absurd (by simpa using hs) hne
  | s + 1 =>
    refine ⟨s, ?_⟩
    rw [Nat.div_div_eq_div_mul]
    rw [← hs]
    congr 1
    rw [pow_succ]
    ring

theorem inSub_child_l {i q : Nat} (h : inSub i q) : inSub i (2 * q) := by
  rcases h with ⟨s, hs⟩
  refine ⟨s + 1, ?_⟩
  rw [pow_succ, mul_comm (2 ^ s) 2, ← Nat.div_div_eq_div_mul,
    Nat.mul_div_cancel_left q (by omega)]
  exact hs

theorem inSub_child_r {i q : Nat} (h : inSub i q) : inSub i (2 * q + 1) := by
  rcases h with ⟨s, hs⟩
  refine ⟨s + 1, ?_⟩
  have e : (2 * q + 1) / 2 = q := by omega
  rw [pow_succ, mul_comm (2 ^ s) 2, ← Nat.div_div_eq_div_mul, e]
  exact hs

theorem inSub_of_parent_eq {i q : Nat} (h : q / 2 = i) (hq : 2 ≤ q) : inSub i q :=
  ⟨1, by simpa using h⟩

theorem inSub_ge {i q : Nat} (h : inSub i q) : i ≤ q := by
  rcases h with ⟨s, hs⟩
  calc i = q / 2 ^ s := hs.symm
    _ ≤ q := Nat.div_le_self q (2 ^ s)

theorem inSub_trans {i j q : Nat} (h1 : inSub i j) (h2 : inSub j q) : inSub i q := by
  rcases h1 with ⟨s, hs⟩
  rcases h2 with ⟨m, hm⟩
  refine ⟨m + s, ?_⟩
  rw [pow_add, ← Nat.div_div_eq_div_mul, hm, hs]

theorem inSub_two_mul_le {i q : Nat} (h : inSub i q) (hne : q ≠ i) (hi : 1 ≤ i) :
    2 * i ≤ q := by
  rcases h with ⟨s, hs⟩
  match s with
  | 0 => exact absurd (by simpa using hs) hne
  | s + 1 =>
    have h1 : i * 2 ^ (s + 1) ≤ q := by
      rw [← hs]
      exact Nat.div_mul_le_self q _
    have h2 : 2 * i ≤ i * 2 ^ (s + 1) := by
      have : 2 ≤ 2 ^ (s + 1) := by
        calc 2 = 2 ^ 1 := rfl
          _ ≤ 2 ^ (s + 1) := Nat.pow_le_pow_right (by omega) (by omega)
      calc 2 * i = i * 2 := by ring
        _ ≤ i * 2 ^ (s + 1) := Nat.mul_le_mul_left i this
    omega

theorem inSub_total {a b q : Nat} (ha : inSub a q) (hb : inSub b q) :
    inSub a b ∨ inSub b a := by
  rcases ha with ⟨s, hs⟩
  rcases hb with ⟨m, hm⟩
  rcases Nat.le_total s m with h | h
  · right
    refine ⟨m - s, ?_⟩
    have e : s + (m - s) = m := by omega
    rw [← hs, Nat.div_div_eq_div_mul, ← pow_add, e]
    exact hm
  · left
    refine ⟨s - m, ?_⟩
    have e : m + (s - m) = s := by omega
    rw [← hm, Nat.div_div_eq_div_mul, ← pow_add, e]
    exact hs

theorem inSub_sibling_disj {i q : Nat} (hi : 1 ≤ i) (hl : inSub (2 * i) q)
    (hr : inSub (2 * i + 1) q) : False := by
  rcases inSub_total hl hr with h | h
  · have := inSub_ge h
    rcases h with ⟨s, hs⟩
    match s with
    | 0 => omega
    | s + 1 =>
      have h1 : (2 * i + 1) / 2 ^ (s + 1) ≤ (2 * i + 1) / 2 := by
        apply Nat.div_le_div_left ?_ (by omega)
        calc 2 = 2 ^ 1 := rfl
          _ ≤ 2 ^ (s + 1) := Nat.pow_le_pow_right (by omega) (by omega)
      have h2 : (2 * i + 1) / 2 = i := by omega
      omega
  · have h1 := inSub_ge h
    rcases h with ⟨s, hs⟩
    have h2 : 2 * i / 2 ^ s ≤ 2 * i := Nat.div_le_self _ _
    omega

theorem inSub_cases {i q : Nat} (h : inSub i q) (hne : q ≠ i) :
    inSub (2 * i) q ∨ inSub (2 * i + 1) q := by
  rcases h with ⟨s, hs⟩
  match s with
  | 0 => exact absurd (by simpa using hs) hne
  | s + 1 =>
    have hc : q / 2 ^ s / 2 = i := by
      rw [Nat.div_div_eq_div_mul, ← pow_succ]
      exact hs
    have hsub : inSub (q / 2 ^ s) q := ⟨s, rfl⟩
    have : q / 2 ^ s = 2 * i ∨ q / 2 ^ s = 2 * i + 1 := by omega
    rcases this with he | he
    · left
      rw [← he]
      exact hsub
    · right
      rw [← he]
      exact hsub

theorem not_inSub_child_self {i j : Nat} (hi : 1 ≤ i) (hj : j = 2 * i ∨ j = 2 * i + 1) :
    ¬ inSub j i := by
  intro h
  have := inSub_ge h
  omega

theorem inSub_one {q : Nat} (h : 1 ≤ q) : inSub 1 q := by
  induction q using Nat.strong_induction_on with
  | _ q ih =>
    match q, h with
    | 1, _ => exact inSub_rfl 1
    | q + 2, _ =>
      have hh := ih ((q + 2) / 2) (by omega) (by omega)
      have := inSub_parent (q := q + 2) (i := 1)
      rcases hh with ⟨s, hs⟩
      exact ⟨s + 1, by rw [pow_succ, mul_comm (2 ^ s) 2, ← Nat.div_div_eq_div_mul, hs]⟩

/-! ### Double-set permutation -/

theorem cross_set_perm (t : List Nat) (i x y : Nat) (hi : i < t.length) :
    (y :: t.set i x).Perm (x :: t.set i y) := by
  have h := head_swap_perm y (t.set i x) i (by rw [List.length_set]; exact hi)
  rw [getD_set_self t i x hi, List.set_set] at h
  exact h.symm

theorem set_set_perm : ∀ (t : List Nat) (i j : Nat), i < t.length → j < t.length →
    i ≠ j → ∀ y, ((t.set i (t.getD j 0)).set j y).Perm (t.set i y) := by
  intro t
  induction t with
  | nil => intro i j hi _ _ _; simp at hi
  | cons x t ih =>
    intro i j hi hj hne y
    match i, j with
    | 0, 0 => omega
    | 0, m + 1 =>
      show (t.getD m 0 :: t.set m y).Perm (y :: t)
      exact head_swap_perm y t m (by simpa using hj)
    | i + 1, 0 =>
      show (y :: t.set i x).Perm (x :: t.set i y)
      exact cross_set_perm t i x y (by simpa using hi)
    | i + 1, m + 1 =>
      show (x :: (t.set i (t.getD m 0)).set m y).Perm (x :: t.set i y)
      exact (ih i m (by simpa using hi) (by simpa using hj) (by omega) y).cons x

/-! ### `aGet`/`aSet` on 1-indexed heap slots -/

theorem aGet_aSet_self (t : List Nat) (start k v : Nat) (hk : 1 ≤ k)
    (hb : start + k - 1 < t.length) : aGet (aSet t start k v) start k = v :=
  getD_set_self t _ v hb

theorem aGet_aSet_ne (t : List Nat) (start k v q : Nat) (hk : 1 ≤ k) (hq : 1 ≤ q)
    (hne : q ≠ k) : aGet (aSet t start k v) start q = aGet t start q :=
  getD_set_ne t _ _ v (by omega)

theorem aSet_length (t : List Nat) (start k v : Nat) :
    (aSet t start k v).length = t.length := List.length_set t _ v

/-- In a heap-ordered subtree every entry is at most the root. -/
theorem sub_le_root (keys t : List Nat) (start n r : Nat) (hr : 1 ≤ r)
    (hH : ∀ q, 2 ≤ q → q ≤ n → inSub r q → q ≠ r →
      keyOf keys (aGet t start q) ≤ keyOf keys (aGet t start (q / 2))) :
    ∀ q, 1 ≤ q → q ≤ n → inSub r q →
      keyOf keys (aGet t start q) ≤ keyOf keys (aGet t start r) := by
  intro q
  induction q using Nat.strong_induction_on with
  | _ q ih =>
    intro h1 h2 hsub
    rcases eq_or_ne q r with he | hne
    · rw [he]
    · have hge : r ≤ q := inSub_ge hsub
      have hq2 : 2 ≤ q := by
        have := inSub_two_mul_le hsub hne hr
        omega
      have hpar := inSub_parent hsub hne
      exact le_trans (hH q hq2 h2 hsub hne)
        (ih (q / 2) (by omega) (by omega) (by omega) hpar)

/-- Placing `tmp` straight into the hole `i` (the leaf cases of the
sift) satisfies the sift contract, provided `tmp` dominates the hole's
children. -/
theorem sift_base (keys : List Nat) (start n : Nat) (t : List Nat) (tmp i : Nat)
    (h1 : 1 ≤ i) (h2 : i ≤ n) (hb : start + n ≤ t.length)
    (hpre : ∀ q, 2 ≤ q → q ≤ n → inSub i q → q ≠ i → q / 2 ≠ i →
      keyOf keys (aGet t start q) ≤ keyOf keys (aGet t start (q / 2)))
    (hchild : ∀ c, (c = 2 * i ∨ c = 2 * i + 1) → c ≤ n →
      keyOf keys (aGet t start c) ≤ keyOf keys tmp) :
    (aSet t start i tmp).length = t.length
    ∧ (∀ pos, (∀ q, 1 ≤ q → q ≤ n → inSub i q → pos ≠ start + q - 1) →
        (aSet t start i tmp).getD pos 0 = t.getD pos 0)
    ∧ (aSet t start i tmp).Perm (aSet t start i tmp)
    ∧ (∀ q, 2 ≤ q → q ≤ n → inSub i q → q ≠ i →
        keyOf keys (aGet (aSet t start i tmp) start q)
          ≤ keyOf keys (aGet (aSet t start i tmp) start (q / 2)))
    ∧ (∀ B, keyOf keys tmp ≤ B →
        (∀ q, 1 ≤ q → q ≤ n → inSub i q → q ≠ i →
          keyOf keys (aGet t start q) ≤ B) →
        ∀ q, 1 ≤ q → q ≤ n → inSub i q →
          keyOf keys (aGet (aSet t start i tmp) start q) ≤ B) := by
  refine ⟨aSet_length t start i tmp, ?_, List.Perm.refl _, ?_, ?_⟩
  · intro pos hpos
    exact getD_set_ne t _ pos tmp
      (fun he => hpos i h1 h2 (inSub_rfl i) he.symm)
  · intro q hq2 hqn hqsub hqne
    have hq1 : 1 ≤ q := by omega
    rw [aGet_aSet_ne t start i tmp q h1 hq1 hqne]
    rcases eq_or_ne (q / 2) i with hpe | hpne
    · rw [hpe, aGet_aSet_self t start i tmp h1 (by omega)]
      exact hchild q (by omega) hqn
    · rw [aGet_aSet_ne t start i tmp (q / 2) h1 (by omega) hpne]
      exact hpre q hq2 hqn hqsub hqne hpne
  · intro B htmp hB q hq1 hqn hqsub
    rcases eq_or_ne q i with hqe | hqne
    · rw [hqe, aGet_aSet_self t start i tmp h1 (by omega)]
      exact htmp
    · rw [aGet_aSet_ne t start i tmp q h1 hq1 hqne]
      exact hB q hq1 hqn hqsub hqne

theorem hsSift_succ (keys : List Nat) (start n tmp f : Nat) (t : List Nat)
    (i j : Nat) :
    hsSift keys start n tmp (f + 1) t i j =
      if j ≤ n then
        if keyOf keys tmp < keyOf keys (aGet t start
            (if j < n && keyOf keys (aGet t start j) < keyOf keys (aGet t start (j + 1))
              then j + 1 else j)) then
          hsSift keys start n tmp f
            (aSet t start i (aGet t start
              (if j < n && keyOf keys (aGet t start j) < keyOf keys (aGet t start (j + 1))
                then j + 1 else j)))
            (if j < n && keyOf keys (aGet t start j) < keyOf keys (aGet t start (j + 1))
              then j + 1 else j)
            ((if j < n && keyOf keys (aGet t start j) < keyOf keys (aGet t start (j + 1))
              then j + 1 else j)
              + (if j < n && keyOf keys (aGet t start j) < keyOf keys (aGet t start (j + 1))
                then j + 1 else j))
        else aSet t start i tmp
      else aSet t start i tmp := rfl

/-- Full contract of the sift-down walk from hole `i` with child
pointer `2 * i`. -/
theorem hsSift_spec (keys : List Nat) (start n : Nat) : ∀ (fuel : Nat)
    (t : List Nat) (tmp i : Nat),
    1 ≤ i → i ≤ n → start + n ≤ t.length → n + 1 - i ≤ fuel →
    (∀ q, 2 ≤ q → q ≤ n → inSub i q → q ≠ i → q / 2 ≠ i →
      keyOf keys (aGet t start q) ≤ keyOf keys (aGet t start (q / 2))) →
    (hsSift keys start n tmp fuel t i (2 * i)).length = t.length
    ∧ (∀ pos, (∀ q, 1 ≤ q → q ≤ n → inSub i q → pos ≠ start + q - 1) →
        (hsSift keys start n tmp fuel t i (2 * i)).getD pos 0 = t.getD pos 0)
    ∧ (hsSift keys start n tmp fuel t i (2 * i)).Perm (aSet t start i tmp)
    ∧ (∀ q, 2 ≤ q → q ≤ n → inSub i q → q ≠ i →
        keyOf keys (aGet (hsSift keys start n tmp fuel t i (2 * i)) start q)
          ≤ keyOf keys (aGet (hsSift keys start n tmp fuel t i (2 * i)) start (q / 2)))
    ∧ (∀ B, keyOf keys tmp ≤ B →
        (∀ q, 1 ≤ q → q ≤ n → inSub i q → q ≠ i →
          keyOf keys (aGet t start q) ≤ B) →
        ∀ q, 1 ≤ q → q ≤ n → inSub i q →
          keyOf keys (aGet (hsSift keys start n tmp fuel t i (2 * i)) start q) ≤ B) := by
  intro fuel
  induction fuel with
  | zero => intro t tmp i h1 h2 hb hf hpre; omega
  | succ f ih =>
    intro t tmp i h1 h2 hb hf hpre
    by_cases hled : 2 * i ≤ n
    · -- children exist; select the larger one
      obtain ⟨j, hjeq, hjmem, hjle, hsel1, hsel2⟩ :
          ∃ j, (if 2 * i < n && keyOf keys (aGet t start (2 * i))
                  < keyOf keys (aGet t start (2 * i + 1))
                then 2 * i + 1 else 2 * i) = j
            ∧ (j = 2 * i ∨ j = 2 * i + 1) ∧ j ≤ n
            ∧ keyOf keys (aGet t start (2 * i)) ≤ keyOf keys (aGet t start j)
            ∧ (2 * i + 1 ≤ n →
                keyOf keys (aGet t start (2 * i + 1)) ≤ keyOf keys (aGet t start j)) := by
        by_cases hc : 2 * i < n ∧ keyOf keys (aGet t start (2 * i))
            < keyOf keys (aGet t start (2 * i + 1))
        · refine ⟨2 * i + 1, ?_, Or.inr rfl, by omega, le_of_lt hc.2, fun _ => le_rfl⟩
          rw [if_pos (by simp only [Bool.and_eq_true, decide_eq_true_eq]; exact hc)]
        · refine ⟨2 * i, ?_, Or.inl rfl, hled, le_rfl, ?_⟩
          · rw [if_neg (by simp only [Bool.and_eq_true, decide_eq_true_eq]; exact hc)]
          · intro hin
            rcases Nat.lt_or_ge (2 * i) n with hlt | hge
            · have : ¬ keyOf keys (aGet t start (2 * i))
                  < keyOf keys (aGet t start (2 * i + 1)) := fun hk => hc ⟨hlt, hk⟩
              omega
            · omega
      have hj1 : 1 ≤ j := by omega
      have hjhalf : j / 2 = i := by omega
      have hjne : j ≠ i := by omega
      have hjsub : inSub i j := inSub_of_parent_eq hjhalf (by omega)
      have hchild_le : ∀ c, (c = 2 * i ∨ c = 2 * i + 1) → c ≤ n →
          keyOf keys (aGet t start c) ≤ keyOf keys (aGet t start j) := by
        intro c hc hcn
        rcases hc with hc | hc
        · rw [hc]; exact hsel1
        · rw [hc]; exact hsel2 (by omega)
      by_cases hlt : keyOf keys tmp < keyOf keys (aGet t start j)
      · -- descend: move the larger child up and recurse from it
        have hred : hsSift keys start n tmp (f + 1) t i (2 * i)
            = hsSift keys start n tmp f (aSet t start i (aGet t start j)) j (2 * j) := by
          rw [hsSift_succ, if_pos hled, hjeq, if_pos hlt]
          congr 1
          omega
        rw [hred]
        have hlen1 : (aSet t start i (aGet t start j)).length = t.length :=
          aSet_length t start i _
        have ht1j : ∀ q, 1 ≤ q → q ≠ i →
            aGet (aSet t start i (aGet t start j)) start q = aGet t start q :=
          fun q hq hne => aGet_aSet_ne t start i _ q h1 hq hne
        have hmemne : ∀ q, inSub j q → q ≠ i := by
          intro q hq
          have := inSub_ge hq
          omega
        have hsubij : ∀ q, inSub j q → inSub i q := fun q hq => inSub_trans hjsub hq
        obtain ⟨ih1, ih2, ih3, ih4, ih5⟩ := ih (aSet t start i (aGet t start j)) tmp j
          hj1 hjle (by rw [hlen1]; exact hb) (by omega)
          (by
            intro q hq2 hqn hqsub hqne hqpne
            rw [ht1j q (by omega) (hmemne q hqsub),
              ht1j (q / 2) (by omega) (hmemne (q / 2) (inSub_parent hqsub hqne))]
            have hge2 := inSub_ge (inSub_parent hqsub hqne)
            exact hpre q hq2 hqn (hsubij q hqsub) (hmemne q hqsub) (by omega))
        have hRi : aGet (hsSift keys start n tmp f (aSet t start i (aGet t start j))
            j (2 * j)) start i = aGet t start j := by
          have hpos := ih2 (start + i - 1)
            (by
              intro q hq1 hqn hqsub
              have := inSub_ge hqsub
              omega)
          show (hsSift keys start n tmp f _ j (2 * j)).getD (start + i - 1) 0 = _
          rw [hpos]
          exact aGet_aSet_self t start i _ h1 (by omega)
        have hRout : ∀ q, 1 ≤ q → ¬ inSub j q → q ≠ i →
            aGet (hsSift keys start n tmp f (aSet t start i (aGet t start j))
              j (2 * j)) start q = aGet t start q := by
          intro q hq1 hqnot hqne
          have hpos := ih2 (start + q - 1)
            (by
              intro q0 hq01 hq0n hq0sub hq0e
              exact hqnot (by
                have : q = q0 := by omega
                rw [this]
                exact hq0sub))
          show (hsSift keys start n tmp f _ j (2 * j)).getD (start + q - 1) 0 = _
          rw [hpos]
          exact ht1j q hq1 hqne
        have hsubroot : ∀ q, 1 ≤ q → q ≤ n → inSub j q →
            keyOf keys (aGet t start q) ≤ keyOf keys (aGet t start j) := by
          apply sub_le_root keys t start n j hj1
          intro q hq2 hqn hqsub hqne
          have hp := inSub_parent hqsub hqne
          have hpge := inSub_ge hp
          exact hpre q hq2 hqn (hsubij q hqsub) (hmemne q hqsub) (by omega)
        refine ⟨ih1.trans hlen1, ?_, ?_, ?_, ?_⟩
        · intro pos hpos
          rw [ih2 pos (fun q hq1 hqn hqsub => hpos q hq1 hqn (hsubij q hqsub))]
          exact getD_set_ne t _ pos _ (fun he => hpos i h1 h2 (inSub_rfl i) he.symm)
        · exact ih3.trans (set_set_perm t (start + i - 1) (start + j - 1)
            (by omega) (by omega) (by omega) tmp)
        · intro q hq2 hqn hqsub hqne
          by_cases hqj : inSub j q
          · rcases eq_or_ne q j with hqe | hqne2
            · have hbound := ih5 (keyOf keys (aGet t start j)) (le_of_lt hlt)
                (by
                  intro q0 h01 h0n h0sub h0ne
                  rw [ht1j q0 h01 (hmemne q0 h0sub)]
                  exact hsubroot q0 h01 h0n h0sub)
                j hj1 hjle (inSub_rfl j)
              rw [hqe, hjhalf, hRi]
              exact hbound
            · exact ih4 q hq2 hqn hqj hqne2
          · have hqco := inSub_cases hqsub hqne
            obtain ⟨o, homem, hoij, hqo⟩ :
                ∃ o, (o = 2 * i ∨ o = 2 * i + 1) ∧ o ≠ j ∧ inSub o q := by
              rcases hjmem with hj2 | hj2
              · exact ⟨2 * i + 1, Or.inr rfl, by omega,
                  hqco.resolve_left (fun hc => hqj (by rw [hj2]; exact hc))⟩
              · exact ⟨2 * i, Or.inl rfl, by omega,
                  hqco.resolve_right (fun hc => hqj (by rw [hj2]; exact hc))⟩
            have hsib : ∀ q0, inSub o q0 → ¬ inSub j q0 := by
              intro q0 h0 hj0
              rcases hjmem with hj2 | hj2 <;> rcases homem with ho2 | ho2
              · omega
              · exact inSub_sibling_disj h1 (by rw [← hj2]; exact hj0)
                  (by rw [← ho2]; exact h0)
              · exact inSub_sibling_disj h1 (by rw [← ho2]; exact h0)
                  (by rw [← hj2]; exact hj0)
              · omega
            have hogt : i < o := by rcases homem with h | h <;> omega
            have hqgeo : o ≤ q := inSub_ge hqo
            rcases eq_or_ne q o with hqe | hqneo
            · have hq2i : q / 2 = i := by rcases homem with h | h <;> omega
              rw [hq2i, hRi, hRout q (by omega) hqj (by omega)]
              refine hchild_le q ?_ hqn
              rcases homem with h | h
              · exact Or.inl (by omega)
              · exact Or.inr (by omega)
            · have hqpar := inSub_parent hqo hqneo
              have hparge := inSub_ge hqpar
              rw [hRout q (by omega) hqj (by omega),
                hRout (q / 2) (by omega) (hsib (q / 2) hqpar) (by omega)]
              exact hpre q hq2 hqn hqsub hqne (by omega)
        · intro B htmp hB q hq1 hqn hqsub
          rcases eq_or_ne q i with hqe | hqne
          · rw [hqe, hRi]
            exact hB j hj1 hjle hjsub hjne
          · by_cases hqj : inSub j q
            · refine ih5 B htmp ?_ q hq1 hqn hqj
              intro q0 h01 h0n h0sub h0ne
              rw [ht1j q0 h01 (hmemne q0 h0sub)]
              exact hB q0 h01 h0n (hsubij q0 h0sub) (hmemne q0 h0sub)
            · rw [hRout q hq1 hqj hqne]
              exact hB q hq1 hqn hqsub hqne
      · -- tmp already dominates: place it
        have hred : hsSift keys start n tmp (f + 1) t i (2 * i)
            = aSet t start i tmp := by
          rw [hsSift_succ, if_pos hled, hjeq, if_neg hlt]
        rw [hred]
        exact sift_base keys start n t tmp i h1 h2 hb hpre
          (fun c hc hcn => le_trans (hchild_le c hc hcn) (le_of_not_lt hlt))
    · -- no children: place tmp
      have hred : hsSift keys start n tmp (f + 1) t i (2 * i)
          = aSet t start i tmp := by
        rw [hsSift_succ, if_neg hled]
      rw [hred]
      exact sift_base keys start n t tmp i h1 h2 hb hpre
        (fun c hc hcn => by omega)

theorem sameOutside_of_getD {t t' : List Nat} (hlen : t'.length = t.length)
    (a b : Nat) (h : ∀ pos, pos < a ∨ b < pos → t'.getD pos 0 = t.getD pos 0) :
    SameOutside t t' a b := by
  refine ⟨hlen, ?_, ?_⟩
  · apply List.ext_getElem (by rw [List.length_take, List.length_take, hlen])
    intro p h1 h2
    have hp : p < a := by
      rw [List.length_take] at h1
      exact lt_of_lt_of_le h1 (min_le_left _ _)
    have hpl' : p < t'.length := by
      rw [List.length_take] at h1
      exact lt_of_lt_of_le h1 (min_le_right _ _)
    have hpl : p < t.length := by rw [← hlen]; exact hpl'
    have h3 := h p (Or.inl hp)
    rw [List.getD_eq_getElem t' 0 hpl', List.getD_eq_getElem t 0 hpl] at h3
    rw [List.getElem_take, List.getElem_take]
    exact h3
  · apply List.ext_getElem (by rw [List.length_drop, List.length_drop, hlen])
    intro p h1 h2
    have h1' : b + 1 + p < t'.length := by
      rw [List.length_drop] at h1
      omega
    have h2' : b + 1 + p < t.length := by rw [← hlen]; exact h1'
    have h3 := h (b + 1 + p) (Or.inr (by omega))
    rw [List.getD_eq_getElem t' 0 h1', List.getD_eq_getElem t 0 h2'] at h3
    rw [List.getElem_drop, List.getElem_drop]
    exact h3

/-- The heap-construction loop turns `Bpre` at counter `l` into a full
max-heap on `a[1..n]`. -/
theorem hsBuild_spec (keys : List Nat) (start n : Nat) : ∀ (f l : Nat)
    (t : List Nat), l ≤ f → 2 * l ≤ n → start + n ≤ t.length →
    (∀ q, 2 ≤ q → q ≤ n → l < q / 2 →
      keyOf keys (aGet t start q) ≤ keyOf keys (aGet t start (q / 2))) →
    (hsBuild keys start n f t l).length = t.length
    ∧ (∀ pos, pos < start ∨ start + n ≤ pos →
        (hsBuild keys start n f t l).getD pos 0 = t.getD pos 0)
    ∧ (hsBuild keys start n f t l).Perm t
    ∧ (∀ q, 2 ≤ q → q ≤ n →
        keyOf keys (aGet (hsBuild keys start n f t l) start q)
          ≤ keyOf keys (aGet (hsBuild keys start n f t l) start (q / 2))) := by
  intro f
  induction f with
  | zero =>
    intro l t hlf hln hb hpre
    have hl0 : l = 0 := by omega
    subst hl0
    exact ⟨rfl, fun _ _ => rfl, List.Perm.refl t, fun q h2 hn => hpre q h2 hn (by omega)⟩
  | succ f ih =>
    intro l t hlf hln hb hpre
    match l, hlf with
    | 0, _ =>
      have hred0 : hsBuild keys start n (f + 1) t 0 = t := by
        show (if 0 = 0 then t else _) = t
        rw [if_pos rfl]
      rw [hred0]
      refine ⟨rfl, fun _ _ => rfl, List.Perm.refl t, ?_⟩
      intro q h2 hn
      exact hpre q h2 hn (by omega)
    | l + 1, hlf =>
      have hl1 : 1 ≤ l + 1 := by omega
      have hlen : l + 1 ≤ n := by omega
      have hred : hsBuild keys start n (f + 1) t (l + 1)
          = hsBuild keys start n f
            (hsSift keys start n (aGet t start (l + 1)) (n + 2) t (l + 1)
              (2 * (l + 1))) l := by
        show (if l + 1 = 0 then t else _) = _
        rw [if_neg (by omega)]
        congr 1
      rw [hred]
      obtain ⟨s1, s2, s3, s4, s5⟩ := hsSift_spec keys start n (n + 2) t
        (aGet t start (l + 1)) (l + 1) hl1 hlen hb (by omega)
        (by
          intro q h2 hn hsub hqne hpne
          have h2l := inSub_two_mul_le hsub hqne (by omega)
          exact hpre q h2 hn (by omega))
      have hsift_t : (hsSift keys start n (aGet t start (l + 1)) (n + 2) t (l + 1)
          (2 * (l + 1))).Perm t := by
        refine s3.trans ?_
        have he : aSet t start (l + 1) (aGet t start (l + 1)) = t :=
          set_getD_self t (start + (l + 1) - 1)
        rw [he]
      have houtseg : ∀ q, 1 ≤ q → ¬ inSub (l + 1) q →
          aGet (hsSift keys start n (aGet t start (l + 1)) (n + 2) t (l + 1)
            (2 * (l + 1))) start q = aGet t start q := by
        intro q hq1 hqnot
        have := s2 (start + q - 1)
          (by
            intro q0 h01 h0n h0sub h0e
            exact hqnot (by
              have : q = q0 := by omega
              rw [this]
              exact h0sub))
        exact this
      obtain ⟨b1, b2, b3, b4⟩ := ih l
        (hsSift keys start n (aGet t start (l + 1)) (n + 2) t (l + 1) (2 * (l + 1)))
        (by omega) (by omega) (by rw [s1]; exact hb)
        (by
          intro q h2 hn hlq
          by_cases hqsub : inSub (l + 1) q
          · refine s4 q h2 hn hqsub ?_
            intro he
            rw [he] at hlq
            omega
          · have hqp : ¬ inSub (l + 1) (q / 2) := by
              intro hp
              refine hqsub ?_
              have : q = 2 * (q / 2) ∨ q = 2 * (q / 2) + 1 := by omega
              rcases this with he | he
              · rw [he]
                exact inSub_child_l hp
              · rw [he]
                exact inSub_child_r hp
            rw [houtseg q (by omega) hqsub, houtseg (q / 2) (by omega) hqp]
            refine hpre q h2 hn ?_
            have : q / 2 ≠ l + 1 := fun he => hqp (he ▸ inSub_rfl _)
            omega)
      refine ⟨b1.trans s1, ?_, b3.trans hsift_t, b4⟩
      intro pos hpos
      rw [b2 pos hpos]
      refine s2 pos ?_
      intro q0 h01 h0n h0sub
      omega

/-- The extraction loop of `aheapsort_`: pops the maximum to the end of
the shrinking heap until the whole `a[1..N]` is ascending. -/
theorem hsExtract_spec (keys : List Nat) (start N : Nat) : ∀ (f m : Nat)
    (t : List Nat), m ≤ f → m ≤ N → start + N ≤ t.length →
    (∀ q, 2 ≤ q → q ≤ m →
      keyOf keys (aGet t start q) ≤ keyOf keys (aGet t start (q / 2))) →
    (∀ p q, m + 1 ≤ p → p < q → q ≤ N →
      keyOf keys (aGet t start p) ≤ keyOf keys (aGet t start q)) →
    (m < N → ∀ p, 1 ≤ p → p ≤ m →
      keyOf keys (aGet t start p) ≤ keyOf keys (aGet t start (m + 1))) →
    (hsExtract keys start f t m).length = t.length
    ∧ (∀ pos, pos < start ∨ start + N ≤ pos →
        (hsExtract keys start f t m).getD pos 0 = t.getD pos 0)
    ∧ (hsExtract keys start f t m).Perm t
    ∧ (∀ p q, 1 ≤ p → p < q → q ≤ N →
        keyOf keys (aGet (hsExtract keys start f t m) start p)
          ≤ keyOf keys (aGet (hsExtract keys start f t m) start q)) := by
  intro f
  induction f with
  | zero =>
    intro m t hmf hmN hb hheap htail hbnd
    have hm0 : m = 0 := by omega
    subst hm0
    exact ⟨rfl, fun _ _ => rfl, List.Perm.refl t,
      fun p q h1 h2 h3 => htail p q (by omega) h2 h3⟩
  | succ f ih =>
    intro m t hmf hmN hb hheap htail hbnd
    by_cases hm : m ≤ 1
    · have hred : hsExtract keys start (f + 1) t m = t := by
        show (if m ≤ 1 then t else _) = t
        rw [if_pos hm]
      rw [hred]
      refine ⟨rfl, fun _ _ => rfl, List.Perm.refl t, ?_⟩
      intro p q h1 h2 h3
      rcases Nat.lt_or_ge p (m + 1) with hp | hp
      · have hpm : p = 1 ∧ m = 1 := by omega
        rcases Nat.eq_or_lt_of_le (show m + 1 ≤ q by omega) with hqe | hql
        · rw [← hqe]
          exact hbnd (by omega) p h1 (by omega)
        · exact le_trans (hbnd (by omega) p h1 (by omega))
            (htail (m + 1) q le_rfl hql h3)
      · exact htail p q hp h2 h3
    · have hm2 : 2 ≤ m := by omega
      have hred : hsExtract keys start (f + 1) t m
          = hsExtract keys start f
            (hsSift keys start (m - 1) (aGet t start m) (m - 1 + 2)
              (aSet t start m (aGet t start 1)) 1 2) (m - 1) := by
        show (if m ≤ 1 then t else _) = _
        rw [if_neg hm]
      have hroot : ∀ p, 1 ≤ p → p ≤ m →
          keyOf keys (aGet t start p) ≤ keyOf keys (aGet t start 1) :=
        fun p h1 h2 => sub_le_root keys t start m 1 le_rfl
          (fun q hq2 hqm _ _ => hheap q hq2 hqm) p h1 h2 (inSub_one h1)
      have hmlen : start + m - 1 < t.length := by omega
      have ht1 : ∀ q, 1 ≤ q → q ≠ m →
          aGet (aSet t start m (aGet t start 1)) start q = aGet t start q :=
        fun q h1 hne => aGet_aSet_ne t start m _ q (by omega) h1 hne
      have ht1m : aGet (aSet t start m (aGet t start 1)) start m = aGet t start 1 :=
        aGet_aSet_self t start m _ (by omega) hmlen
      obtain ⟨s1, s2, s3, s4, s5⟩ := hsSift_spec keys start (m - 1) (m - 1 + 2)
        (aSet t start m (aGet t start 1)) (aGet t start m) 1 le_rfl (by omega)
        (by rw [aSet_length]; omega) (by omega)
        (by
          intro q h2 hqn _ _ _
          rw [ht1 q (by omega) (by omega), ht1 (q / 2) (by omega) (by omega)]
          exact hheap q h2 (by omega))
      have hconv : hsSift keys start (m - 1) (aGet t start m) (m - 1 + 2)
            (aSet t start m (aGet t start 1)) 1 (2 * 1)
          = hsSift keys start (m - 1) (aGet t start m) (m - 1 + 2)
            (aSet t start m (aGet t start 1)) 1 2 := rfl
      rw [hconv] at s1 s2 s3 s4 s5
      have hout : ∀ p, 1 ≤ p → m ≤ p →
          aGet (hsSift keys start (m - 1) (aGet t start m) (m - 1 + 2)
              (aSet t start m (aGet t start 1)) 1 2) start p
            = aGet (aSet t start m (aGet t start 1)) start p := by
        intro p h1 hp
        exact s2 (start + p - 1) (by
          intro q0 h01 h0n h0sub
          omega)
      obtain ⟨e1, e2, e3, e4⟩ := ih (m - 1)
        (hsSift keys start (m - 1) (aGet t start m) (m - 1 + 2)
          (aSet t start m (aGet t start 1)) 1 2)
        (by omega) (by omega)
        (by rw [s1, aSet_length]; exact hb)
        (by
          intro q h2 hqn
          exact s4 q h2 hqn (inSub_one (by omega)) (by omega))
        (by
          intro p q h1 h2 h3
          have hp1 : 1 ≤ p := by omega
          rw [hout p hp1 (by omega), hout q (by omega) (by omega)]
          rcases eq_or_ne p m with hpe | hpne
          · rw [hpe, ht1m, ht1 q (by omega) (by omega)]
            rcases Nat.eq_or_lt_of_le (show m + 1 ≤ q by omega) with hqe | hql
            · rw [← hqe]
              exact hbnd (by omega) 1 le_rfl (by omega)
            · exact le_trans (hbnd (by omega) 1 le_rfl (by omega))
                (htail (m + 1) q le_rfl hql h3)
          · rw [ht1 p hp1 hpne, ht1 q (by omega) (by omega)]
            exact htail p q (by omega) h2 h3)
        (by
          intro hmN' p h1 h2
          have hm1 : m - 1 + 1 = m := by omega
          rw [hm1, hout m (by omega) le_rfl, ht1m]
          refine s5 (keyOf keys (aGet t start 1)) (hroot m (by omega) le_rfl) ?_
            p h1 (by omega) (inSub_one h1)
          intro q0 h01 h0n h0sub h0ne
          rw [ht1 q0 h01 (by omega)]
          exact hroot q0 h01 (by omega))
      rw [hred]
      refine ⟨?_, ?_, ?_, e4⟩
      · rw [e1, s1, aSet_length]
      · intro pos hpos
        rw [e2 pos hpos, s2 pos (by
          intro q0 h01 h0n h0sub
          omega)]
        exact getD_set_ne t _ pos _ (by omega)
      · refine e3.trans (s3.trans ?_)
        have hsw : aSet (aSet t start m (aGet t start 1)) start 1 (aGet t start m)
            = lswap t (start + m - 1) (start + 1 - 1) := rfl
        rw [hsw]
        exact lswap_perm t hmlen (by omega)

theorem keyAt_as_aGet (keys R : List Nat) (start p : Nat) (hp : start ≤ p) :
    keyAt keys R p = keyOf keys (aGet R start (p - start + 1)) := by
  have e : start + (p - start + 1) - 1 = p := by omega
  show keys.getD (R.getD p 0) 0 = keys.getD (R.getD (start + (p - start + 1) - 1) 0) 0
  rw [e]

/-- Contract of the heapsort fallback on the segment `[pl..pr]`. -/
theorem aheapsortSeg_spec (keys t : List Nat) (pl pr : Nat) (hab : pl ≤ pr)
    (hpr : pr < t.length) :
    SameOutside t (aheapsortSeg keys t pl (pr + 1 - pl)) pl pr
    ∧ (aheapsortSeg keys t pl (pr + 1 - pl)).Perm t
    ∧ SortedSeg keys (aheapsortSeg keys t pl (pr + 1 - pl)) pl pr := by
  have hn1 : 1 ≤ pr + 1 - pl := by omega
  obtain ⟨b1, b2, b3, b4⟩ := hsBuild_spec keys pl (pr + 1 - pl)
    ((pr + 1 - pl) / 2 + 1) ((pr + 1 - pl) / 2) t (by omega) (by omega)
    (by omega)
    (by
      intro q h2 hn hl
      omega)
  obtain ⟨x1, x2, x3, x4⟩ := hsExtract_spec keys pl (pr + 1 - pl)
    ((pr + 1 - pl) + 1) (pr + 1 - pl)
    (hsBuild keys pl (pr + 1 - pl) ((pr + 1 - pl) / 2 + 1) t ((pr + 1 - pl) / 2))
    (by omega) le_rfl (by rw [b1]; omega) b4
    (by
      intro p q h1 h2 h3
      omega)
    (by
      intro hlt
      omega)
  have hunf : aheapsortSeg keys t pl (pr + 1 - pl)
      = hsExtract keys pl ((pr + 1 - pl) + 1)
        (hsBuild keys pl (pr + 1 - pl) ((pr + 1 - pl) / 2 + 1) t
          ((pr + 1 - pl) / 2)) (pr + 1 - pl) := rfl
  rw [hunf]
  refine ⟨?_, x3.trans b3, ?_⟩
  · refine sameOutside_of_getD (x1.trans b1) pl pr ?_
    intro pos hpos
    rw [x2 pos (by omega), b2 pos (by omega)]
  · intro p q h1 h2 h3
    rw [keyAt_as_aGet keys _ pl p h1, keyAt_as_aGet keys _ pl q (by omega)]
    exact x4 (p - pl + 1) (q - pl + 1) (by omega) (by omega) (by omega)

/-! ### The global quicksort invariant -/

theorem segsLen_cons (s : Nat × Nat) (segs : List (Nat × Nat)) :
    segsLen (s :: segs) = segLen s + segsLen segs := by
  simp [segsLen]

theorem pendOK_tail {n : Nat} {s : Nat × Nat} {segs : List (Nat × Nat)}
    (h : PendOK n (s :: segs)) : PendOK n segs :=
  ⟨fun u hu => h.1 u (List.mem_cons_of_mem s hu), (List.pairwise_cons.mp h.2).2⟩

/-- Two positions outside the reworked head segment keep their order. -/
theorem invOut_outside {keys t t' : List Nat} {pl pr : Nat}
    {segs : List (Nat × Nat)} (hS : SameOutside t t' pl pr) (hP : t'.Perm t)
    (hinv : InvOut keys t ((pl, pr) :: segs)) {p q : Nat} (hpq : p < q)
    (hq : q < t.length) (hp_out : p < pl ∨ pr < p) (hq_out : q < pl ∨ pr < q)
    (hseg : ∀ s ∈ segs, ¬(s.1 ≤ p ∧ q ≤ s.2)) :
    keyAt keys t' p ≤ keyAt keys t' q := by
  rw [keyAt_eq_of_getD (getD_eq_of_outside hS hp_out),
    keyAt_eq_of_getD (getD_eq_of_outside hS hq_out)]
  refine hinv p q hpq hq ?_
  intro s hs
  rcases List.mem_cons.mp hs with he | hm
  · rw [he]
    intro hif
    simp only at hif
    omega
  · exact hseg s hm

/-- A position inside the reworked head segment stays ordered below any
position right of the segment. -/
theorem invOut_crossR {keys t t' : List Nat} {pl pr : Nat}
    {segs : List (Nat × Nat)} (hS : SameOutside t t' pl pr) (hP : t'.Perm t)
    (hpend : PendOK t.length ((pl, pr) :: segs))
    (hinv : InvOut keys t ((pl, pr) :: segs)) {p q : Nat}
    (hq : q < t.length) (hp1 : pl ≤ p) (hp2 : p ≤ pr) (hq1 : pr < q) :
    keyAt keys t' p ≤ keyAt keys t' q := by
  have hprn : pr < t.length := (hpend.1 (pl, pr) (by simp)).2
  obtain ⟨p0, h01, h02, he⟩ := exists_src hS hP hprn hp1 hp2
  rw [keyAt_eq_of_getD he, keyAt_eq_of_getD (getD_eq_of_outside hS (Or.inr hq1))]
  refine hinv p0 q (by omega) hq ?_
  intro s hs
  rcases List.mem_cons.mp hs with hse | hm
  · rw [hse]
    intro hif
    simp only at hif
    omega
  · intro hif
    have hdisj := List.pairwise_cons.mp hpend.2
    have := hdisj.1 s hm
    simp only at this
    omega

/-- A position inside the reworked head segment stays ordered above any
position left of the segment. -/
theorem invOut_crossL {keys t t' : List Nat} {pl pr : Nat}
    {segs : List (Nat × Nat)} (hS : SameOutside t t' pl pr) (hP : t'.Perm t)
    (hpend : PendOK t.length ((pl, pr) :: segs))
    (hinv : InvOut keys t ((pl, pr) :: segs)) {p q : Nat}
    (hq : q < t.length) (hq1 : pl ≤ q) (hq2 : q ≤ pr) (hp1 : p < pl) :
    keyAt keys t' p ≤ keyAt keys t' q := by
  have hprn : pr < t.length := (hpend.1 (pl, pr) (by simp)).2
  obtain ⟨q0, h01, h02, he⟩ := exists_src hS hP hprn hq1 hq2
  rw [keyAt_eq_of_getD he, keyAt_eq_of_getD (getD_eq_of_outside hS (Or.inl hp1))]
  refine hinv p q0 (by omega) (by omega) ?_
  intro s hs
  rcases List.mem_cons.mp hs with hse | hm
  · rw [hse]
    intro hif
    simp only at hif
    omega
  · intro hif
    have hdisj := List.pairwise_cons.mp hpend.2
    have := hdisj.1 s hm
    simp only at this
    omega

/-- Sorting the head segment in place discharges it from the pending
set: the global invariant then holds for the remaining segments. -/
theorem close_segment {keys t t' : List Nat} {pl pr : Nat}
    {segs : List (Nat × Nat)} (hS : SameOutside t t' pl pr) (hP : t'.Perm t)
    (hSort : SortedSeg keys t' pl pr)
    (hpend : PendOK t.length ((pl, pr) :: segs))
    (hinv : InvOut keys t ((pl, pr) :: segs)) :
    InvOut keys t' segs := by
  intro p q hpq hqlen hseg
  have hqn : q < t.length := by rw [← hS.1]; exact hqlen
  by_cases hp_in : pl ≤ p ∧ p ≤ pr
  · by_cases hq_in : pl ≤ q ∧ q ≤ pr
    · exact hSort p q hp_in.1 hpq hq_in.2
    · have hq1 : pr < q := by omega
      exact invOut_crossR hS hP hpend hinv hqn hp_in.1 hp_in.2 hq1
  · by_cases hq_in : pl ≤ q ∧ q ≤ pr
    · have hp1 : p < pl := by omega
      exact invOut_crossL hS hP hpend hinv hqn hq_in.1 hq_in.2 hp1
    · exact invOut_outside hS hP hinv hpq hqn (by omega) (by omega) hseg

theorem partPhase_succ (keys : List Nat) (f : Nat) (t : List Nat) (pl pr : Nat)
    (cdepth : Int) (stk : List (Nat × Nat × Int)) :
    partPhase keys (f + 1) t pl pr cdepth stk =
      if pr - pl > 15 then
        (if (partitionStep keys t pl pr).2 - pl < pr - (partitionStep keys t pl pr).2 then
          partPhase keys f (partitionStep keys t pl pr).1 pl
            ((partitionStep keys t pl pr).2 - 1) (cdepth - 1)
            (((partitionStep keys t pl pr).2 + 1, pr, cdepth - 1) :: stk)
        else
          partPhase keys f (partitionStep keys t pl pr).1
            ((partitionStep keys t pl pr).2 + 1) pr (cdepth - 1)
            ((pl, (partitionStep keys t pl pr).2 - 1, cdepth - 1) :: stk))
      else (t, pl, pr, stk, cdepth) := rfl

/-- The partition phase: repeatedly split the head segment, pushing one
half, until it is small; the global invariant, the pending bookkeeping
and the total measure are maintained. -/
theorem partPhase_spec (keys : List Nat) (n : Nat) : ∀ (fuel : Nat)
    (t : List Nat) (pl pr : Nat) (cdepth : Int) (stk : List (Nat × Nat × Int))
    (t' : List Nat) (pl' pr' : Nat) (stk' : List (Nat × Nat × Int)) (cd' : Int),
    partPhase keys fuel t pl pr cdepth stk = (t', pl', pr', stk', cd') →
    t.length = n →
    pr + 1 - pl ≤ fuel →
    PendOK n ((pl, pr) :: stripD stk) →
    InvOut keys t ((pl, pr) :: stripD stk) →
    t'.Perm t ∧ t'.length = n ∧ pr' - pl' ≤ 15
    ∧ PendOK n ((pl', pr') :: stripD stk')
    ∧ InvOut keys t' ((pl', pr') :: stripD stk')
    ∧ segsLen ((pl', pr') :: stripD stk') + stk'.length
      ≤ segsLen ((pl, pr) :: stripD stk) + stk.length := by
  intro fuel
  induction fuel with
  | zero =>
    intro t pl pr cdepth stk t' pl' pr' stk' cd' heq hlen hfuel hpend hinv
    obtain ⟨h1, h2, h3, h4, h5⟩ : t = t' ∧ pl = pl' ∧ pr = pr' ∧ stk = stk'
        ∧ cdepth = cd' := by
      refine ⟨congrArg (fun x => x.1) heq, congrArg (fun x => x.2.1) heq,
        congrArg (fun x => x.2.2.1) heq, congrArg (fun x => x.2.2.2.1) heq,
        congrArg (fun x => x.2.2.2.2) heq⟩
    subst h1; subst h2; subst h3; subst h4
    exact ⟨List.Perm.refl t, hlen, by omega, hpend, hinv, le_rfl⟩
  | succ f ih =>
    intro t pl pr cdepth stk t' pl' pr' stk' cd' heq hlen hfuel hpend hinv
    by_cases hguard : pr - pl > 15
    · obtain ⟨tp, pi, hps⟩ : ∃ a b, partitionStep keys t pl pr = (a, b) :=
        ⟨_, _, rfl⟩
      have hp1 : (partitionStep keys t pl pr).1 = tp := by rw [hps]
      have hp2 : (partitionStep keys t pl pr).2 = pi := by rw [hps]
      rw [partPhase_succ, if_pos hguard, hp1, hp2] at heq
      have hprn : pr < t.length := by
        rw [hlen]
        exact (hpend.1 (pl, pr) (by simp)).2
      obtain ⟨hsame, hperm, hpil, hpir, hleft, hright⟩ :=
        partitionStep_spec keys t pl pr hguard hprn hps
      have htplen : tp.length = n := by rw [hsame.1, hlen]
      have hdisj := List.pairwise_cons.mp hpend.2
      have hplr : pl ≤ pr := (hpend.1 (pl, pr) (by simp)).1
      -- the two sub-segments and the invariant on the partitioned array
      have hpendL : PendOK n ((pl, pi - 1) :: (pi + 1, pr) :: stripD stk) := by
        refine ⟨?_, ?_⟩
        · intro s hs
          rcases List.mem_cons.mp hs with he | hs2
          · rw [he]
            constructor
            · omega
            · simp only
              omega
          · rcases List.mem_cons.mp hs2 with he | hs3
            · rw [he]
              constructor
              · omega
              · simp only
                omega
            · exact hpend.1 s (List.mem_cons_of_mem _ hs3)
        · rw [List.pairwise_cons]
          constructor
          · intro s hs
            rcases List.mem_cons.mp hs with he | hs2
            · rw [he]
              left
              simp only
              omega
            · have := hdisj.1 s hs2
              simp only at this ⊢
              omega
          · rw [List.pairwise_cons]
            refine ⟨?_, hdisj.2⟩
            intro s hs
            have := hdisj.1 s hs
            simp only at this ⊢
            omega
      have hinvP : InvOut keys tp ((pl, pi - 1) :: (pi + 1, pr) :: stripD stk) := by
        intro p q hpq hqlen hseg
        have hqn : q < t.length := by rw [hlen, ← htplen]; exact hqlen
        by_cases hp_in : pl ≤ p ∧ p ≤ pr
        · by_cases hq_in : pl ≤ q ∧ q ≤ pr
          · -- both inside the partitioned segment: the pivot separates them
            have hnL := hseg (pl, pi - 1) (by simp)
            have hnR := hseg (pi + 1, pr) (by simp [List.mem_cons])
            simp only at hnL hnR
            have hpc : p ≤ pi := by omega
            have hqc : pi ≤ q := by omega
            rcases Nat.eq_or_lt_of_le hpc with hpe | hpl2
            · rw [hpe]
              exact hright q hqc hq_in.2
            · exact le_trans (hleft p hp_in.1 hpl2) (hright q hqc hq_in.2)
          · exact invOut_crossR hsame hperm (by rw [hlen]; exact hpend)
              hinv (by omega) hp_in.1 hp_in.2 (by omega)
        · by_cases hq_in : pl ≤ q ∧ q ≤ pr
          · exact invOut_crossL hsame hperm (by rw [hlen]; exact hpend)
              hinv (by omega) hq_in.1 hq_in.2 (by omega)
          · refine invOut_outside hsame hperm hinv hpq (by omega) (by omega)
              (by omega) ?_
            intro s hs
            exact hseg s (List.mem_cons_of_mem _ (List.mem_cons_of_mem _ hs))
      by_cases hside : pi - pl < pr - pi
      · rw [if_pos hside] at heq
        have hpendA : PendOK n ((pl, pi - 1) :: stripD ((pi + 1, pr, cdepth - 1) :: stk)) := by
          show PendOK n ((pl, pi - 1) :: (pi + 1, pr) :: stripD stk)
          exact hpendL
        obtain ⟨c1, c2, c3, c4, c5, c6⟩ := ih tp pl (pi - 1) (cdepth - 1)
          ((pi + 1, pr, cdepth - 1) :: stk) t' pl' pr' stk' cd' heq htplen
          (by omega) hpendA hinvP
        refine ⟨c1.trans hperm, c2, c3, c4, c5, ?_⟩
        refine le_trans c6 ?_
        show segLen (pl, pi - 1) + segsLen ((pi + 1, pr) :: stripD stk)
            + (stk.length + 1) ≤ segLen (pl, pr) + segsLen (stripD stk) + stk.length
        rw [segsLen_cons]
        show (pi - 1) + 1 - pl + ((pr + 1 - (pi + 1)) + segsLen (stripD stk))
            + (stk.length + 1) ≤ (pr + 1 - pl) + segsLen (stripD stk) + stk.length
        omega
      · rw [if_neg hside] at heq
        have hpendB : PendOK n ((pi + 1, pr) :: stripD ((pl, pi - 1, cdepth - 1) :: stk)) := by
          show PendOK n ((pi + 1, pr) :: (pl, pi - 1) :: stripD stk)
          refine ⟨?_, ?_⟩
          · intro s hs
            rcases List.mem_cons.mp hs with he | hs2
            · exact hpendL.1 s (List.mem_cons_of_mem _ (by rw [he]; simp))
            · rcases List.mem_cons.mp hs2 with he | hs3
              · exact hpendL.1 s (by rw [he]; simp)
              · exact hpend.1 s (List.mem_cons_of_mem _ hs3)
          · rw [List.pairwise_cons]
            constructor
            · intro s hs
              rcases List.mem_cons.mp hs with he | hs2
              · rw [he]
                right
                simp only
                omega
              · have := hdisj.1 s hs2
                simp only at this ⊢
                omega
            · rw [List.pairwise_cons]
              refine ⟨?_, hdisj.2⟩
              intro s hs
              have := hdisj.1 s hs
              simp only at this ⊢
              omega
        have hinvB : InvOut keys tp ((pi + 1, pr) :: (pl, pi - 1) :: stripD stk) := by
          intro p q hpq hqlen hseg
          refine hinvP p q hpq hqlen ?_
          intro s hs
          rcases List.mem_cons.mp hs with he | hs2
          · exact hseg s (List.mem_cons_of_mem _ (by rw [he]; simp))
          · rcases List.mem_cons.mp hs2 with he | hs3
            · exact hseg s (by rw [he]; simp)
            · exact hseg s (List.mem_cons_of_mem _ (List.mem_cons_of_mem _ hs3))
        obtain ⟨c1, c2, c3, c4, c5, c6⟩ := ih tp (pi + 1) pr (cdepth - 1)
          ((pl, pi - 1, cdepth - 1) :: stk) t' pl' pr' stk' cd' heq htplen
          (by omega) hpendB hinvB
        refine ⟨c1.trans hperm, c2, c3, c4, c5, ?_⟩
        refine le_trans c6 ?_
        show segLen (pi + 1, pr) + segsLen ((pl, pi - 1) :: stripD stk)
            + (stk.length + 1) ≤ segLen (pl, pr) + segsLen (stripD stk) + stk.length
        rw [segsLen_cons]
        show (pr + 1 - (pi + 1)) + (((pi - 1) + 1 - pl) + segsLen (stripD stk))
            + (stk.length + 1) ≤ (pr + 1 - pl) + segsLen (stripD stk) + stk.length
        omega
    · rw [partPhase_succ, if_neg hguard] at heq
      obtain ⟨h1, h2, h3, h4, h5⟩ : t = t' ∧ pl = pl' ∧ pr = pr' ∧ stk = stk'
          ∧ cdepth = cd' := by
        refine ⟨congrArg (fun x => x.1) heq, congrArg (fun x => x.2.1) heq,
          congrArg (fun x => x.2.2.1) heq, congrArg (fun x => x.2.2.2.1) heq,
          congrArg (fun x => x.2.2.2.2) heq⟩
      subst h1; subst h2; subst h3; subst h4
      exact ⟨List.Perm.refl t, hlen, by omega, hpend, hinv, le_rfl⟩

theorem stripD_cons (a b : Nat) (d : Int) (rest : List (Nat × Nat × Int)) :
    stripD ((a, b, d) :: rest) = (a, b) :: stripD rest := rfl

theorem segLen_pair (a b : Nat) : segLen (a, b) = b + 1 - a := rfl

theorem qsOuter_hs_nil (keys : List Nat) (f : Nat) (t : List Nat) (pl pr : Nat)
    (cdepth : Int) (h : cdepth < 0) :
    qsOuter keys (f + 1) t pl pr cdepth []
      = aheapsortSeg keys t pl (pr + 1 - pl) := by
  show (if cdepth < 0 then _ else _) = _
  rw [if_pos h]

theorem qsOuter_hs_cons (keys : List Nat) (f : Nat) (t : List Nat) (pl pr : Nat)
    (cdepth : Int) (a b : Nat) (d : Int) (rest : List (Nat × Nat × Int))
    (h : cdepth < 0) :
    qsOuter keys (f + 1) t pl pr cdepth ((a, b, d) :: rest)
      = qsOuter keys f (aheapsortSeg keys t pl (pr + 1 - pl)) a b d rest := by
  show (if cdepth < 0 then _ else _) = _
  rw [if_pos h]

theorem qsOuter_qs_nil (keys : List Nat) (f : Nat) (t : List Nat) (pl pr : Nat)
    (cdepth : Int) (stk : List (Nat × Nat × Int)) (tp : List Nat)
    (pl' pr' : Nat) (cd' : Int) (h : ¬ cdepth < 0)
    (hpp : partPhase keys (f + 1) t pl pr cdepth stk = (tp, pl', pr', [], cd')) :
    qsOuter keys (f + 1) t pl pr cdepth stk = insSeg keys tp pl' pr' := by
  show (if cdepth < 0 then _ else _) = _
  rw [if_neg h, hpp]

theorem qsOuter_qs_cons (keys : List Nat) (f : Nat) (t : List Nat) (pl pr : Nat)
    (cdepth : Int) (stk : List (Nat × Nat × Int)) (tp : List Nat)
    (pl' pr' : Nat) (cd' : Int) (a b : Nat) (d : Int)
    (rest : List (Nat × Nat × Int)) (h : ¬ cdepth < 0)
    (hpp : partPhase keys (f + 1) t pl pr cdepth stk
      = (tp, pl', pr', (a, b, d) :: rest, cd')) :
    qsOuter keys (f + 1) t pl pr cdepth stk
      = qsOuter keys f (insSeg keys tp pl' pr') a b d rest := by
  show (if cdepth < 0 then _ else _) = _
  rw [if_neg h, hpp]

/-- The outer introsort loop returns a permutation of its input whose
key sequence is fully ascending, given the pending-segment invariant
and fuel at least the total pending work. -/
theorem qsOuter_spec (keys : List Nat) (n : Nat) : ∀ (fuel : Nat)
    (t : List Nat) (pl pr : Nat) (cdepth : Int) (stk : List (Nat × Nat × Int)),
    t.length = n →
    segsLen ((pl, pr) :: stripD stk) + stk.length + 1 ≤ fuel →
    PendOK n ((pl, pr) :: stripD stk) →
    InvOut keys t ((pl, pr) :: stripD stk) →
    (qsOuter keys fuel t pl pr cdepth stk).Perm t
    ∧ (∀ p q, p < q → q < n →
        keyAt keys (qsOuter keys fuel t pl pr cdepth stk) p
          ≤ keyAt keys (qsOuter keys fuel t pl pr cdepth stk) q) := by
  intro fuel
  induction fuel with
  | zero =>
    intro t pl pr cdepth stk hlen hfuel hpend hinv
    omega
  | succ f ih =>
    intro t pl pr cdepth stk hlen hfuel hpend hinv
    have hhead := hpend.1 (pl, pr) (by simp)
    simp only at hhead
    have hplr : pl ≤ pr := hhead.1
    have hprn : pr < t.length := by rw [hlen]; exact hhead.2
    by_cases hcd : cdepth < 0
    · -- heapsort the head segment, then pop
      obtain ⟨aS, aP, aSort⟩ := aheapsortSeg_spec keys t pl pr hplr hprn
      have hclose : InvOut keys (aheapsortSeg keys t pl (pr + 1 - pl))
          (stripD stk) :=
        close_segment aS aP aSort (by rw [hlen]; exact hpend) hinv
      have halen : (aheapsortSeg keys t pl (pr + 1 - pl)).length = n := by
        rw [aS.1, hlen]
      match stk with
      | [] =>
        rw [qsOuter_hs_nil keys f t pl pr cdepth hcd]
        refine ⟨aP, ?_⟩
        intro p q hpq hq
        exact hclose p q hpq (by rw [halen]; exact hq)
          (by intro s hs; simp [stripD] at hs)
      | (a, b, d) :: rest =>
        rw [qsOuter_hs_cons keys f t pl pr cdepth a b d rest hcd]
        have hrec := ih (aheapsortSeg keys t pl (pr + 1 - pl)) a b d rest halen
          (by
            have h1 : segLen (pl, pr) = pr + 1 - pl := rfl
            rw [stripD_cons, segsLen_cons, segsLen_cons] at hfuel
            simp only [List.length_cons] at hfuel
            rw [segsLen_cons]
            omega)
          (pendOK_tail hpend) hclose
        exact ⟨hrec.1.trans aP, hrec.2⟩
    · -- partition phase, insertion-sort the small head, then pop
      obtain ⟨tp, pl', pr', stk', cd', hpp⟩ :
          ∃ a b c d e, partPhase keys (f + 1) t pl pr cdepth stk = (a, b, c, d, e) :=
        ⟨_, _, _, _, _, rfl⟩
      obtain ⟨c1, c2, c3, c4, c5, c6⟩ := partPhase_spec keys n (f + 1) t pl pr
        cdepth stk tp pl' pr' stk' cd' hpp hlen
        (by
          have h1 : segLen (pl, pr) = pr + 1 - pl := rfl
          rw [segsLen_cons] at hfuel
          omega)
        hpend hinv
      have hhead' := c4.1 (pl', pr') (by simp)
      simp only at hhead'
      obtain ⟨iS, iP, iSort⟩ := insSeg_spec keys tp pl' pr' hhead'.1
        (by rw [c2]; exact hhead'.2)
      have hclose : InvOut keys (insSeg keys tp pl' pr') (stripD stk') :=
        close_segment iS iP iSort (by rw [c2]; exact c4) c5
      have hilen : (insSeg keys tp pl' pr').length = n := by rw [iS.1, c2]
      match stk', hpp, c6, hclose with
      | [], hpp, c6, hclose =>
        rw [qsOuter_qs_nil keys f t pl pr cdepth stk tp pl' pr' cd' hcd hpp]
        refine ⟨iP.trans c1, ?_⟩
        intro p q hpq hq
        exact hclose p q hpq (by rw [hilen]; exact hq)
          (by intro s hs; simp [stripD] at hs)
      | (a, b, d) :: rest, hpp, c6, hclose =>
        rw [qsOuter_qs_cons keys f t pl pr cdepth stk tp pl' pr' cd' a b d rest
          hcd hpp]
        have hrec := ih (insSeg keys tp pl' pr') a b d rest hilen
          (by
            have h1 : 1 ≤ segLen (pl', pr') := by
              rw [segLen_pair]
              omega
            rw [stripD_cons, segsLen_cons, segsLen_cons] at c6
            simp only [List.length_cons] at c6
            rw [segsLen_cons]
            omega)
          (pendOK_tail c4) hclose
        exact ⟨hrec.1.trans (iP.trans c1), hrec.2⟩

/-- `np.argsort(keys, kind="quicksort")` always returns a permutation
of the row indices arranged in ascending key order (introsort is
correct; only its tie order is input-size dependent). -/
theorem npArgsort_sorts (keys : List Nat) :
    (npArgsort keys).Perm (List.range keys.length)
    ∧ (npArgsort keys).Pairwise (fun i j => keys.getD i 0 ≤ keys.getD j 0) := by
  rcases Nat.eq_zero_or_pos keys.length with hn0 | hpos
  · have hk : keys = [] := List.length_eq_zero.mp hn0
    subst hk
    have he : npArgsort [] = [] := rfl
    rw [he]
    exact ⟨by simp, List.Pairwise.nil⟩
  · have hdef : npArgsort keys
        = qsOuter keys (keys.length * keys.length + 64) (List.range keys.length)
          0 (keys.length - 1) (Int.ofNat (2 * npGetMsb keys.length)) [] := rfl
    have hqs := qsOuter_spec keys keys.length (keys.length * keys.length + 64)
      (List.range keys.length) 0 (keys.length - 1)
      (Int.ofNat (2 * npGetMsb keys.length)) []
      (List.length_range _)
      (by
        have h1 : segsLen ((0, keys.length - 1) :: stripD [])
            = keys.length - 1 + 1 - 0 := by
          rw [show stripD ([] : List (Nat × Nat × Int)) = [] from rfl,
            segsLen_cons, segLen_pair]
          simp [segsLen]
        rw [h1]
        have h2 : keys.length ≤ keys.length * keys.length := by
          calc keys.length = 1 * keys.length := (one_mul _).symm
            _ ≤ keys.length * keys.length := Nat.mul_le_mul_right _ hpos
        simp only [List.length_nil]
        omega)
      (by
        refine ⟨?_, ?_⟩
        · intro s hs
          rw [show stripD ([] : List (Nat × Nat × Int)) = [] from rfl] at hs
          rcases List.mem_cons.mp hs with he | he
          · rw [he]
            exact ⟨by omega, by simp only; omega⟩
          · simp at he
        · rw [show stripD ([] : List (Nat × Nat × Int)) = [] from rfl]
          exact List.pairwise_singleton _ _)
      (by
        intro p q hpq hqlen hseg
        rw [List.length_range] at hqlen
        exact absurd ⟨by omega, by simp only; omega⟩
          (hseg (0, keys.length - 1) (by simp)))
    rw [hdef]
    refine ⟨hqs.1, ?_⟩
    have hlen : (qsOuter keys (keys.length * keys.length + 64)
        (List.range keys.length) 0 (keys.length - 1)
        (Int.ofNat (2 * npGetMsb keys.length)) []).length = keys.length := by
      rw [hqs.1.length_eq, List.length_range]
    rw [List.pairwise_iff_getElem]
    intro i j hi hj hij
    have h := hqs.2 i j hij (by rw [← hlen]; exact hj)
    rw [keyAt, keyAt, List.getD_eq_getElem _ _ hi, List.getD_eq_getElem _ _ hj] at h
    exact h

/-- C4 (amended): `sort_values("date")` returns the discovered
references sorted ascending by date key for every input size (numpy's
introsort sorts correctly regardless of size), and the argsort
permutation covers every row exactly once; in addition, equal dates
keep their discovery order when at most 16 references are discovered
(numpy falls through to its stable insertion sort below 17 elements).
The counterexample shows that this tie guarantee does not extend to 17
or more references. -/
theorem sort_values_spec (refs : List SourceRef) :
    (sortValuesByDate refs).Pairwise (fun a b => dateOrd a.date ≤ dateOrd b.date)
    ∧ (npArgsort (refs.map (fun r => dateOrd r.date))).Perm
        (List.range refs.length)
    ∧ (refs.length ≤ 16 →
        (npArgsort (refs.map (fun r => dateOrd r.date))).Pairwise
          (idxLe (refs.map (fun r => dateOrd r.date)))) := by
  have hk : (refs.map (fun r => dateOrd r.date)).length = refs.length :=
    List.length_map _ _
  obtain ⟨hperm0, hpw0⟩ := npArgsort_sorts (refs.map (fun r => dateOrd r.date))
  have hperm : (npArgsort (refs.map (fun r => dateOrd r.date))).Perm
      (List.range refs.length) := by
    rw [hk] at hperm0
    exact hperm0
  refine ⟨?_, hperm, ?_⟩
  · unfold sortValuesByDate
    rw [List.pairwise_map]
    apply hpw0.imp_of_mem
    intro i j hi hj hle
    have hib : i < refs.length := by
      have := hperm.mem_iff.mp hi
      simpa using this
    have hjb : j < refs.length := by
      have := hperm.mem_iff.mp hj
      simpa using this
    have hgi : (refs.map (fun r => dateOrd r.date)).getD i 0
        = dateOrd (refs.getD i default).date := by
      rw [List.getD_eq_getElem _ _ (by rw [hk]; exact hib), List.getElem_map,
        List.getD_eq_getElem _ _ hib]
    have hgj : (refs.map (fun r => dateOrd r.date)).getD j 0
        = dateOrd (refs.getD j default).date := by
      rw [List.getD_eq_getElem _ _ (by rw [hk]; exact hjb), List.getElem_map,
        List.getD_eq_getElem _ _ hjb]
    rw [hgi, hgj] at hle
    exact hle
  · intro h
    have hsmall : (refs.map (fun r => dateOrd r.date)).length ≤ 16 := by
      rw [hk]
      exact h
    have hargs := npArgsort_small _ hsmall
    have hrange := insArg_range (refs.map (fun r => dateOrd r.date)) refs.length
    rw [hargs, hk]
    exact hrange.1

/-- Witness for C4 (amended): three references with one tied date pair
sort ascending, the argsort is a permutation of the row indices, and
the tie keeps its discovery order (the input has at most 16 rows). -/
theorem sort_values_spec_witness :
    (sortValuesByDate [⟨"u1", ⟨2020, 6, 10⟩⟩, ⟨"u2", ⟨2012, 1, 25⟩⟩,
        ⟨"u3", ⟨2020, 6, 10⟩⟩]).Pairwise (fun a b => dateOrd a.date ≤ dateOrd b.date)
    ∧ (npArgsort ((([⟨"u1", ⟨2020, 6, 10⟩⟩, ⟨"u2", ⟨2012, 1, 25⟩⟩, ⟨"u3", ⟨2020, 6, 10⟩⟩]
        : List SourceRef)).map (fun r => dateOrd r.date))).Perm (List.range 3)
    ∧ ([⟨"u1", ⟨2020, 6, 10⟩⟩, ⟨"u2", ⟨2012, 1, 25⟩⟩, ⟨"u3", ⟨2020, 6, 10⟩⟩]
        : List SourceRef).length ≤ 16
    ∧ (npArgsort ((([⟨"u1", ⟨2020, 6, 10⟩⟩, ⟨"u2", ⟨2012, 1, 25⟩⟩, ⟨"u3", ⟨2020, 6, 10⟩⟩]
        : List SourceRef)).map (fun r => dateOrd r.date))).Pairwise
        (idxLe ((([⟨"u1", ⟨2020, 6, 10⟩⟩, ⟨"u2", ⟨2012, 1, 25⟩⟩, ⟨"u3", ⟨2020, 6, 10⟩⟩]
          : List SourceRef)).map (fun r => dateOrd r.date))) :=
  ⟨(sort_values_spec [⟨"u1", ⟨2020, 6, 10⟩⟩, ⟨"u2", ⟨2012, 1, 25⟩⟩,
      ⟨"u3", ⟨2020, 6, 10⟩⟩]).1,
   (sort_values_spec [⟨"u1", ⟨2020, 6, 10⟩⟩, ⟨"u2", ⟨2012, 1, 25⟩⟩,
      ⟨"u3", ⟨2020, 6, 10⟩⟩]).2.1,
   by decide,
   (sort_values_spec [⟨"u1", ⟨2020, 6, 10⟩⟩, ⟨"u2", ⟨2012, 1, 25⟩⟩,
      ⟨"u3", ⟨2020, 6, 10⟩⟩]).2.2 (by decide)⟩

end FedScraper
